import Mathlib

/-!
# cpp-data-structures: pointer-with-storage, small-size list and hybrid stacks

A shallow embedding of `include/containers/padded_pointer.h`,
`include/containers/small_list.h`, `include/containers/stack.h` and
`include/containers/stack_ptrt.h`.

Conventions of the embedding.

* Machine integers are natural numbers; every conversion to a fixed-width
  unsigned type is an explicit `% 2 ^ w`.
* A C++ field type is a `FieldType`: an identity tag and its `sizeof`.
* A `static_assert` is a compile-time condition.  The embedded functions are
  total and the conditions appear as hypotheses of the theorems
  (`Contains`, `are_unique`, `sum_sizeof Types ≤ 2`).
* Run-time failure is a `Fault`: a failed `assert` (asserts are compiled in, the
  headers never define `NDEBUG`) or undefined behaviour (an access outside the
  live allocation, a read of a slot that was never written).
* Memory is counted in element slots, and in bytes for `stack_ptrt.h`.  A slot
  or byte is `none` until it is written.
  `malloc`, `aligned_alloc` and `realloc` always succeed; the address they
  answer with is an argument of the operation where the list keeps it.
-/

namespace CppDS

/-! ## Faults -/

deriving instance DecidableEq for Except

/-- How a call can fail at run time: `assertion n` is the `assert` on line `n`
of `small_list.h`; `undefined` is undefined behaviour. -/
inductive Fault where
  | assertion (line : Nat)
  | undefined
deriving DecidableEq, Repr

/-- The `assert` of `<cassert>`, tagged with its source line. -/
def assert (line : Nat) (c : Bool) : Except Fault Unit :=
  if c then .ok () else .error (.assertion line)

/-! ## padded_pointer.h -/

/-- A C++ type used as an auxiliary field: `tag` is its identity (what
`std::is_same` compares), `sizeof` its size in bytes. -/
structure FieldType where
  tag : Nat
  sizeof : Nat
deriving DecidableEq, Repr

namespace PointerWithStorage

/-- Source `sum_sizeof` / `sum_sizeof_impl` (padded_pointer.h:18-26). -/
def sum_sizeof : List FieldType → Nat
  | [] => 0
  | T :: Rest => T.sizeof + sum_sizeof Rest

/-- Source `are_unique` (padded_pointer.h:28-31): no type equals a later one. -/
def are_unique : List FieldType → Bool
  | [] => true
  | T :: Rest => if Rest.any (fun R => decide (T = R)) then false else are_unique Rest

/-- Source `Contains` (padded_pointer.h:56-61). -/
def Contains (T : FieldType) : List FieldType → Bool
  | [] => false
  | Head :: Rest => if T = Head then true else Contains T Rest

/-- Source `accumulateBefore` (padded_pointer.h:42-49).  The empty list is the case the
source rejects with `static_assert(sizeof...(Rest) > 0)`; it is only reached
when `Contains T Types` is false. -/
def accumulateBefore (T : FieldType) : List FieldType → Nat → Nat
  | [], sum => sum
  | Current :: Rest, sum =>
    if T = Current then sum else accumulateBefore T Rest (sum + Current.sizeof)

/-- Source `getCumulativeTypeSize` (padded_pointer.h:37-40). -/
def getCumulativeTypeSize (Types : List FieldType) (T : FieldType) : Nat :=
  accumulateBefore T Types 0

/-- The `memcpy` of the low `n` bytes of a little-endian integer into a zeroed
integer: the value of those `n` bytes. -/
def lowBytes (x n : Nat) : Nat := x % 2 ^ (8 * n)

/-- Source `storage` (padded_pointer.h:75-78) on the word `data`. -/
def storage (data cumSize thisSize : Nat) : Nat :=
  let top := ((data &&& 0xffff000000000000) >>> 48) % 2 ^ 16
  ((top >>> (8 * cumSize)) &&& ((1 <<< (thisSize * 8)) % 2 ^ 32 - 1)) % 2 ^ 16

/-- Source `packImpl` (padded_pointer.h:80-88) on the constructor arguments, each
given with its type. -/
def packImpl : List (FieldType × Nat) → Nat
  | [] => 0
  | (First, first) :: rest =>
    let partialBits := lowBytes first First.sizeof
    let upper := packImpl rest
    (partialBits ||| (upper <<< (8 * First.sizeof))) % 2 ^ 16

/-- The constructor `PointerWithStorage(P *ptr, Types... types)`
(padded_pointer.h:92-96); the result is the word `data`. -/
def construct (ptr : Nat) (types : List (FieldType × Nat)) : Nat :=
  let ptrVal := ptr % 2 ^ 64
  let topBits := packImpl types
  ((topBits <<< 48) % 2 ^ 64) ||| (ptrVal &&& 0x0000ffffffffffff)

/-- Source `getPointer` (padded_pointer.h:98). -/
def getPointer (data : Nat) : Nat := data &&& 0x0000ffffffffffff

/-- Source `getStorage<T>` (padded_pointer.h:101-109). -/
def getStorage (Types : List FieldType) (T : FieldType) (data : Nat) : Nat :=
  let cumSize := getCumulativeTypeSize Types T
  let thisSize := T.sizeof
  let top := storage data cumSize thisSize
  lowBytes top thisSize

/-- Source `setPointer` (padded_pointer.h:111-115). -/
def setPointer (data ptr : Nat) : Nat :=
  let lower_mask := 0x0000ffffffffffff
  let upper_mask := 0xffff000000000000
  (data &&& upper_mask) ||| ((ptr % 2 ^ 64) &&& lower_mask)

/-- Source `setStorage<T>` (padded_pointer.h:117-128).  `~mask` is taken on the
promoted 32-bit `int`, so its bit pattern is `2 ^ 32 - 1 - mask`. -/
def setStorage (Types : List FieldType) (T : FieldType) (data value : Nat) : Nat :=
  let cumSize := getCumulativeTypeSize Types T
  let thisSize := T.sizeof
  let topBits := ((data &&& 0xffff000000000000) >>> 48) % 2 ^ 16
  let mask := ((((1 <<< (thisSize * 8)) % 2 ^ 32 - 1) <<< (cumSize * 8)) % 2 ^ 32) % 2 ^ 16
  let topBits := (topBits &&& (2 ^ 32 - 1 - mask)) % 2 ^ 16
  let packed := lowBytes value thisSize
  let topBits := (topBits ||| (packed <<< (cumSize * 8))) % 2 ^ 16
  (data &&& 0x0000ffffffffffff) ||| ((topBits <<< 48) % 2 ^ 64)

end PointerWithStorage

/-! ## Memory

A heap allocation, or an array member, is a list of element slots.  A slot is
`none` until it is first written.  An allocation of `k * sizeof(T)` bytes is
`k` slots.  Indices are C `int`s. -/

/-- Read `a[i]`: undefined behaviour outside the array and on a slot that was
never written. -/
def readSlot {T : Type} (a : List (Option T)) (i : Int) : Except Fault T :=
  if i < 0 then .error .undefined
  else match a[i.toNat]? with
    | some (some x) => .ok x
    | _ => .error .undefined

/-- Write `a[i] = t`: undefined behaviour outside the array. -/
def writeSlot {T : Type} (a : List (Option T)) (i : Int) (t : T) :
    Except Fault (List (Option T)) :=
  if 0 ≤ i ∧ i.toNat < a.length then .ok (a.set i.toNat (some t)) else .error .undefined

/-- The contents of a block after `realloc` to `n` slots: the common prefix is
kept, new slots are unwritten.  For `n = 0` the result has no slot at all,
whether the allocator returns a null pointer or a zero-sized block. -/
def reallocSlots {T : Type} (a : List (Option T)) (n : Nat) : List (Option T) :=
  a.take n ++ List.replicate (n - a.length) none

/-- The `memmove` of `n` slots from index `src` to index `dst` inside one block
(the ranges may overlap). -/
def memmoveSlots {T : Type} (a : List (Option T)) (dst src n : Int) :
    Except Fault (List (Option T)) :=
  if 0 ≤ dst ∧ 0 ≤ src ∧ 0 ≤ n ∧ dst.toNat + n.toNat ≤ a.length
      ∧ src.toNat + n.toNat ≤ a.length then
    .ok (a.take dst.toNat ++ (a.drop src.toNat).take n.toNat ++ a.drop (dst.toNat + n.toNat))
  else .error .undefined

/-! ## small_list.h -/

/-- The state of a `SmallSizeList<T>`: the member `ptr` (one 64-bit word), and
the heap allocation the list owns, as its address `base` and its slots
`cells`. -/
structure SmallSizeList (T : Type) where
  ptr : Nat
  base : Nat
  cells : List (Option T)
deriving DecidableEq, Repr

namespace SmallSizeList

variable {T : Type}

/-- The field type `uint16_t` of `PointerWithStorage<T, uint16_t>`. -/
def uint16_t : FieldType := ⟨16, 2⟩

/-- The field list of `PointerWithStorage<T, uint16_t>`. -/
def Types : List FieldType := [uint16_t]

/-- Source `default_capacity` (small_list.h:29). -/
def default_capacity : Nat := 16

/-- Source `max_capacity` (small_list.h:30). -/
def max_capacity : Nat := 16 <<< 0b0111

/-- The access `p[i]` as an rvalue, for a pointer value `p`. -/
def load (L : SmallSizeList T) (p : Nat) (i : Int) : Except Fault T :=
  if p = L.base then readSlot L.cells i else .error .undefined

/-- The access `p[i] = t`, for a pointer value `p`. -/
def store (L : SmallSizeList T) (p : Nat) (i : Int) (t : T) : Except Fault (SmallSizeList T) :=
  if p = L.base then
    match writeSlot L.cells i t with
    | .ok c => .ok { L with cells := c }
    | .error e => .error e
  else .error .undefined

/-- The call `std::memmove(p + dst, p + src, n * sizeof(T))`. -/
def memmove (L : SmallSizeList T) (p : Nat) (dst src n : Int) : Except Fault (SmallSizeList T) :=
  if p = L.base then
    match memmoveSlots L.cells dst src n with
    | .ok c => .ok { L with cells := c }
    | .error e => .error e
  else .error .undefined

/-- The call `std::memset(p + i, 0, sizeof(T))`; `0 : T` is the value of `T` whose bytes
are all zero. -/
def memset [Zero T] (L : SmallSizeList T) (p : Nat) (i : Int) :
    Except Fault (SmallSizeList T) :=
  store L p i 0

/-- The call `std::realloc(p, n * sizeof(T))`, the allocator answering with the address
`q`: the block moves to `q` (possibly `q = p`) and `p` is dead unless `q = p`. -/
def realloc (L : SmallSizeList T) (p : Nat) (n : Nat) (q : Nat) :
    Except Fault (SmallSizeList T) :=
  if p = L.base then .ok { L with base := q, cells := reallocSlots L.cells n }
  else .error .undefined

/-- Source `get_capacity_exponent` (small_list.h:32-35). -/
def get_capacity_exponent (L : SmallSizeList T) : Nat :=
  let storage := PointerWithStorage.getStorage Types uint16_t L.ptr
  (storage >>> 13) % 2 ^ 16

/-- Source `capacity` (small_list.h:37-41). -/
def capacity (L : SmallSizeList T) : Nat :=
  let exponent := get_capacity_exponent L
  (default_capacity <<< exponent) % 2 ^ 16

/-- Source `increment_capacity` (small_list.h:44-54). -/
def increment_capacity (L : SmallSizeList T) : Except Fault (SmallSizeList T × Nat) := do
  let storage := PointerWithStorage.getStorage Types uint16_t L.ptr
  let exponent := (storage >>> 13) % 2 ^ 16
  let size := (storage &&& ((1 <<< 13) - 1)) % 2 ^ 16
  let exponent := (exponent + 1) % 2 ^ 16
  let storage := ((exponent <<< 13) ||| size) % 2 ^ 16
  let L := { L with ptr := PointerWithStorage.setStorage Types uint16_t L.ptr storage }
  assert 51 (decide (exponent ≤ 0b0111))
  let cap := (default_capacity <<< exponent) % 2 ^ 16
  pure (L, cap)

/-- Source `increment_size` (small_list.h:57-61). -/
def increment_size (L : SmallSizeList T) : SmallSizeList T :=
  let storage := PointerWithStorage.getStorage Types uint16_t L.ptr
  let storage := (storage + 1) % 2 ^ 16
  { L with ptr := PointerWithStorage.setStorage Types uint16_t L.ptr storage }

/-- Source `decrement_size` (small_list.h:63-67). -/
def decrement_size (L : SmallSizeList T) : SmallSizeList T :=
  let storage := PointerWithStorage.getStorage Types uint16_t L.ptr
  let storage := (storage + 2 ^ 16 - 1) % 2 ^ 16
  { L with ptr := PointerWithStorage.setStorage Types uint16_t L.ptr storage }

/-- Source `increment_capacity_and_size` (small_list.h:69-81). -/
def increment_capacity_and_size (L : SmallSizeList T) :
    Except Fault (SmallSizeList T × Nat) := do
  let storage := PointerWithStorage.getStorage Types uint16_t L.ptr
  let exponent := (storage >>> 13) % 2 ^ 16
  let size := (storage &&& ((1 <<< 13) - 1)) % 2 ^ 16
  let exponent := (exponent + 1) % 2 ^ 16
  let storage := ((exponent <<< 13) ||| size) % 2 ^ 16
  let storage := (storage + 1) % 2 ^ 16
  let L := { L with ptr := PointerWithStorage.setStorage Types uint16_t L.ptr storage }
  assert 77 (decide (exponent ≤ 0b0111))
  assert 78 (decide (1 = 0))
  let cap := (default_capacity <<< exponent) % 2 ^ 16
  pure (L, cap)

/-- The constructor (small_list.h:84-87): `malloc(sizeof(T *) * default_capacity)`
answers with the address `p`; the block has `8 * 16` bytes, which is
`8 * 16 / sizeof(T)` slots of `T`. -/
def new (sizeofT : Nat) (p : Nat) : SmallSizeList T :=
  { ptr := PointerWithStorage.construct p [(uint16_t, 0)]
    base := p
    cells := List.replicate (8 * default_capacity / sizeofT) none }

/-- Source `size` (small_list.h:94-98). -/
def size (L : SmallSizeList T) : Nat :=
  let storage := PointerWithStorage.getStorage Types uint16_t L.ptr
  (storage &&& ((1 <<< 13) - 1)) % 2 ^ 16

/-- Source `push_back` (small_list.h:120-133); `q` is the address `realloc` answers
with if it is called. -/
def push_back (q : Nat) (L : SmallSizeList T) (t : T) : Except Fault (SmallSizeList T) := do
  let p := PointerWithStorage.getPointer L.ptr
  let s := size L
  let c := capacity L
  if s < c then
    let L ← store L p s t
    pure (increment_size L)
  else
    let (L, new_cap) ← increment_capacity_and_size L
    let L ← realloc L p new_cap q
    let L := { L with ptr := PointerWithStorage.setPointer L.ptr q }
    store L q s t

/-- The loop of `remove` (small_list.h:138-148) from index `i` on, with
`fuel = s - i` iterations left; the loop test `i < s` holds exactly when `fuel`
is not zero. -/
def remove.loop [DecidableEq T] [Zero T] (t : T) (s : Int) (p : Nat) (L : SmallSizeList T) :
    Nat → Int → Except Fault (SmallSizeList T)
  | 0, _ => .ok L
  | fuel + 1, i => do
    let x ← load L p i
    if t = x then
      let L ← if i ≠ s - 1 then memmove L p i (i + 1) (s - i - 1) else memset L p i
      pure (decrement_size L)
    else
      remove.loop t s p L fuel (i + 1)

/-- Source `remove` (small_list.h:135-149). -/
def remove [DecidableEq T] [Zero T] (L : SmallSizeList T) (t : T) : Except Fault (SmallSizeList T) :=
  let s : Int := (size L : Nat)
  let p := PointerWithStorage.getPointer L.ptr
  remove.loop t s p L (size L) 0

/-- Source `removeAtIndex` (small_list.h:151-161). -/
def removeAtIndex [DecidableEq T] [Zero T] (L : SmallSizeList T) (i : Int) :
    Except Fault (SmallSizeList T) := do
  let s := size L
  assert 153 (decide (i < (s : Int)))
  let p := PointerWithStorage.getPointer L.ptr
  let L ← if i ≠ (s : Int) - 1 then memmove L p i (i + 1) ((s : Int) - i - 1) else memset L p i
  pure (decrement_size L)

/-- Source `operator[]` (small_list.h:163-166), read through the returned reference. -/
def subscript (L : SmallSizeList T) (idx : Int) : Except Fault T :=
  let p := PointerWithStorage.getPointer L.ptr
  load L p idx

/-- The elements at indices `0 .. size() - 1`, read with `operator[]`. -/
def elements (L : SmallSizeList T) : Except Fault (List T) :=
  (List.range (size L)).mapM (fun i => subscript L (i : Nat))

/-- The bit length of `x`, at most `fuel`: the position of its highest set bit
plus one, and `0` for `x = 0`. -/
def bitLength : Nat → Nat → Nat
  | 0, _ => 0
  | fuel + 1, x => if x = 0 then 0 else 1 + bitLength fuel (x / 2)

/-- The compiler builtin `__builtin_clz` on a 32-bit `unsigned int`: the number
of leading zero bits (the builtin is undefined for `0`). -/
def __builtin_clz (x : Nat) : Nat := 32 - bitLength 32 (x % 2 ^ 32)

/-- Source `reserve` (small_list.h:100-118); `q` is the address `realloc` answers
with.  The result of `realloc` is assigned to the local `p` only: the block
moves to `q` and the member `ptr` keeps the old address.  The arithmetic of the
exponent is in `size_t`. -/
def reserve (q : Nat) (L : SmallSizeList T) (n : Int) : Except Fault (SmallSizeList T) :=
  if n ≤ (capacity L : Nat) then .ok L
  else do
    assert 104 (decide (n ≤ 2048))
    assert 105 (decide (n ≥ (capacity L : Nat)))
    assert 106 (decide (n.toNat &&& (n.toNat - 1) = 0))
    let exponent := ((4 * 8 - 1 + 2 ^ 64 - __builtin_clz n.toNat - 4) % 2 ^ 64) % 2 ^ 16
    let storage := PointerWithStorage.getStorage Types uint16_t L.ptr
    let size := (storage &&& ((1 <<< 13) - 1)) % 2 ^ 16
    let storage := ((exponent <<< 13) ||| size) % 2 ^ 16
    let L := { L with ptr := PointerWithStorage.setStorage Types uint16_t L.ptr storage }
    assert 114 (decide (exponent ≤ 0b0111))
    let cap := (default_capacity <<< exponent) % 2 ^ 16
    let p := PointerWithStorage.getPointer L.ptr
    realloc L p cap q

/-- A run of `push_back` calls, one per element of `ts`, each `realloc` that
happens answering with the address `q`. -/
def push_back_all (q : Nat) (L : SmallSizeList T) (ts : List T) :
    Except Fault (SmallSizeList T) :=
  ts.foldlM (push_back q) L

/-- The list holds exactly the elements `l`, in order: the pointer field is the
address of the live allocation, `size()` is the length of `l`, and slots
`0 .. size() - 1` of the allocation hold the elements of `l`. -/
def Holds (L : SmallSizeList T) (l : List T) : Prop :=
  PointerWithStorage.getPointer L.ptr = L.base
    ∧ size L = l.length
    ∧ l.length ≤ L.cells.length
    ∧ L.cells.take l.length = l.map some

/-- The metadata invariant of the list: `size() ≤ capacity()` and `capacity()`
is `16 * 2 ^ k` for some `k` in `[0, 7]`. -/
def MetaInv (L : SmallSizeList T) : Prop :=
  size L ≤ capacity L ∧ ∃ k : Nat, k ≤ 7 ∧ capacity L = 16 * 2 ^ k

/-- A list of 8-byte elements holding `7, 8, 7`: exponent 0, count 3, sixteen
slots at address `0x1000`. -/
def sample : SmallSizeList Nat :=
  { ptr := 0x0003000000001000
    base := 0x1000
    cells := [some 7, some 8, some 7] ++ List.replicate 13 none }

/-- A list of 8-byte elements holding `7, 8, 9`: exponent 0, count 3, sixteen
slots at address `0x1000`. -/
def sampleDistinct : SmallSizeList Nat :=
  { ptr := 0x0003000000001000
    base := 0x1000
    cells := [some 7, some 8, some 9] ++ List.replicate 13 none }

/-- A full list at the first capacity: exponent 0, count 16, sixteen written
slots at address `0x1000`. -/
def sampleFull : SmallSizeList Nat :=
  { ptr := 0x0010000000001000
    base := 0x1000
    cells := (List.range 16).map some }

/-- A full list at the last capacity: exponent 7, count 2048, 2048 written slots
at address `0x1000`. -/
def sampleMax : SmallSizeList Nat :=
  { ptr := 0xe800000000001000
    base := 0x1000
    cells := List.replicate 2048 (some 0) }

end SmallSizeList

/-! ## stack.h -/

/-- Source `CACHELINE_SIZE` (stack.h:7). -/
def CACHELINE_SIZE : Nat := 64

/-- Source `STACK_SIZE(T)` (stack.h:8) for `sizeof(T) = sizeofT`, with
`sizeof(uint16_t) = 2` and `sizeof(T *) = 8`. -/
def STACK_SIZE (sizeofT : Nat) : Nat := (CACHELINE_SIZE - 2 * 2 - 8) / sizeofT

/-- The state of a `Stack<T>` (stack.h:17-20).  `heap_allocated_array` is `none`
for `nullptr` and otherwise the slots of the heap block. -/
structure Stack (T : Type) where
  index : Nat
  stack_allocated_array : List (Option T)
  _n_memb_heap : Nat
  heap_allocated_array : Option (List (Option T))
deriving DecidableEq, Repr

namespace Stack

variable {T : Type}

/-- The constructor (stack.h:23-27); the inline array has `STACK_SIZE(T)`
unwritten slots. -/
def new (sizeofT : Nat) : Stack T :=
  { index := 0
    stack_allocated_array := List.replicate (STACK_SIZE sizeofT) none
    _n_memb_heap := 0
    heap_allocated_array := none }

/-- Source `push` (stack.h:37-53).  `index` and `_n_memb_heap` are `uint16_t`; the
comparisons and the subscripts are computed in `int`. -/
def push (sizeofT : Nat) (s : Stack T) (t : T) : Except Fault (Stack T) :=
  let _n_memb_stack : Int := (STACK_SIZE sizeofT : Nat)
  if (s.index : Int) < _n_memb_stack then do
    let a ← writeSlot s.stack_allocated_array (s.index : Int) t
    pure { s with stack_allocated_array := a, index := (s.index + 1) % 2 ^ 16 }
  else
    match s.heap_allocated_array with
    | some heap =>
      if (s.index : Int) - _n_memb_stack < (s._n_memb_heap : Int) then do
        let heap ← writeSlot heap ((s.index : Int) - _n_memb_stack) t
        pure { s with heap_allocated_array := some heap, index := (s.index + 1) % 2 ^ 16 }
      else do
        let heap := reallocSlots heap (s._n_memb_heap * 2)
        let n := (s._n_memb_heap * 2) % 2 ^ 16
        let heap ← writeSlot heap ((s.index : Int) - _n_memb_stack) t
        pure { s with heap_allocated_array := some heap, _n_memb_heap := n,
                      index := (s.index + 1) % 2 ^ 16 }
    | none => do
      let heap : List (Option T) := List.replicate 64 none
      let heap ← writeSlot heap ((s.index : Int) - _n_memb_stack) t
      pure { s with heap_allocated_array := some heap, _n_memb_heap := 64,
                    index := (s.index + 1) % 2 ^ 16 }

/-- Source `top` (stack.h:55-62). -/
def top (sizeofT : Nat) (s : Stack T) : Except Fault T :=
  let _n_memb_stack : Int := (STACK_SIZE sizeofT : Nat)
  if (s.index : Int) ≤ _n_memb_stack then
    readSlot s.stack_allocated_array ((s.index : Int) - 1)
  else
    match s.heap_allocated_array with
    | some heap => readSlot heap ((s.index : Int) - _n_memb_stack - 1)
    | none => .error .undefined

/-- Source `pop` (stack.h:69-73): the value returned and the state left. -/
def pop (sizeofT : Nat) (s : Stack T) : Except Fault (T × Stack T) := do
  let t ← top sizeofT s
  pure (t, { s with index := (s.index + 2 ^ 16 - 1) % 2 ^ 16 })

/-- Source `size` (stack.h:75). -/
def size (s : Stack T) : Int := (s.index : Nat)

/-- A run of `push` calls, one per element of `xs`, in order. -/
def push_all (sizeofT : Nat) (s : Stack T) (xs : List T) : Except Fault (Stack T) :=
  xs.foldlM (push sizeofT) s

/-- A run of `n` `pop` calls: the values returned, in the order of the calls,
and the state left. -/
def pop_n (sizeofT : Nat) : Nat → Stack T → Except Fault (List T × Stack T)
  | 0, s => .ok ([], s)
  | n + 1, s => do
    let (t, s) ← pop sizeofT s
    let (ts, s) ← pop_n sizeofT n s
    pure (t :: ts, s)

/-- The stack holds the elements `xs`, bottom first: `size()` is the length of
`xs`, element `i` is in slot `i` of the inline array when `i < STACK_SIZE(T)`
and in slot `i - STACK_SIZE(T)` of the heap block otherwise. -/
def Stores (sizeofT : Nat) (s : Stack T) (xs : List T) : Prop :=
  s.index = xs.length
    ∧ xs.length < 2 ^ 16
    ∧ (∀ i : Nat, i < xs.length → i < STACK_SIZE sizeofT →
        s.stack_allocated_array[i]? = some xs[i]?)
    ∧ (STACK_SIZE sizeofT < xs.length →
        ∃ heap : List (Option T), s.heap_allocated_array = some heap
          ∧ ∀ i : Nat, STACK_SIZE sizeofT ≤ i → i < xs.length →
              heap[i - STACK_SIZE sizeofT]? = some xs[i]?)

/-- The bookkeeping of a stack that was filled by pushes only, `xs.length` of
them: the inline array keeps its length; no heap block before the inline array
overflows; afterwards a heap block of `H = 64 * 2 ^ j` slots that is more than
half full unless `H = 64`, and `_n_memb_heap` is `H` reduced to 16 bits. -/
def Grown (sizeofT : Nat) (s : Stack T) (xs : List T) : Prop :=
  s.stack_allocated_array.length = STACK_SIZE sizeofT
    ∧ (xs.length ≤ STACK_SIZE sizeofT →
        s.heap_allocated_array = none ∧ s._n_memb_heap = 0)
    ∧ (STACK_SIZE sizeofT < xs.length →
        ∃ (heap : List (Option T)) (j : Nat), s.heap_allocated_array = some heap
          ∧ heap.length = 64 * 2 ^ j
          ∧ s._n_memb_heap = (64 * 2 ^ j) % 2 ^ 16
          ∧ xs.length - STACK_SIZE sizeofT ≤ 64 * 2 ^ j
          ∧ (j = 0 ∨ 64 * 2 ^ j < 2 * (xs.length - STACK_SIZE sizeofT)))

/-- A stack of 8-byte elements after the pushes `4, 5, 6`. -/
def sampleStack : Stack Nat :=
  { index := 3
    stack_allocated_array := [some 4, some 5, some 6, none, none, none]
    _n_memb_heap := 0
    heap_allocated_array := none }

end Stack

/-! ## stack_ptrt.h

Memory is counted in bytes here: the class stores 6-byte elements with 8-byte
accesses.  A byte is `none` until it is first written.  Accesses need not be
aligned (x86-64). -/

/-- One byte of memory. -/
abbrev Byte : Type := Fin 256

/-- Source `EXP48BP_PTR_SIZE(T)` (stack_ptrt.h:11) for `sizeof(T) = sizeofT`. -/
def EXP48BP_PTR_SIZE (sizeofT : Nat) : Nat := (3 * sizeofT) / 4

/-- Source `EXP48BP_STACK_SIZE(T)` (stack_ptrt.h:12) for `sizeof(T) = sizeofT`, with
`sizeof(uint16_t) = sizeof(int16_t) = 2` and `sizeof(char *) = 8`. -/
def EXP48BP_STACK_SIZE (sizeofT : Nat) : Nat :=
  (CACHELINE_SIZE - 2 - 2 - 8) / (3 * sizeofT / 4)

/-- The little-endian store of the low `count` bytes of `v` at byte `off`. -/
def storeBytes (mem : List (Option Byte)) : Nat → Nat → Nat → List (Option Byte)
  | _, 0, _ => mem
  | off, count + 1, v =>
    storeBytes (mem.set off (some (Fin.ofNat (v % 256)))) (off + 1) count (v / 256)

/-- The little-endian value of the `count` bytes at byte `off`; `none` when one
of them is outside the block or was never written. -/
def loadBytes (mem : List (Option Byte)) : Nat → Nat → Option Nat
  | _, 0 => some 0
  | off, count + 1 =>
    match mem[off]? with
    | some (some b) => (loadBytes mem (off + 1) count).map (fun r => b.val + 256 * r)
    | _ => none

/-- The store `*reinterpret_cast<intptr_t *>(mem + off) = v` of 8 bytes:
undefined behaviour unless all 8 bytes lie inside the block. -/
def store64 (mem : List (Option Byte)) (off : Int) (v : Nat) :
    Except Fault (List (Option Byte)) :=
  if 0 ≤ off ∧ off.toNat + 8 ≤ mem.length then .ok (storeBytes mem off.toNat 8 (v % 2 ^ 64))
  else .error .undefined

/-- The load `*reinterpret_cast<uintN_t *>(mem + off)` of `width` bytes:
undefined behaviour unless all of them lie inside the block and were written. -/
def load (width : Nat) (mem : List (Option Byte)) (off : Int) : Except Fault Nat :=
  if off < 0 then .error .undefined
  else match loadBytes mem off.toNat width with
    | some v => .ok v
    | none => .error .undefined

/-- The conversion of an `int` to `int16_t`. -/
def int16_t (x : Int) : Int := (x + 2 ^ 15) % 2 ^ 16 - 2 ^ 15

/-- The state of an `Experimental48BPStack<T>` (stack_ptrt.h:34-37); a pointer
value is a 64-bit number.  `heap_allocated_array` is `none` for `nullptr` and
otherwise the bytes of the heap block. -/
structure Experimental48BPStack where
  index : Int
  stack_allocated_array : List (Option Byte)
  _n_memb_heap : Nat
  heap_allocated_array : Option (List (Option Byte))
deriving DecidableEq, Repr

namespace Experimental48BPStack

/-- The size of a pointer, `sizeof(T)`, fixed by the `static_assert`s of the
class (stack_ptrt.h:30-31). -/
def sizeofT : Nat := 8

/-- The region a store of `push` goes to. -/
inductive Region where
  | inline
  | heap
deriving DecidableEq, Repr

/-- The constructor (stack_ptrt.h:40-44); the inline array has
`CACHELINE_SIZE - sizeof(uint16_t) - sizeof(int16_t) - sizeof(char *)` unwritten
bytes. -/
def new : Experimental48BPStack :=
  { index := 0
    stack_allocated_array := List.replicate (CACHELINE_SIZE - 2 - 2 - 8) none
    _n_memb_heap := 0
    heap_allocated_array := none }

/-- The first part of `push` (stack_ptrt.h:51-66): the allocation step, and the
region and byte offset `memptr` points to. -/
def push_memptr (s : Experimental48BPStack) : Experimental48BPStack × Region × Int :=
  let _n_memb_stack : Int := (EXP48BP_STACK_SIZE sizeofT : Nat)
  let freePtrSize : Int := (EXP48BP_PTR_SIZE sizeofT : Nat)
  if s.index < _n_memb_stack then
    (s, .inline, freePtrSize * s.index)
  else
    match s.heap_allocated_array with
    | some heap =>
      if s.index - _n_memb_stack < (s._n_memb_heap : Int) then
        (s, .heap, freePtrSize * (s.index - _n_memb_stack))
      else
        ({ s with heap_allocated_array :=
                    some (reallocSlots heap (s._n_memb_heap * 2 * EXP48BP_PTR_SIZE sizeofT)),
                  _n_memb_heap := (s._n_memb_heap * 2) % 2 ^ 16 },
          .heap, freePtrSize * (s.index - _n_memb_stack))
    | none =>
      ({ s with heap_allocated_array := some (List.replicate (64 * sizeofT) none),
                _n_memb_heap := 64 },
        .heap, 0)

/-- Source `push` (stack_ptrt.h:50-69): the 8-byte store through `memptr`
(line 67) and `index++` (line 68). -/
def push (s : Experimental48BPStack) (t : Nat) : Except Fault Experimental48BPStack :=
  match push_memptr s with
  | (s, .inline, off) => do
    let a ← store64 s.stack_allocated_array off t
    pure { s with stack_allocated_array := a, index := int16_t (s.index + 1) }
  | (s, .heap, off) =>
    match s.heap_allocated_array with
    | some heap => do
      let heap ← store64 heap off t
      pure { s with heap_allocated_array := some heap, index := int16_t (s.index + 1) }
    | none => .error .undefined

/-- Source `top` (stack_ptrt.h:71-97), for both settings of the preprocessor
symbol `EXPSTACK_PREVENT_PAGE_RELOAD`. -/
def top (EXPSTACK_PREVENT_PAGE_RELOAD : Bool) (s : Experimental48BPStack) :
    Except Fault Nat :=
  let _n_memb_stack : Int := (EXP48BP_STACK_SIZE sizeofT : Nat)
  let freePtrSize : Int := (EXP48BP_PTR_SIZE sizeofT : Nat)
  if EXPSTACK_PREVENT_PAGE_RELOAD then do
    let (upper, lower) ←
      (if s.index ≤ _n_memb_stack then do
        let upper ← load 2 s.stack_allocated_array (freePtrSize * (s.index - 1) + 4)
        let lower ← load 4 s.stack_allocated_array (freePtrSize * (s.index - 1))
        pure (upper, lower)
      else
        match s.heap_allocated_array with
        | some heap => do
          let upper ← load 2 heap (freePtrSize * (s.index - 1 - _n_memb_stack) + 4)
          let lower ← load 4 heap (freePtrSize * (s.index - 1 - _n_memb_stack))
          pure (upper, lower)
        | none => .error .undefined : Except Fault (Nat × Nat))
    let raw := upper
    let raw := (raw <<< 32) % 2 ^ 64
    let raw := raw ||| lower
    pure (0x0000ffffffffffff &&& raw)
  else do
    let raw ←
      (if s.index ≤ _n_memb_stack then
        load 8 s.stack_allocated_array (freePtrSize * (s.index - 1))
      else
        match s.heap_allocated_array with
        | some heap => load 8 heap (freePtrSize * (s.index - 1 - _n_memb_stack))
        | none => .error .undefined : Except Fault Nat)
    pure (0x0000ffffffffffff &&& raw)

/-- Source `pop` (stack_ptrt.h:99-103): the value returned and the state left. -/
def pop (EXPSTACK_PREVENT_PAGE_RELOAD : Bool) (s : Experimental48BPStack) :
    Except Fault (Nat × Experimental48BPStack) := do
  let t ← top EXPSTACK_PREVENT_PAGE_RELOAD s
  pure (t, { s with index := int16_t (s.index - 1) })

/-- Source `size` (stack_ptrt.h:105). -/
def size (s : Experimental48BPStack) : Int := s.index

/-- A run of `push` calls, one per element of `ps`, in order. -/
def push_all (s : Experimental48BPStack) (ps : List Nat) : Except Fault Experimental48BPStack :=
  ps.foldlM push s

/-- A run of `n` `pop` calls: the values returned, in the order of the calls,
and the state left. -/
def pop_n (EXPSTACK_PREVENT_PAGE_RELOAD : Bool) :
    Nat → Experimental48BPStack → Except Fault (List Nat × Experimental48BPStack)
  | 0, s => .ok ([], s)
  | n + 1, s => do
    let (t, s) ← pop EXPSTACK_PREVENT_PAGE_RELOAD s
    let (ts, s) ← pop_n EXPSTACK_PREVENT_PAGE_RELOAD n s
    pure (t :: ts, s)

/-- The bookkeeping of a stack after `k ≤ 135` pushes and no pop: the inline
array has 52 bytes; no heap block up to 8 elements; then a heap block of
`64 * 8 = 512` bytes with `_n_memb_heap = 64`; from the 73rd push on a heap
block of `64 * 2 * 6 = 768` bytes with `_n_memb_heap = 128`. -/
def Filled (s : Experimental48BPStack) (k : Nat) : Prop :=
  s.index = (k : Int)
    ∧ s.stack_allocated_array.length = 52
    ∧ (k ≤ 8 → s.heap_allocated_array = none ∧ s._n_memb_heap = 0)
    ∧ (8 < k → k ≤ 72 →
        ∃ heap : List (Option Byte), s.heap_allocated_array = some heap
          ∧ heap.length = 512 ∧ s._n_memb_heap = 64)
    ∧ (72 < k →
        ∃ heap : List (Option Byte), s.heap_allocated_array = some heap
          ∧ heap.length = 768 ∧ s._n_memb_heap = 128)

/-- The bookkeeping of a stack with `k ≤ 135` live elements after any run of
pushes and pops: the inline array has 52 bytes, and either there is no heap
block yet (`k ≤ 8`), or the heap block is the initial one of `64 * 8 = 512`
bytes with `_n_memb_heap = 64` (`k ≤ 72`), or it is the block of
`64 * 2 * 6 = 768` bytes left by the first doubling, with `_n_memb_heap = 128`. -/
def Shape (s : Experimental48BPStack) (k : Nat) : Prop :=
  s.index = (k : Int) ∧ k ≤ 135
    ∧ s.stack_allocated_array.length = 52
    ∧ ((s.heap_allocated_array = none ∧ s._n_memb_heap = 0 ∧ k ≤ 8)
      ∨ (∃ heap : List (Option Byte), s.heap_allocated_array = some heap
          ∧ ((heap.length = 512 ∧ s._n_memb_heap = 64 ∧ k ≤ 72)
            ∨ (heap.length = 768 ∧ s._n_memb_heap = 128))))

/-- The slot of 6 bytes at byte `off` of `mem` holds the low 48 bits of `v`, and
the two bytes after it were written, so that an 8-byte load at `off` is
defined. -/
def SlotHolds (mem : List (Option Byte)) (off v : Nat) : Prop :=
  loadBytes mem off 6 = some (v % 2 ^ 48) ∧ ∃ w : Nat, loadBytes mem (off + 6) 2 = some w

/-- The stack holds the pointers `ps`, oldest first: element `i` is in inline
slot `i` for `i < 8` and in heap slot `i - 8` otherwise. -/
def Packed (s : Experimental48BPStack) (ps : List Nat) : Prop :=
  Shape s ps.length
    ∧ ∀ i : Nat, i < ps.length →
        (i < 8 → SlotHolds s.stack_allocated_array (6 * i) (ps.getD i 0))
        ∧ (8 ≤ i → ∃ heap : List (Option Byte), s.heap_allocated_array = some heap
            ∧ SlotHolds heap (6 * (i - 8)) (ps.getD i 0))

/-- The states reachable from an empty stack by `push` and by `pop` called on a
stack with `size() > 0`. -/
inductive Reachable (EXPSTACK_PREVENT_PAGE_RELOAD : Bool) : Experimental48BPStack → Prop
  | new : Reachable EXPSTACK_PREVENT_PAGE_RELOAD new
  | push (s s2 : Experimental48BPStack) (t : Nat) :
      Reachable EXPSTACK_PREVENT_PAGE_RELOAD s → push s t = .ok s2 →
      Reachable EXPSTACK_PREVENT_PAGE_RELOAD s2
  | pop (s s2 : Experimental48BPStack) (t : Nat) :
      Reachable EXPSTACK_PREVENT_PAGE_RELOAD s → 0 < size s →
      pop EXPSTACK_PREVENT_PAGE_RELOAD s = .ok (t, s2) →
      Reachable EXPSTACK_PREVENT_PAGE_RELOAD s2

/-- The stack after `push(0x7ffdeadbeef0)` on an empty stack. -/
def samplePacked : Experimental48BPStack :=
  { index := 1
    stack_allocated_array := storeBytes (List.replicate 52 none) 0 8 0x7ffdeadbeef0
    _n_memb_heap := 0
    heap_allocated_array := none }

end Experimental48BPStack

end CppDS

/-! ## Theorems: padded_pointer.h -/

namespace CppDS
namespace PointerWithStorage

theorem testBit_hiMask (i : Nat) :
    Nat.testBit 0xffff000000000000 i = (decide (48 ≤ i) && decide (i < 64)) := by
  have e : (0xffff000000000000 : Nat) = (2 ^ 16 - 1) <<< 48 := by decide
  rw [e, Nat.testBit_shiftLeft, Nat.testBit_two_pow_sub_one]
  by_cases h : 48 ≤ i <;> simp [h]
  omega

theorem testBit_loMask (i : Nat) :
    Nat.testBit 0x0000ffffffffffff i = decide (i < 48) := by
  have e : (0x0000ffffffffffff : Nat) = 2 ^ 48 - 1 := by decide
  rw [e, Nat.testBit_two_pow_sub_one]

theorem fieldMask_eq (t : Nat) (h : t ≤ 2) : (1 <<< (t * 8)) % 2 ^ 32 - 1 = 2 ^ (t * 8) - 1 := by
  rw [Nat.one_shiftLeft, Nat.mod_eq_of_lt]
  exact Nat.pow_lt_pow_right (by norm_num) (by omega)

theorem testBit_storage (data c t j : Nat) (h : c + t ≤ 2) :
    (lowBytes (storage data c t) t).testBit j
      = (decide (j < 8 * t) && data.testBit (48 + 8 * c + j)) := by
  unfold lowBytes storage
  rw [fieldMask_eq t (by omega)]
  simp only [Nat.testBit_mod_two_pow, Nat.testBit_and, Nat.testBit_shiftRight, testBit_hiMask,
    Nat.testBit_two_pow_sub_one]
  by_cases h1 : j < 8 * t
  · have h2 : j < 16 := by omega
    have h3 : 8 * c + j < 16 := by omega
    have h4 : j < t * 8 := by omega
    have h5 : 48 + (8 * c + j) < 64 := by omega
    simp [h1, h2, h3, h4, h5, Nat.add_assoc]
  · simp [h1]

theorem testBit_setStorage (Types : List FieldType) (T : FieldType) (data value i : Nat)
    (h : getCumulativeTypeSize Types T + T.sizeof ≤ 2) :
    (setStorage Types T data value).testBit i
      = if 48 + 8 * getCumulativeTypeSize Types T ≤ i
            ∧ i < 48 + 8 * getCumulativeTypeSize Types T + 8 * T.sizeof
        then value.testBit (i - (48 + 8 * getCumulativeTypeSize Types T))
        else (decide (i < 64) && data.testBit i) := by
  unfold setStorage lowBytes
  generalize getCumulativeTypeSize Types T = c at *
  generalize T.sizeof = t at *
  simp only []
  rw [fieldMask_eq t (by omega)]
  have hm : ((2 ^ (t * 8) - 1) <<< (c * 8)) % 2 ^ 32 % 2 ^ 16 < 2 ^ 32 :=
    lt_of_lt_of_le (Nat.mod_lt _ (by norm_num)) (by norm_num)
  have e : ∀ m, 2 ^ 32 - 1 - m = 2 ^ 32 - (m + 1) := by intro m; omega
  simp only [e, Nat.testBit_or, Nat.testBit_and, Nat.testBit_mod_two_pow, Nat.testBit_shiftLeft,
    Nat.testBit_shiftRight, Nat.testBit_two_pow_sub_succ hm, testBit_hiMask, testBit_loMask,
    Nat.testBit_two_pow_sub_one]
  by_cases h1 : i < 48
  · have : ¬ (48 + 8 * c ≤ i) := by omega
    have h2 : i < 64 := by omega
    have h3 : ¬ 48 ≤ i := by omega
    simp [h1, h2, h3, this]
  · by_cases h2 : i < 64
    · have h3 : 48 ≤ i := by omega
      have h4 : i - 48 < 16 := by omega
      have h5 : ¬ i < 48 := h1
      have h6 : 48 + (i - 48) = i := by omega
      have h7 : i - 48 < 32 := by omega
      by_cases h8 : 48 + 8 * c ≤ i
      · have h9 : c * 8 ≤ i - 48 := by omega
        have h10 : i - 48 - c * 8 = i - (48 + 8 * c) := by omega
        by_cases h11 : i < 48 + 8 * c + 8 * t
        · have h12 : i - (48 + 8 * c) < t * 8 := by omega
          have h13 : i - (48 + 8 * c) < 8 * t := by omega
          simp [h2, h3, h4, h5, h6, h7, h8, h9, h10, h11, h12, h13]
        · have h12 : ¬ i - (48 + 8 * c) < t * 8 := by omega
          have h13 : ¬ i - (48 + 8 * c) < 8 * t := by omega
          simp [h2, h3, h4, h5, h6, h7, h8, h9, h10, h11, h12, h13]
      · have h9 : ¬ c * 8 ≤ i - 48 := by omega
        simp [h2, h3, h4, h5, h6, h7, h8, h9]
    · have h3 : 48 ≤ i := by omega
      have h4 : ¬ i - 48 < 16 := by omega
      have h8 : 48 + 8 * c ≤ i := by omega
      have h11 : ¬ i < 48 + 8 * c + 8 * t := by omega
      simp [h1, h2, h3, h4, h8, h11]

theorem accumulateBefore_add (T : FieldType) (L : List FieldType) (acc : Nat) :
    accumulateBefore T L acc = acc + accumulateBefore T L 0 := by
  induction L generalizing acc with
  | nil => simp [accumulateBefore]
  | cons H R ih =>
    unfold accumulateBefore
    by_cases h : T = H
    · simp [h]
    · simp only [h, if_false]
      rw [ih (acc + H.sizeof), ih (0 + H.sizeof)]
      omega

theorem cumulative_add_sizeof_le (T : FieldType) (L : List FieldType)
    (h : Contains T L = true) :
    getCumulativeTypeSize L T + T.sizeof ≤ sum_sizeof L := by
  unfold getCumulativeTypeSize
  induction L with
  | nil => simp [Contains] at h
  | cons H R ih =>
    unfold accumulateBefore sum_sizeof
    by_cases e : T = H
    · simp [e]
    · simp only [e, if_false]
      have hc : Contains T R = true := by simpa [Contains, e] using h
      rw [accumulateBefore_add]
      have := ih hc
      omega

theorem cumulative_disjoint (F G : FieldType) (L : List FieldType)
    (hF : Contains F L = true) (hG : Contains G L = true) (hne : G ≠ F) :
    getCumulativeTypeSize L G + G.sizeof ≤ getCumulativeTypeSize L F
      ∨ getCumulativeTypeSize L F + F.sizeof ≤ getCumulativeTypeSize L G := by
  unfold getCumulativeTypeSize
  induction L with
  | nil => simp [Contains] at hF
  | cons H R ih =>
    unfold accumulateBefore
    by_cases eF : F = H
    · have eG : G ≠ H := fun e => hne (e.trans eF.symm)
      simp only [eF, eG, if_true, if_false]
      right
      rw [accumulateBefore_add]
      omega
    · by_cases eG : G = H
      · simp only [eF, eG, if_true, if_false]
        left
        rw [accumulateBefore_add]
        omega
      · simp only [eF, eG, if_false]
        have hF1 : Contains F R = true := by simpa [Contains, eF] using hF
        have hG1 : Contains G R = true := by simpa [Contains, eG] using hG
        rw [accumulateBefore_add G, accumulateBefore_add F]
        rcases ih hF1 hG1 with h | h
        · left; omega
        · right; omega

theorem testBit_getStorage (Types : List FieldType) (T : FieldType) (data j : Nat)
    (h : getCumulativeTypeSize Types T + T.sizeof ≤ 2) :
    (getStorage Types T data).testBit j
      = (decide (j < 8 * T.sizeof) && data.testBit (48 + 8 * getCumulativeTypeSize Types T + j)) := by
  unfold getStorage
  exact testBit_storage data _ _ j h

theorem testBit_getPointer (data i : Nat) :
    (getPointer data).testBit i = (decide (i < 48) && data.testBit i) := by
  unfold getPointer
  rw [Nat.testBit_and, testBit_loMask, Bool.and_comm]

/-- Claim C1. Field round trip.  For every word `data`, every declared field list
`Types` (pairwise distinct types, byte widths summing to at most 2), every
field `F` of the list and every value `v` of `F`'s byte width:
`setStorage<F>(v)` followed by `getStorage<F>()` returns `v`, and `getPointer()`
and `getStorage<G>()` of every other declared field `G` are unchanged. -/
theorem setStorage_getStorage_round_trip (Types : List FieldType) (F : FieldType)
    (data v : Nat) (hsum : sum_sizeof Types ≤ 2) (_huniq : are_unique Types = true)
    (hF : Contains F Types = true) (hv : v < 2 ^ (8 * F.sizeof)) :
    getStorage Types F (setStorage Types F data v) = v
      ∧ getPointer (setStorage Types F data v) = getPointer data
      ∧ ∀ G : FieldType, Contains G Types = true → G ≠ F →
          getStorage Types G (setStorage Types F data v) = getStorage Types G data := by
  have hcF : getCumulativeTypeSize Types F + F.sizeof ≤ 2 :=
    le_trans (cumulative_add_sizeof_le F Types hF) hsum
  refine ⟨?_, ?_, ?_⟩
  · apply Nat.eq_of_testBit_eq
    intro j
    rw [testBit_getStorage _ _ _ _ hcF, testBit_setStorage _ _ _ _ _ hcF]
    by_cases hj : j < 8 * F.sizeof
    · have h1 : 48 + 8 * getCumulativeTypeSize Types F ≤ 48 + 8 * getCumulativeTypeSize Types F + j
          ∧ 48 + 8 * getCumulativeTypeSize Types F + j
              < 48 + 8 * getCumulativeTypeSize Types F + 8 * F.sizeof := by omega
      simp [hj, h1]
    · have : v.testBit j = false :=
        Nat.testBit_lt_two_pow (lt_of_lt_of_le hv (Nat.pow_le_pow_right (by norm_num) (by omega)))
      simp [hj, this]
  · apply Nat.eq_of_testBit_eq
    intro i
    rw [testBit_getPointer, testBit_getPointer, testBit_setStorage _ _ _ _ _ hcF]
    by_cases hi : i < 48
    · have h1 : ¬ (48 + 8 * getCumulativeTypeSize Types F ≤ i
          ∧ i < 48 + 8 * getCumulativeTypeSize Types F + 8 * F.sizeof) := by omega
      have h2 : i < 64 := by omega
      simp [hi, h1, h2]
    · simp [hi]
  · intro G hG hne
    have hcG : getCumulativeTypeSize Types G + G.sizeof ≤ 2 :=
      le_trans (cumulative_add_sizeof_le G Types hG) hsum
    apply Nat.eq_of_testBit_eq
    intro j
    rw [testBit_getStorage _ _ _ _ hcG, testBit_getStorage _ _ _ _ hcG,
      testBit_setStorage _ _ _ _ _ hcF]
    by_cases hj : j < 8 * G.sizeof
    · have h1 : ¬ (48 + 8 * getCumulativeTypeSize Types F
            ≤ 48 + 8 * getCumulativeTypeSize Types G + j
          ∧ 48 + 8 * getCumulativeTypeSize Types G + j
              < 48 + 8 * getCumulativeTypeSize Types F + 8 * F.sizeof) := by
        rcases cumulative_disjoint F G Types hF hG hne with h | h <;> omega
      have h2 : 48 + 8 * getCumulativeTypeSize Types G + j < 64 := by omega
      simp [hj, h1, h2]
    · simp [hj]

/-- Witness of C1: two one-byte fields, the second one written. -/
theorem setStorage_getStorage_round_trip_witness :
    (sum_sizeof [⟨0, 1⟩, ⟨1, 1⟩] ≤ 2 ∧ are_unique [⟨0, 1⟩, ⟨1, 1⟩] = true
      ∧ Contains ⟨1, 1⟩ [⟨0, 1⟩, ⟨1, 1⟩] = true ∧ 0xab < 2 ^ (8 * (FieldType.mk 1 1).sizeof))
    ∧ (getStorage [⟨0, 1⟩, ⟨1, 1⟩] ⟨1, 1⟩
          (setStorage [⟨0, 1⟩, ⟨1, 1⟩] ⟨1, 1⟩ 0x12340000deadbeef 0xab) = 0xab
      ∧ getPointer (setStorage [⟨0, 1⟩, ⟨1, 1⟩] ⟨1, 1⟩ 0x12340000deadbeef 0xab)
          = getPointer 0x12340000deadbeef
      ∧ ∀ G : FieldType, Contains G [⟨0, 1⟩, ⟨1, 1⟩] = true → G ≠ ⟨1, 1⟩ →
          getStorage [⟨0, 1⟩, ⟨1, 1⟩] G
              (setStorage [⟨0, 1⟩, ⟨1, 1⟩] ⟨1, 1⟩ 0x12340000deadbeef 0xab)
            = getStorage [⟨0, 1⟩, ⟨1, 1⟩] G 0x12340000deadbeef) :=
  ⟨⟨by decide, by decide, by decide, by decide⟩,
    setStorage_getStorage_round_trip [⟨0, 1⟩, ⟨1, 1⟩] ⟨1, 1⟩ 0x12340000deadbeef 0xab
      (by decide) (by decide) (by decide) (by decide)⟩

theorem testBit_setPointer (data ptr i : Nat) :
    (setPointer data ptr).testBit i
      = if i < 48 then ptr.testBit i else (decide (i < 64) && data.testBit i) := by
  unfold setPointer
  simp only [Nat.testBit_or, Nat.testBit_and, Nat.testBit_mod_two_pow, testBit_hiMask,
    testBit_loMask]
  by_cases h : i < 48
  · have h1 : ¬ 48 ≤ i := by omega
    have h2 : i < 64 := by omega
    simp [h, h1, h2]
  · have h1 : 48 ≤ i := by omega
    simp [h, h1, Bool.and_comm]

theorem getStorage_congr (Types : List FieldType) (T : FieldType) (d1 d2 : Nat)
    (h : ((d1 &&& 0xffff000000000000) >>> 48) % 2 ^ 16
       = ((d2 &&& 0xffff000000000000) >>> 48) % 2 ^ 16) :
    getStorage Types T d1 = getStorage Types T d2 := by
  unfold getStorage storage
  simp only [h]

theorem top16_eq_div (data : Nat) :
    ((data &&& 0xffff000000000000) >>> 48) % 2 ^ 16 = data / 2 ^ 48 % 2 ^ 16 := by
  apply Nat.eq_of_testBit_eq
  intro i
  simp only [Nat.testBit_mod_two_pow, Nat.testBit_shiftRight, Nat.testBit_and, testBit_hiMask,
    ← Nat.shiftRight_eq_div_pow]
  by_cases h : i < 16
  · have h1 : 48 + i < 64 := by omega
    simp [h, h1]
  · simp [h]

/-- Claim C2. Pointer round trip.  For every word `data` and every pointer value
`p`: `setPointer(p)` followed by `getPointer()` returns `p` truncated to its low
48 bits (so exactly `p` when `p < 2 ^ 48`), the high 16 bits of the word are
unchanged, and so is `getStorage<F>()` for every field `F` of every field
list. -/
theorem setPointer_getPointer_round_trip (data p : Nat) :
    getPointer (setPointer data p) = p % 2 ^ 48
      ∧ (p < 2 ^ 48 → getPointer (setPointer data p) = p)
      ∧ setPointer data p / 2 ^ 48 % 2 ^ 16 = data / 2 ^ 48 % 2 ^ 16
      ∧ ∀ (Types : List FieldType) (F : FieldType),
          getStorage Types F (setPointer data p) = getStorage Types F data := by
  have h1 : getPointer (setPointer data p) = p % 2 ^ 48 := by
    apply Nat.eq_of_testBit_eq
    intro i
    rw [testBit_getPointer, testBit_setPointer, Nat.testBit_mod_two_pow]
    by_cases h : i < 48 <;> simp [h]
  have h2 : ((setPointer data p &&& 0xffff000000000000) >>> 48) % 2 ^ 16
      = ((data &&& 0xffff000000000000) >>> 48) % 2 ^ 16 := by
    apply Nat.eq_of_testBit_eq
    intro i
    simp only [Nat.testBit_mod_two_pow, Nat.testBit_shiftRight, Nat.testBit_and,
      testBit_setPointer, testBit_hiMask]
    by_cases h : i < 16
    · have h3 : ¬ 48 + i < 48 := by omega
      have h4 : 48 + i < 64 := by omega
      simp [h, h3, h4]
    · simp [h]
  refine ⟨h1, ?_, ?_, ?_⟩
  · intro hp
    rw [h1, Nat.mod_eq_of_lt hp]
  · rw [← top16_eq_div, ← top16_eq_div, h2]
  · intro Types F
    exact getStorage_congr Types F _ _ h2

/-- Witness of C2: a pointer below `2 ^ 48` written into a tagged word. -/
theorem setPointer_getPointer_round_trip_witness :
    (0x7ffdeadbeef0 < 2 ^ 48)
    ∧ getPointer (setPointer 0xab340000deadbeef 0x7ffdeadbeef0) = 0x7ffdeadbeef0 :=
  ⟨by decide,
    (setPointer_getPointer_round_trip 0xab340000deadbeef 0x7ffdeadbeef0).2.1 (by decide)⟩

theorem sum_sizeof_take_add_le (L : List FieldType) (i : Nat) (hi : i < L.length) :
    sum_sizeof (L.take i) + L[i].sizeof ≤ sum_sizeof L := by
  induction L generalizing i with
  | nil => simp at hi
  | cons H R ih =>
    cases i with
    | zero => simp [sum_sizeof]
    | succ k =>
      have hk : k < R.length := by simpa using hi
      have := ih k hk
      simp only [List.take_succ_cons, List.getElem_cons_succ, sum_sizeof]
      omega

theorem are_unique_cons (H : FieldType) (R : List FieldType)
    (h : are_unique (H :: R) = true) : (∀ x ∈ R, H ≠ x) ∧ are_unique R = true := by
  unfold are_unique at h
  by_cases ha : R.any (fun x => decide (H = x)) = true
  · simp [ha] at h
  · simp only [ha, if_false] at h
    refine ⟨?_, h⟩
    intro x hx e
    apply ha
    rw [List.any_eq_true]
    exact ⟨x, hx, by simpa using e⟩

theorem cumulative_of_unique (L : List FieldType) (hu : are_unique L = true)
    (i : Nat) (hi : i < L.length) :
    getCumulativeTypeSize L L[i] = sum_sizeof (L.take i) := by
  unfold getCumulativeTypeSize
  induction L generalizing i with
  | nil => simp at hi
  | cons H R ih =>
    obtain ⟨hne, hR⟩ := are_unique_cons H R hu
    cases i with
    | zero => simp [accumulateBefore, sum_sizeof]
    | succ k =>
      have hk : k < R.length := by simpa using hi
      have hmem : R[k] ∈ R := List.getElem_mem hk
      have e : R[k] ≠ H := fun e => hne _ hmem e.symm
      simp only [List.getElem_cons_succ, List.take_succ_cons, accumulateBefore, sum_sizeof, e,
        if_false]
      rw [accumulateBefore_add, ih hR k hk]
      omega

theorem testBit_packImpl (fs : List (FieldType × Nat))
    (hsum : sum_sizeof (fs.map Prod.fst) ≤ 2) (i : Nat) (hi : i < fs.length) (j : Nat)
    (hj : j < 8 * fs[i].1.sizeof) :
    (packImpl fs).testBit (8 * sum_sizeof ((fs.map Prod.fst).take i) + j) = fs[i].2.testBit j := by
  induction fs generalizing i with
  | nil => simp at hi
  | cons fa rest ih =>
    obtain ⟨F, a⟩ := fa
    simp only [List.map_cons, sum_sizeof] at hsum
    unfold packImpl lowBytes
    simp only [Nat.testBit_mod_two_pow, Nat.testBit_or, Nat.testBit_shiftLeft]
    cases i with
    | zero =>
      simp only [List.getElem_cons_zero] at hj
      have h1 : j < 16 := by omega
      have h2 : ¬ j ≥ 8 * F.sizeof := by omega
      simp [sum_sizeof, hj, h1, h2]
    | succ k =>
      have hk : k < rest.length := by simpa using hi
      simp only [List.getElem_cons_succ] at hj
      have hle := sum_sizeof_take_add_le (rest.map Prod.fst) k (by simpa using hk)
      simp only [List.getElem_map] at hle
      have hrec := ih (by omega) k hk hj
      simp only [List.take_succ_cons, List.map_cons, sum_sizeof, List.getElem_cons_succ]
      have h1 : 8 * (F.sizeof + sum_sizeof (List.take k (List.map Prod.fst rest))) + j < 16 := by
        omega
      have h2 : ¬ 8 * (F.sizeof + sum_sizeof (List.take k (List.map Prod.fst rest))) + j
          < 8 * F.sizeof := by omega
      have h3 : 8 * (F.sizeof + sum_sizeof (List.take k (List.map Prod.fst rest))) + j
          ≥ 8 * F.sizeof := by omega
      have h4 : 8 * (F.sizeof + sum_sizeof (List.take k (List.map Prod.fst rest))) + j
            - 8 * F.sizeof
          = 8 * sum_sizeof (List.take k (List.map Prod.fst rest)) + j := by omega
      simp [h1, h2, h3, h4, hrec]

theorem testBit_construct (p : Nat) (fs : List (FieldType × Nat)) (k : Nat) :
    (construct p fs).testBit k
      = if k < 48 then p.testBit k
        else (decide (k < 64) && (packImpl fs).testBit (k - 48)) := by
  unfold construct
  simp only [Nat.testBit_or, Nat.testBit_and, Nat.testBit_mod_two_pow, Nat.testBit_shiftLeft,
    testBit_loMask]
  by_cases h : k < 48
  · have h1 : ¬ k ≥ 48 := by omega
    have h2 : k < 64 := by omega
    simp [h, h1, h2]
  · have h1 : k ≥ 48 := by omega
    simp [h, h1]

/-- Claim C3. Construction decodes back.  For every pointer `p` and auxiliary
values `a_0 .. a_k`, given with their field types (pairwise distinct, total
width at most 2 bytes, each value within its field's byte width), the word built
by the constructor has `p mod 2 ^ 48` in its low 48 bits and field `i` stored in
the high 16 bits at byte offset equal to the sum of the byte widths of the
fields declared before it; so `getPointer()` returns `p mod 2 ^ 48` and
`getStorage<field_i>()` returns `a_i`, for every `i`. -/
theorem construct_decodes (p : Nat) (fs : List (FieldType × Nat))
    (hsum : sum_sizeof (fs.map Prod.fst) ≤ 2)
    (huniq : are_unique (fs.map Prod.fst) = true)
    (hval : ∀ fa ∈ fs, fa.2 < 2 ^ (8 * fa.1.sizeof)) :
    construct p fs % 2 ^ 48 = p % 2 ^ 48
      ∧ getPointer (construct p fs) = p % 2 ^ 48
      ∧ ∀ (i : Nat) (hi : i < fs.length),
          construct p fs / 2 ^ (48 + 8 * sum_sizeof ((fs.map Prod.fst).take i))
              % 2 ^ (8 * fs[i].1.sizeof) = fs[i].2
            ∧ getStorage (fs.map Prod.fst) fs[i].1 (construct p fs) = fs[i].2 := by
  have hptr : getPointer (construct p fs) = p % 2 ^ 48 := by
    apply Nat.eq_of_testBit_eq
    intro k
    rw [testBit_getPointer, testBit_construct, Nat.testBit_mod_two_pow]
    by_cases h : k < 48 <;> simp [h]
  refine ⟨?_, hptr, ?_⟩
  · rw [← hptr, getPointer, ← Nat.and_pow_two_sub_one_eq_mod]
  · intro i hi
    have hi1 : i < (fs.map Prod.fst).length := by simpa using hi
    have hle := sum_sizeof_take_add_le (fs.map Prod.fst) i hi1
    simp only [List.getElem_map] at hle
    have hlt : fs[i].2 < 2 ^ (8 * fs[i].1.sizeof) := hval _ (List.getElem_mem hi)
    have hcum : getCumulativeTypeSize (fs.map Prod.fst) fs[i].1
        = sum_sizeof ((fs.map Prod.fst).take i) := by
      have := cumulative_of_unique (fs.map Prod.fst) huniq i hi1
      simpa only [List.getElem_map] using this
    have hbits : ∀ j, j < 8 * fs[i].1.sizeof →
        (construct p fs).testBit (48 + 8 * sum_sizeof ((fs.map Prod.fst).take i) + j)
          = fs[i].2.testBit j := by
      intro j hj
      rw [testBit_construct]
      have h1 : ¬ 48 + 8 * sum_sizeof ((fs.map Prod.fst).take i) + j < 48 := by omega
      have h2 : 48 + 8 * sum_sizeof ((fs.map Prod.fst).take i) + j < 64 := by omega
      have h3 : 48 + 8 * sum_sizeof ((fs.map Prod.fst).take i) + j - 48
          = 8 * sum_sizeof ((fs.map Prod.fst).take i) + j := by omega
      simp only [h1, if_false, h2, decide_True, Bool.true_and, h3]
      exact testBit_packImpl fs hsum i hi j hj
    constructor
    · apply Nat.eq_of_testBit_eq
      intro j
      rw [Nat.testBit_mod_two_pow, ← Nat.shiftRight_eq_div_pow, Nat.testBit_shiftRight]
      by_cases hj : j < 8 * fs[i].1.sizeof
      · simp [hj, hbits j hj]
      · have : fs[i].2.testBit j = false :=
          Nat.testBit_lt_two_pow
            (lt_of_lt_of_le hlt (Nat.pow_le_pow_right (by norm_num) (by omega)))
        simp [hj, this]
    · apply Nat.eq_of_testBit_eq
      intro j
      rw [testBit_getStorage _ _ _ _ (by rw [hcum]; omega), hcum]
      by_cases hj : j < 8 * fs[i].1.sizeof
      · simp [hj, hbits j hj]
      · have : fs[i].2.testBit j = false :=
          Nat.testBit_lt_two_pow
            (lt_of_lt_of_le hlt (Nat.pow_le_pow_right (by norm_num) (by omega)))
        simp [hj, this]

/-- Witness of C3: a pointer with two one-byte fields `0x34` and `0xab`; the
pointer and the second field are read back. -/
theorem construct_decodes_witness :
    (sum_sizeof ([(⟨0, 1⟩, 0x34), (⟨1, 1⟩, 0xab)].map Prod.fst) ≤ 2
      ∧ are_unique ([(⟨0, 1⟩, 0x34), (⟨1, 1⟩, 0xab)].map Prod.fst) = true
      ∧ ∀ fa ∈ [((⟨0, 1⟩ : FieldType), 0x34), (⟨1, 1⟩, 0xab)], fa.2 < 2 ^ (8 * fa.1.sizeof))
    ∧ getPointer (construct 0x7ffdeadbeef0 [(⟨0, 1⟩, 0x34), (⟨1, 1⟩, 0xab)])
        = 0x7ffdeadbeef0 % 2 ^ 48
    ∧ getStorage [⟨0, 1⟩, ⟨1, 1⟩] ⟨1, 1⟩
        (construct 0x7ffdeadbeef0 [(⟨0, 1⟩, 0x34), (⟨1, 1⟩, 0xab)]) = 0xab :=
  ⟨⟨by decide, by decide, by decide⟩,
    (construct_decodes 0x7ffdeadbeef0 [(⟨0, 1⟩, 0x34), (⟨1, 1⟩, 0xab)]
      (by decide) (by decide) (by decide)).2.1,
    ((construct_decodes 0x7ffdeadbeef0 [(⟨0, 1⟩, 0x34), (⟨1, 1⟩, 0xab)]
      (by decide) (by decide) (by decide)).2.2 1 (by decide)).2⟩

end PointerWithStorage
end CppDS

/-! ## Theorems: small_list.h -/

namespace CppDS
namespace SmallSizeList

open PointerWithStorage

variable {T : Type}

theorem cumulative_uint16 : getCumulativeTypeSize Types uint16_t = 0 := by decide

theorem getStorage_lt (w : Nat) : getStorage Types uint16_t w < 65536 := by
  unfold getStorage lowBytes
  exact Nat.mod_lt _ (by decide)

theorem getStorage_setStorage (w v : Nat) (hv : v < 65536) :
    getStorage Types uint16_t (setStorage Types uint16_t w v) = v := by
  have hc : getCumulativeTypeSize Types uint16_t + uint16_t.sizeof ≤ 2 := by decide
  apply Nat.eq_of_testBit_eq
  intro j
  rw [testBit_getStorage _ _ _ _ hc, testBit_setStorage _ _ _ _ _ hc, cumulative_uint16]
  have hs : uint16_t.sizeof = 2 := rfl
  rw [hs]
  by_cases hj : j < 16
  · have h1 : 48 + 8 * 0 ≤ 48 + 8 * 0 + j ∧ 48 + 8 * 0 + j < 48 + 8 * 0 + 8 * 2 := by omega
    simp [hj, h1]
  · have h0 : ¬ j < 8 * 2 := by omega
    have : v.testBit j = false :=
      Nat.testBit_lt_two_pow (lt_of_lt_of_le hv (by
        calc 65536 = 2 ^ 16 := by norm_num
          _ ≤ 2 ^ j := Nat.pow_le_pow_right (by norm_num) (by omega)))
    simp [h0, this]

theorem getPointer_setStorage (w v : Nat) :
    getPointer (setStorage Types uint16_t w v) = getPointer w := by
  have hc : getCumulativeTypeSize Types uint16_t + uint16_t.sizeof ≤ 2 := by decide
  apply Nat.eq_of_testBit_eq
  intro i
  rw [testBit_getPointer, testBit_getPointer, testBit_setStorage _ _ _ _ _ hc, cumulative_uint16]
  by_cases hi : i < 48
  · have h1 : ¬ (48 + 8 * 0 ≤ i ∧ i < 48 + 8 * 0 + 8 * uint16_t.sizeof) := by omega
    have h2 : i < 64 := by omega
    simp [hi, h1, h2]
  · simp [hi]

theorem size_eq (L : SmallSizeList T) : size L = getStorage Types uint16_t L.ptr % 8192 := by
  unfold size
  have e : ((1 <<< 13) - 1 : Nat) = 2 ^ 13 - 1 := by decide
  simp only [e, Nat.and_pow_two_sub_one_eq_mod]
  have := getStorage_lt L.ptr
  norm_num
  omega

theorem exponent_eq (L : SmallSizeList T) :
    get_capacity_exponent L = getStorage Types uint16_t L.ptr / 8192 := by
  unfold get_capacity_exponent
  have := getStorage_lt L.ptr
  simp only [Nat.shiftRight_eq_div_pow]
  norm_num
  omega

theorem exponent_le (L : SmallSizeList T) : get_capacity_exponent L ≤ 7 := by
  rw [exponent_eq]
  have := getStorage_lt L.ptr
  omega

theorem capacity_eq (L : SmallSizeList T) : capacity L = 16 * 2 ^ get_capacity_exponent L := by
  unfold capacity default_capacity
  have h := exponent_le L
  simp only [Nat.shiftLeft_eq]
  apply Nat.mod_eq_of_lt
  calc 16 * 2 ^ get_capacity_exponent L ≤ 16 * 2 ^ 7 :=
        Nat.mul_le_mul_left _ (Nat.pow_le_pow_right (by norm_num) h)
    _ < 2 ^ 16 := by norm_num

theorem size_lt (L : SmallSizeList T) : size L < 8192 := by
  rw [size_eq]; omega

theorem capacity_le (L : SmallSizeList T) : capacity L ≤ 2048 := by
  rw [capacity_eq]
  calc 16 * 2 ^ get_capacity_exponent L ≤ 16 * 2 ^ 7 :=
        Nat.mul_le_mul_left _ (Nat.pow_le_pow_right (by norm_num) (exponent_le L))
    _ = 2048 := by norm_num

theorem increment_size_spec (L : SmallSizeList T) (h : size L < 8191) :
    size (increment_size L) = size L + 1
      ∧ get_capacity_exponent (increment_size L) = get_capacity_exponent L
      ∧ getPointer (increment_size L).ptr = getPointer L.ptr
      ∧ (increment_size L).base = L.base ∧ (increment_size L).cells = L.cells := by
  have hg := getStorage_lt L.ptr
  rw [size_eq] at h
  have e : getStorage Types uint16_t (increment_size L).ptr
      = (getStorage Types uint16_t L.ptr + 1) % 2 ^ 16 := by
    unfold increment_size
    exact getStorage_setStorage _ _ (Nat.mod_lt _ (by norm_num))
  refine ⟨?_, ?_, ?_, rfl, rfl⟩
  · rw [size_eq, size_eq, e]; norm_num; omega
  · rw [exponent_eq, exponent_eq, e]; norm_num; omega
  · unfold increment_size
    exact getPointer_setStorage _ _

theorem decrement_size_spec (L : SmallSizeList T) (h : 0 < size L) :
    size (decrement_size L) + 1 = size L
      ∧ get_capacity_exponent (decrement_size L) = get_capacity_exponent L
      ∧ getPointer (decrement_size L).ptr = getPointer L.ptr
      ∧ (decrement_size L).base = L.base ∧ (decrement_size L).cells = L.cells := by
  have hg := getStorage_lt L.ptr
  rw [size_eq] at h
  have e : getStorage Types uint16_t (decrement_size L).ptr
      = (getStorage Types uint16_t L.ptr + 2 ^ 16 - 1) % 2 ^ 16 := by
    unfold decrement_size
    exact getStorage_setStorage _ _ (Nat.mod_lt _ (by norm_num))
  refine ⟨?_, ?_, ?_, rfl, rfl⟩
  · rw [size_eq, size_eq, e]; norm_num; omega
  · rw [exponent_eq, exponent_eq, e]; norm_num; omega
  · unfold decrement_size
    exact getPointer_setStorage _ _

theorem holds_getElem? (L : SmallSizeList T) (l : List T) (hH : Holds L l) (i : Nat)
    (hi : i < l.length) : L.cells[i]? = some (some l[i]) := by
  obtain ⟨_, _, _, hc⟩ := hH
  rw [← List.getElem?_take_of_lt hi, hc, List.getElem?_map, List.getElem?_eq_getElem hi]
  rfl

theorem load_of_holds (L : SmallSizeList T) (l : List T) (hH : Holds L l) (i : Nat)
    (hi : i < l.length) : load L (getPointer L.ptr) (i : Int) = .ok l[i] := by
  unfold load readSlot
  have h1 : ¬ ((i : Int) < 0) := by omega
  simp only [hH.1, if_true, h1, if_false, Int.toNat_ofNat, holds_getElem? L l hH i hi]

theorem take_map_of_holds (cells : List (Option T)) (l : List T)
    (hc : cells.take l.length = l.map some) (k : Nat) (hk : k ≤ l.length) :
    cells.take k = (l.take k).map some := by
  have : cells.take k = (cells.take l.length).take k := by
    rw [List.take_take, Nat.min_eq_left hk]
  rw [this, hc, List.map_take]

theorem erased_cells (cells : List (Option T)) (l : List T)
    (hc : cells.take l.length = l.map some) (i : Nat) (hi : i < l.length) (rest : List (Option T)) :
    (cells.take i ++ (cells.drop (i + 1)).take (l.length - i - 1) ++ rest).take (l.length - 1)
      = (l.eraseIdx i).map some := by
  have hA : cells.take i = (l.take i).map some := take_map_of_holds cells l hc i (by omega)
  have hB : (cells.drop (i + 1)).take (l.length - i - 1) = (l.drop (i + 1)).map some := by
    have : (cells.drop (i + 1)).take (l.length - i - 1) = (cells.take l.length).drop (i + 1) := by
      rw [List.drop_take]
      congr 1
    rw [this, hc, List.map_drop]
  rw [hA, hB, List.eraseIdx_eq_take_drop_succ, List.map_append]
  apply List.take_left'
  simp only [List.length_append, List.length_map, List.length_take, List.length_drop]
  omega

theorem erase_eq_eraseIdx_of_first [DecidableEq T] (l : List T) (i : Nat) (hi : i < l.length)
    (t : T) (ht : t = l[i]) (hn : t ∉ l.take i) : l.erase t = l.eraseIdx i := by
  rw [List.eraseIdx_eq_take_drop_succ]
  conv_lhs => rw [← List.take_append_drop i l, List.drop_eq_getElem_cons hi]
  rw [List.erase_append_right _ hn, ← ht, List.erase_cons_head]

/-- The shared body of `remove` and `removeAtIndex`: shift left or zero-fill. -/
theorem erase_step_spec [Zero T] (L : SmallSizeList T) (l : List T) (hH : Holds L l)
    (i : Nat) (hi : i < l.length) :
    ∃ L1 : SmallSizeList T,
      (if (i : Int) ≠ (l.length : Int) - 1
        then memmove L (getPointer L.ptr) (i : Int) ((i : Int) + 1)
          ((l.length : Int) - (i : Int) - 1)
        else memset L (getPointer L.ptr) (i : Int)) = .ok L1
      ∧ L1.ptr = L.ptr ∧ L1.base = L.base ∧ L1.cells.length = L.cells.length
      ∧ L1.cells.take (l.length - 1) = (l.eraseIdx i).map some
      ∧ (i + 1 = l.length → L1.cells = L.cells.set i (some 0)) := by
  obtain ⟨hp, hs, hlen, hc⟩ := hH
  by_cases hlast : (i : Int) ≠ (l.length : Int) - 1
  · have hi2 : i + 1 < l.length := by omega
    have e1 : ((i : Int) + 1).toNat = i + 1 := by omega
    have e2 : ((l.length : Int) - (i : Int) - 1).toNat = l.length - i - 1 := by omega
    have hcond : 0 ≤ (i : Int) ∧ 0 ≤ (i : Int) + 1 ∧ 0 ≤ (l.length : Int) - (i : Int) - 1
        ∧ (i : Int).toNat + ((l.length : Int) - (i : Int) - 1).toNat ≤ L.cells.length
        ∧ ((i : Int) + 1).toNat + ((l.length : Int) - (i : Int) - 1).toNat ≤ L.cells.length := by
      rw [e1, e2, Int.toNat_ofNat]
      omega
    refine ⟨{ L with cells := L.cells.take i ++ (L.cells.drop (i + 1)).take (l.length - i - 1)
                ++ L.cells.drop (i + (l.length - i - 1)) }, ?_, rfl, rfl, ?_, ?_, ?_⟩
    · rw [if_pos hlast]
      unfold memmove memmoveSlots
      rw [if_pos hp, if_pos hcond, e1, e2, Int.toNat_ofNat]
    · simp only [List.length_append, List.length_take, List.length_drop]
      omega
    · exact erased_cells L.cells l hc i hi _
    · intro h; omega
  · have hi2 : i + 1 = l.length := by omega
    have hcond : 0 ≤ (i : Int) ∧ (i : Int).toNat < L.cells.length := by
      rw [Int.toNat_ofNat]; omega
    refine ⟨{ L with cells := L.cells.set i (some 0) }, ?_, rfl, rfl, ?_, ?_, ?_⟩
    · rw [if_neg hlast]
      unfold memset store writeSlot
      rw [if_pos hp, if_pos hcond, Int.toNat_ofNat]
    · simp
    · have e : l.length - 1 = i := by omega
      rw [e]
      show List.take i (L.cells.set i (some 0)) = _
      rw [List.set_take, List.set_eq_of_length_le (by simp),
        take_map_of_holds L.cells l hc i (by omega),
        List.eraseIdx_eq_take_drop_succ, hi2, List.drop_length, List.append_nil]
    · intro _; rfl

theorem holds_after_erase [Zero T] (L L1 : SmallSizeList T) (l : List T) (hH : Holds L l)
    (i : Nat) (hi : i < l.length) (hptr : L1.ptr = L.ptr) (hbase : L1.base = L.base)
    (hlen : L1.cells.length = L.cells.length)
    (hc : L1.cells.take (l.length - 1) = (l.eraseIdx i).map some) :
    Holds (decrement_size L1) (l.eraseIdx i)
      ∧ size (decrement_size L1) + 1 = size L
      ∧ get_capacity_exponent (decrement_size L1) = get_capacity_exponent L
      ∧ (decrement_size L1).base = L.base ∧ (decrement_size L1).cells = L1.cells := by
  obtain ⟨hp, hs, hl, _⟩ := hH
  have hs1 : size L1 = size L := by rw [size_eq, size_eq, hptr]
  have he1 : get_capacity_exponent L1 = get_capacity_exponent L := by
    rw [exponent_eq, exponent_eq, hptr]
  obtain ⟨d1, d2, d3, d4, d5⟩ := decrement_size_spec L1 (by omega)
  have hle : (l.eraseIdx i).length = l.length - 1 := by
    rw [List.length_eraseIdx, if_pos hi]
  refine ⟨⟨?_, ?_, ?_, ?_⟩, ?_, ?_, ?_, d5⟩
  · rw [d3, d4, hptr, hbase, hp]
  · rw [hle]; omega
  · rw [hle, d5, hlen]; omega
  · rw [hle, d5, hc]
  · omega
  · rw [d2, he1]
  · rw [d4, hbase]

theorem remove_loop_spec [DecidableEq T] [Zero T] (L : SmallSizeList T) (l : List T) (t : T)
    (hH : Holds L l) :
    ∀ (fuel i : Nat), i + fuel = l.length → t ∉ l.take i →
      ∃ L2 : SmallSizeList T,
        remove.loop t (l.length : Int) (getPointer L.ptr) L fuel (i : Int) = .ok L2
        ∧ Holds L2 (l.erase t)
        ∧ get_capacity_exponent L2 = get_capacity_exponent L
        ∧ L2.base = L.base
        ∧ L2.cells.length = L.cells.length
        ∧ (t ∈ l → size L2 + 1 = size L)
        ∧ (t ∉ l → L2 = L) := by
  intro fuel
  induction fuel with
  | zero =>
    intro i hi hn
    have e : i = l.length := by omega
    rw [e, List.take_length] at hn
    refine ⟨L, rfl, ?_, rfl, rfl, rfl, fun h => absurd h hn, fun _ => rfl⟩
    rw [List.erase_of_not_mem hn]
    exact hH
  | succ fuel ih =>
    intro i hi hn
    have hil : i < l.length := by omega
    unfold remove.loop
    rw [load_of_holds L l hH i hil]
    by_cases ht : t = l[i]
    · obtain ⟨L1, h1, hptr, hbase, hlen, hc, _⟩ := erase_step_spec L l hH i hil
      obtain ⟨k1, k2, k3, k4, k5⟩ := holds_after_erase L L1 l hH i hil hptr hbase hlen hc
      have he := erase_eq_eraseIdx_of_first l i hil t ht hn
      refine ⟨decrement_size L1, ?_, ?_, k3, k4, ?_, fun _ => k2, ?_⟩
      · simp only [bind, Except.bind, ht, if_true, pure, Except.pure]
        split_ifs at h1 ⊢ with hl <;> rw [h1]
      · rw [he]; exact k1
      · rw [k5, hlen]
      · intro hnot
        exact absurd (ht ▸ List.getElem_mem hil) hnot
    · have hn1 : t ∉ l.take (i + 1) := by
        rw [List.take_succ, List.getElem?_eq_getElem hil]
        simp only [Option.toList_some, List.mem_append, List.mem_singleton, not_or]
        exact ⟨hn, ht⟩
      have := ih (i + 1) (by omega) hn1
      simp only [bind, Except.bind, ht, if_false]
      exact_mod_cast this

theorem mapM_subscript (L : SmallSizeList T) (l : List T) (hH : Holds L l) :
    ∀ (m k : Nat), k + m = l.length →
      (List.range' k m).mapM (fun i => subscript L ((i : Nat) : Int)) = .ok (l.drop k) := by
  intro m
  induction m with
  | zero =>
    intro k hk
    have : k = l.length := by omega
    rw [this, List.drop_length]
    rfl
  | succ m ih =>
    intro k hk
    have hkl : k < l.length := by omega
    rw [List.range'_succ, List.mapM_cons, ih (k + 1) (by omega)]
    unfold subscript
    rw [load_of_holds L l hH k hkl, List.drop_eq_getElem_cons hkl]
    rfl

theorem elements_of_holds (L : SmallSizeList T) (l : List T) (hH : Holds L l) :
    elements L = .ok l := by
  unfold elements
  rw [hH.2.1, List.range_eq_range', mapM_subscript L l hH l.length 0 (by omega), List.drop_zero]

theorem capacity_congr (L L2 : SmallSizeList T)
    (h : get_capacity_exponent L2 = get_capacity_exponent L) : capacity L2 = capacity L := by
  rw [capacity_eq, capacity_eq, h]

theorem remove_spec [DecidableEq T] [Zero T] (L : SmallSizeList T) (l : List T) (v : T)
    (hH : Holds L l) :
    ∃ L2 : SmallSizeList T,
      remove L v = .ok L2
      ∧ Holds L2 (l.erase v)
      ∧ get_capacity_exponent L2 = get_capacity_exponent L
      ∧ L2.base = L.base
      ∧ L2.cells.length = L.cells.length
      ∧ (v ∈ l → size L2 + 1 = size L)
      ∧ (v ∉ l → L2 = L) := by
  have := remove_loop_spec L l v hH l.length 0 (by omega) (by simp)
  have hs : size L = l.length := hH.2.1
  unfold remove
  simp only [hs]
  rw [hs] at this
  exact_mod_cast this

/-- Claim C5. `remove(v)` erases exactly the first occurrence.  For every list
whose logical contents are `l` (with `size() = |l| ≤ capacity()`) and every
value `v`, `remove(v)` returns, and afterwards the logical contents are `l` with
its first element equal to `v` deleted, the others in their original order;
`capacity()` is unchanged, `size()` is one less if `v` occurs in `l`, and the
whole list state is unchanged if `v` does not occur. -/
theorem remove_erases_first_occurrence [DecidableEq T] [Zero T] (L : SmallSizeList T)
    (l : List T) (v : T) (hH : Holds L l) (_hcap : l.length ≤ capacity L) :
    ∃ L2 : SmallSizeList T,
      remove L v = .ok L2
      ∧ Holds L2 (l.erase v)
      ∧ elements L2 = .ok (l.erase v)
      ∧ capacity L2 = capacity L
      ∧ (v ∈ l → size L2 + 1 = size L)
      ∧ (v ∉ l → L2 = L) := by
  obtain ⟨L2, h1, h2, h3, _, _, h6, h7⟩ := remove_spec L l v hH
  exact ⟨L2, h1, h2, elements_of_holds L2 _ h2, capacity_congr L L2 h3, h6, h7⟩

theorem removeAtIndex_spec [DecidableEq T] [Zero T] (L : SmallSizeList T) (l : List T)
    (i : Nat) (hH : Holds L l) (hi : i < l.length) :
    ∃ L2 : SmallSizeList T,
      removeAtIndex L (i : Int) = .ok L2
      ∧ Holds L2 (l.eraseIdx i)
      ∧ size L2 + 1 = size L
      ∧ get_capacity_exponent L2 = get_capacity_exponent L
      ∧ L2.base = L.base
      ∧ L2.cells.length = L.cells.length
      ∧ (i + 1 = l.length → L2.cells = L.cells.set i (some 0)) := by
  obtain ⟨L1, h1, hptr, hbase, hlen, hc, hz⟩ := erase_step_spec L l hH i hi
  obtain ⟨k1, k2, k3, k4, k5⟩ := holds_after_erase L L1 l hH i hi hptr hbase hlen hc
  have hs : size L = l.length := hH.2.1
  have ha : ((i : Int) < ((size L : Nat) : Int)) := by rw [hs]; exact_mod_cast hi
  refine ⟨decrement_size L1, ?_, k1, k2, k3, k4, ?_, ?_⟩
  · unfold removeAtIndex
    simp only [assert, ha, decide_True, if_true, bind, Except.bind, pure, Except.pure]
    rw [hs]
    split_ifs at h1 ⊢ with hl <;> rw [h1]
  · rw [k5, hlen]
  · intro h; rw [k5]; exact hz h

/-- Claim C7. `removeAtIndex(i)` erases by position.  For every list with logical
contents `l` and every `i` with `0 ≤ i < size()`, `removeAtIndex(i)` returns, and
afterwards the logical contents are `l` with the element at position `i`
deleted (the elements before `i` unchanged, those after `i` shifted left by one,
in the same order), `size()` is one less and `capacity()` is unchanged. -/
theorem removeAtIndex_erases_position [DecidableEq T] [Zero T] (L : SmallSizeList T)
    (l : List T) (i : Nat) (hH : Holds L l) (hi : i < size L) :
    ∃ L2 : SmallSizeList T,
      removeAtIndex L (i : Int) = .ok L2
      ∧ Holds L2 (l.eraseIdx i)
      ∧ elements L2 = .ok (l.take i ++ l.drop (i + 1))
      ∧ size L2 + 1 = size L
      ∧ capacity L2 = capacity L := by
  have hi1 : i < l.length := by rw [← hH.2.1]; exact hi
  obtain ⟨L2, h1, h2, h3, h4, _, _, _⟩ := removeAtIndex_spec L l i hH hi1
  refine ⟨L2, h1, h2, ?_, h3, capacity_congr L L2 h4⟩
  rw [← List.eraseIdx_eq_take_drop_succ]
  exact elements_of_holds L2 _ h2

theorem store_ok (L : SmallSizeList T) (p i : Nat) (t : T) (hp : p = L.base)
    (hi : i < L.cells.length) :
    store L p (i : Int) t = .ok { L with cells := L.cells.set i (some t) } := by
  unfold store writeSlot
  have hc : 0 ≤ (i : Int) ∧ (i : Int).toNat < L.cells.length := by
    rw [Int.toNat_ofNat]; omega
  rw [if_pos hp, if_pos hc, Int.toNat_ofNat]

theorem push_back_spec (q : Nat) (L : SmallSizeList T) (v : T)
    (hp : getPointer L.ptr = L.base) (hlt : size L < capacity L)
    (halloc : size L < L.cells.length) :
    push_back q L v
        = .ok (increment_size { L with cells := L.cells.set (size L) (some v) })
      ∧ size (increment_size { L with cells := L.cells.set (size L) (some v) }) = size L + 1
      ∧ get_capacity_exponent (increment_size { L with cells := L.cells.set (size L) (some v) })
          = get_capacity_exponent L
      ∧ getPointer (increment_size { L with cells := L.cells.set (size L) (some v) }).ptr
          = L.base
      ∧ (increment_size { L with cells := L.cells.set (size L) (some v) }).base = L.base
      ∧ (increment_size { L with cells := L.cells.set (size L) (some v) }).cells
          = L.cells.set (size L) (some v) := by
  have hcap := capacity_le L
  have hs : size ({ L with cells := L.cells.set (size L) (some v) } : SmallSizeList T) = size L :=
    rfl
  obtain ⟨i1, i2, i3, i4, i5⟩ :=
    increment_size_spec ({ L with cells := L.cells.set (size L) (some v) } : SmallSizeList T)
      (by rw [hs]; omega)
  refine ⟨?_, i1, i2, ?_, i4, i5⟩
  · unfold push_back
    simp only [hlt, if_true, store_ok L _ (size L) v hp halloc, bind, Except.bind, pure,
      Except.pure]
  · rw [i3]; exact hp

theorem holds_push_back (q : Nat) (L : SmallSizeList T) (l : List T) (v : T)
    (hH : Holds L l) (hlt : l.length < capacity L) (halloc : l.length < L.cells.length) :
    ∃ L2 : SmallSizeList T,
      push_back q L v = .ok L2 ∧ Holds L2 (l ++ [v])
      ∧ get_capacity_exponent L2 = get_capacity_exponent L
      ∧ L2.cells.length = L.cells.length := by
  obtain ⟨hp, hs, hlen, hc⟩ := hH
  obtain ⟨h1, h2, h3, h4, h5, h6⟩ :=
    push_back_spec q L v hp (by rw [hs]; exact hlt) (by rw [hs]; exact halloc)
  refine ⟨_, h1, ⟨?_, ?_, ?_, ?_⟩, h3, ?_⟩
  · rw [h4, h5]
  · rw [h2, hs, List.length_append, List.length_singleton]
  · rw [h6, List.length_set, List.length_append, List.length_singleton]; omega
  · rw [h6, hs, List.length_append, List.length_singleton, List.map_append]
    apply List.ext_getElem?
    intro j
    rw [List.getElem?_take]
    by_cases hj : j < l.length
    · have hj1 : j < l.length + 1 := by omega
      have hne : l.length ≠ j := by omega
      rw [if_pos hj1, List.getElem?_set_ne hne, List.getElem?_append_left (by simpa using hj),
        ← hc, List.getElem?_take_of_lt hj]
    · by_cases hj2 : j = l.length
      · subst hj2
        rw [if_pos (by omega), List.getElem?_set_self halloc,
          List.getElem?_append_right (by simp)]
        simp
      · rw [if_neg (by omega), List.getElem?_append_right (by simp; omega)]
        simp only [List.length_map, List.map_cons, List.map_nil]
        rw [List.getElem?_eq_none]
        simp; omega
  · rw [h6, List.length_set]

theorem getStorage_new (p : Nat) :
    getStorage Types uint16_t (construct p [(uint16_t, 0)]) = 0 := by
  have hc : getCumulativeTypeSize Types uint16_t + uint16_t.sizeof ≤ 2 := by decide
  have hpack : packImpl [(uint16_t, 0)] = 0 := by decide
  apply Nat.eq_of_testBit_eq
  intro j
  rw [testBit_getStorage _ _ _ _ hc, testBit_construct, hpack, cumulative_uint16]
  have h1 : ¬ 48 + 8 * 0 + j < 48 := by omega
  simp [h1]

theorem getPointer_new (p : Nat) (hp : p < 2 ^ 48) :
    getPointer (construct p [(uint16_t, 0)]) = p := by
  apply Nat.eq_of_testBit_eq
  intro k
  rw [testBit_getPointer, testBit_construct]
  by_cases h : k < 48
  · simp [h]
  · have : p.testBit k = false :=
      Nat.testBit_lt_two_pow (lt_of_lt_of_le hp (Nat.pow_le_pow_right (by norm_num) (by omega)))
    simp [h, this]

theorem new_spec (sizeofT p : Nat) (h1 : 1 ≤ sizeofT) (h8 : sizeofT ≤ 8) (hp : p < 2 ^ 48) :
    Holds (new sizeofT p : SmallSizeList T) []
      ∧ get_capacity_exponent (new sizeofT p : SmallSizeList T) = 0
      ∧ capacity (new sizeofT p : SmallSizeList T) = 16
      ∧ 16 ≤ (new sizeofT p : SmallSizeList T).cells.length := by
  have hg : getStorage Types uint16_t (new sizeofT p : SmallSizeList T).ptr = 0 :=
    getStorage_new p
  have he : get_capacity_exponent (new sizeofT p : SmallSizeList T) = 0 := by
    rw [exponent_eq, hg]
  refine ⟨⟨getPointer_new p hp, ?_, Nat.zero_le _, rfl⟩, he, ?_, ?_⟩
  · rw [size_eq, hg]; rfl
  · rw [capacity_eq, he]; rfl
  · show 16 ≤ (List.replicate (8 * default_capacity / sizeofT) (none : Option T)).length
    rw [List.length_replicate, Nat.le_div_iff_mul_le (by omega)]
    unfold default_capacity
    nlinarith

theorem push_back_all_spec (q : Nat) (es : List T) :
    ∀ (L : SmallSizeList T) (l : List T), Holds L l →
      l.length + es.length ≤ capacity L → capacity L ≤ L.cells.length →
      ∃ L2 : SmallSizeList T,
        push_back_all q L es = .ok L2 ∧ Holds L2 (l ++ es)
        ∧ get_capacity_exponent L2 = get_capacity_exponent L
        ∧ L2.cells.length = L.cells.length := by
  induction es with
  | nil =>
    intro L l hH _ _
    refine ⟨L, rfl, ?_, rfl, rfl⟩
    rw [List.append_nil]; exact hH
  | cons e es ih =>
    intro L l hH hcap halloc
    rw [List.length_cons] at hcap
    obtain ⟨L1, h1, h2, h3, h4⟩ := holds_push_back q L l e hH (by omega) (by omega)
    have hc1 : capacity L1 = capacity L := capacity_congr L L1 h3
    obtain ⟨L2, k1, k2, k3, k4⟩ := ih L1 (l ++ [e]) h2
      (by rw [hc1, List.length_append, List.length_singleton]; omega) (by rw [hc1, h4]; exact halloc)
    refine ⟨L2, ?_, ?_, by rw [k3, h3], by rw [k4, h4]⟩
    · unfold push_back_all
      rw [List.foldlM_cons, h1]
      exact k1
    · rw [List.append_assoc] at k2
      exact k2

/-- Counterexample to claim C6 as stated.  Pushing `7, 8, 7, 9` onto a freshly
constructed list of 8-byte elements and calling `remove(e_2)` (that is
`remove(7)`, `i = 2 < n - 1 = 3`) leaves `8, 7, 9`: the first `7` is erased, not
the one at index 2; the sequence the claim predicts is `7, 8, 9`. -/
theorem push_then_remove_counterexample :
    (do let L ← push_back_all 0x2000 (new 8 0x1000 : SmallSizeList Nat) [7, 8, 7, 9]
        let L ← remove L ([7, 8, 7, 9] : List Nat)[2]
        elements L) = .ok [8, 7, 9]
    ∧ ([8, 7, 9] : List Nat) ≠ ([7, 8, 7, 9] : List Nat).eraseIdx 2 := by
  decide

/-- Claim C6, amended. For an element type of 1 to 8 bytes, a buffer address
below `2 ^ 48`, every `n` with `2 ≤ n ≤ 16`, every sequence `e_0 .. e_(n-1)` and
every index `i < n - 1` such that the value `e_i` does not occur among
`e_0 .. e_(i-1)`: pushing `e_0 .. e_(n-1)` with `push_back` onto a freshly
constructed list and then calling `remove(e_i)` returns and leaves
`size() = n - 1` and the element sequence `e_0 .. e_(i-1), e_(i+1) .. e_(n-1)`,
in that order. -/
theorem push_then_remove_ordering [DecidableEq T] [Zero T] (sizeofT p q : Nat) (es : List T)
    (i : Nat) (h1 : 1 ≤ sizeofT) (h8 : sizeofT ≤ 8) (hp : p < 2 ^ 48)
    (hn2 : 2 ≤ es.length) (hn16 : es.length ≤ 16) (hi : i < es.length - 1)
    (hfirst : ∀ (j : Nat) (hj : j < i), es[j] ≠ es[i]) :
    ∃ L L2 : SmallSizeList T,
      push_back_all q (new sizeofT p) es = .ok L
      ∧ remove L es[i] = .ok L2
      ∧ size L2 = es.length - 1
      ∧ elements L2 = .ok (es.take i ++ es.drop (i + 1)) := by
  obtain ⟨n1, n2, n3, n4⟩ := new_spec (T := T) sizeofT p h1 h8 hp
  obtain ⟨L, k1, k2, _, _⟩ := push_back_all_spec q es (new sizeofT p) [] n1
    (by rw [n3]; simpa using hn16) (by rw [n3]; exact n4)
  rw [List.nil_append] at k2
  obtain ⟨L2, r1, r2, _, _, _, r6, _⟩ := remove_spec L es es[i] k2
  have hil : i < es.length := by omega
  have hnot : es[i] ∉ es.take i := by
    intro hmem
    obtain ⟨j, hj, hje⟩ := List.getElem_of_mem hmem
    rw [List.length_take] at hj
    rw [List.getElem_take] at hje
    exact hfirst j (by omega) hje
  have he : es.erase es[i] = es.eraseIdx i := erase_eq_eraseIdx_of_first es i hil es[i] rfl hnot
  have hs := r6 (List.getElem_mem hil)
  refine ⟨L, L2, k1, r1, ?_, ?_⟩
  · rw [k2.2.1] at hs; omega
  · rw [← List.eraseIdx_eq_take_drop_succ, ← he]
    exact elements_of_holds L2 _ r2

/-- Witness of C6 (amended): `7, 8, 9, 7` with `i = 1`. -/
theorem push_then_remove_ordering_witness :
    (1 ≤ 8 ∧ 8 ≤ 8 ∧ 0x1000 < 2 ^ 48 ∧ 2 ≤ ([7, 8, 9, 7] : List Nat).length
      ∧ ([7, 8, 9, 7] : List Nat).length ≤ 16 ∧ 1 < ([7, 8, 9, 7] : List Nat).length - 1)
    ∧ ∃ L L2 : SmallSizeList Nat,
      push_back_all 0x2000 (new 8 0x1000) [7, 8, 9, 7] = .ok L
      ∧ remove L ([7, 8, 9, 7] : List Nat)[1] = .ok L2
      ∧ size L2 = ([7, 8, 9, 7] : List Nat).length - 1
      ∧ elements L2
          = .ok (([7, 8, 9, 7] : List Nat).take 1 ++ ([7, 8, 9, 7] : List Nat).drop (1 + 1)) :=
  ⟨by decide,
    push_then_remove_ordering 8 0x1000 0x2000 [7, 8, 9, 7] 1 (by decide) (by decide)
      (by decide) (by decide) (by decide) (by decide) (by decide)⟩

theorem increment_capacity_and_size_fails (L : SmallSizeList T) :
    increment_capacity_and_size L
      = .error (if get_capacity_exponent L < 7 then Fault.assertion 78 else Fault.assertion 77) := by
  have hle := exponent_le L
  unfold increment_capacity_and_size
  change (do
    assert 77 (decide ((get_capacity_exponent L + 1) % 2 ^ 16 ≤ 0b0111))
    assert 78 (decide (1 = 0))
    pure (_, _)) = _
  by_cases h : get_capacity_exponent L < 7
  · have h1 : (get_capacity_exponent L + 1) % 65536 ≤ 7 := by omega
    simp [assert, h, h1, bind, Except.bind]
  · have h1 : ¬ (get_capacity_exponent L + 1) % 65536 ≤ 7 := by omega
    simp [assert, h, h1, bind, Except.bind]

theorem push_back_full (q : Nat) (L : SmallSizeList T) (v : T) (hfull : ¬ size L < capacity L) :
    push_back q L v
      = .error (if get_capacity_exponent L < 7 then Fault.assertion 78 else Fault.assertion 77) := by
  unfold push_back
  simp only [hfull, if_false, increment_capacity_and_size_fails, bind, Except.bind]

/-- Claim C9, where the code diverges. `push_back` on a full list never grows it: for
every list with `size() = capacity() = c` and `c < 2048`, `push_back(v)` ends in
the failed `assert(1 == 0)` of `increment_capacity_and_size` (small_list.h:78);
no list state with `capacity() = 2c` is produced. -/
theorem push_back_full_aborts (q : Nat) (L : SmallSizeList T) (v : T)
    (hfull : size L = capacity L) (hc : capacity L < 2048) :
    push_back q L v = .error (Fault.assertion 78) := by
  have he : get_capacity_exponent L < 7 := by
    by_contra hcon
    have h7 : get_capacity_exponent L = 7 := by have := exponent_le L; omega
    rw [capacity_eq, h7] at hc
    norm_num at hc
  rw [push_back_full q L v (by omega), if_pos he]

/-- Witness of C9: the 17th `push_back` on a fresh list of 8-byte elements. -/
theorem push_back_full_aborts_witness :
    (push_back_all 0x2000 (new 8 0x1000 : SmallSizeList Nat) (List.range 16) = .ok sampleFull
      ∧ size sampleFull = capacity sampleFull ∧ capacity sampleFull < 2048)
    ∧ push_back 0x2000 sampleFull 16 = .error (Fault.assertion 78) :=
  ⟨⟨by decide, by decide, by decide⟩,
    push_back_full_aborts 0x2000 sampleFull 16 (by decide) (by decide)⟩

/-- Claim C10. Capacity limit.  `push_back` on a list with
`size() = capacity() = 2048` (exponent 7) fails explicitly, in the
`assert(exponent <= 0b0111)` of `increment_capacity_and_size`
(small_list.h:77), and yields no list state at all; in particular none with
`size() > capacity()` or with a capacity exponent that wrapped around. -/
theorem push_back_at_max_capacity_fails (q : Nat) (L : SmallSizeList T) (v : T)
    (hs : size L = 2048) (hc : capacity L = 2048) :
    push_back q L v = .error (Fault.assertion 77)
      ∧ ∀ L2 : SmallSizeList T, push_back q L v = .ok L2 →
          size L2 ≤ capacity L2 ∧ get_capacity_exponent L ≤ get_capacity_exponent L2 := by
  have he : ¬ get_capacity_exponent L < 7 := by
    intro hlt
    have h2 : (2 : Nat) ^ get_capacity_exponent L < 2 ^ 7 :=
      Nat.pow_lt_pow_right (by norm_num) hlt
    rw [capacity_eq] at hc
    omega
  have hfail : push_back q L v = .error (Fault.assertion 77) := by
    rw [push_back_full q L v (by omega), if_neg he]
  refine ⟨hfail, ?_⟩
  intro L2 h
  rw [hfail] at h
  cases h

/-- Witness of C10: a list of 2048 elements at exponent 7. -/
theorem push_back_at_max_capacity_fails_witness :
    (size sampleMax = 2048 ∧ capacity sampleMax = 2048)
    ∧ push_back 0x2000 sampleMax 5 = .error (Fault.assertion 77) :=
  ⟨⟨by decide, by decide⟩,
    (push_back_at_max_capacity_fails 0x2000 sampleMax 5 (by decide) (by decide)).1⟩

theorem holds_sample : Holds sample [7, 8, 7] :=
  ⟨by decide, by decide, by decide, by decide⟩

/-- Witness of C5: `remove(7)` on the list `7, 8, 7`. -/
theorem remove_erases_first_occurrence_witness :
    (Holds sample [7, 8, 7] ∧ ([7, 8, 7] : List Nat).length ≤ capacity sample)
    ∧ ∃ L2 : SmallSizeList Nat,
      remove sample 7 = .ok L2
      ∧ Holds L2 (([7, 8, 7] : List Nat).erase 7)
      ∧ elements L2 = .ok (([7, 8, 7] : List Nat).erase 7)
      ∧ capacity L2 = capacity sample
      ∧ (7 ∈ ([7, 8, 7] : List Nat) → size L2 + 1 = size sample)
      ∧ (7 ∉ ([7, 8, 7] : List Nat) → L2 = sample) :=
  ⟨⟨holds_sample, by decide⟩,
    remove_erases_first_occurrence sample [7, 8, 7] 7 holds_sample (by decide)⟩

/-- Witness of C7: `removeAtIndex(1)` on the list `7, 8, 7`. -/
theorem removeAtIndex_erases_position_witness :
    (Holds sample [7, 8, 7] ∧ 1 < size sample)
    ∧ ∃ L2 : SmallSizeList Nat,
      removeAtIndex sample ((1 : Nat) : Int) = .ok L2
      ∧ Holds L2 (([7, 8, 7] : List Nat).eraseIdx 1)
      ∧ elements L2 = .ok (([7, 8, 7] : List Nat).take 1 ++ ([7, 8, 7] : List Nat).drop (1 + 1))
      ∧ size L2 + 1 = size sample
      ∧ capacity L2 = capacity sample :=
  ⟨⟨holds_sample, by decide⟩,
    removeAtIndex_erases_position sample [7, 8, 7] 1 holds_sample (by decide)⟩

theorem store_oob (L : SmallSizeList T) (p i : Nat) (t : T) (hi : L.cells.length ≤ i) :
    store L p (i : Int) t = .error .undefined := by
  unfold store writeSlot
  have hc : ¬ (0 ≤ (i : Int) ∧ (i : Int).toNat < L.cells.length) := by
    rw [Int.toNat_ofNat]; omega
  by_cases hp : p = L.base
  · rw [if_pos hp, if_neg hc]
  · rw [if_neg hp]

/-- The in-place branch of `push_back` on a list whose block has no slot at
index `size()`: the store `p[s] = t` is outside the block. -/
theorem push_back_oob (q : Nat) (L : SmallSizeList T) (v : T) (hlt : size L < capacity L)
    (hfull : L.cells.length ≤ size L) : push_back q L v = .error .undefined := by
  unfold push_back
  simp only [hlt, if_true, store_oob L _ (size L) v hfull, bind, Except.bind]

/-- The freshly constructed list for any element size: it is empty, reports
`capacity() = 16`, and its block of `sizeof(T *) * 16 = 128` bytes has
`128 / sizeof(T)` slots. -/
theorem holds_new (sizeofT p : Nat) (hp : p < 2 ^ 48) :
    Holds (new sizeofT p : SmallSizeList T) []
      ∧ capacity (new sizeofT p : SmallSizeList T) = 16
      ∧ (new sizeofT p : SmallSizeList T).cells.length = 8 * 16 / sizeofT := by
  have hg : getStorage Types uint16_t (new sizeofT p : SmallSizeList T).ptr = 0 :=
    getStorage_new p
  have he : get_capacity_exponent (new sizeofT p : SmallSizeList T) = 0 := by
    rw [exponent_eq, hg]
  refine ⟨⟨getPointer_new p hp, ?_, Nat.zero_le _, rfl⟩, ?_, ?_⟩
  · rw [size_eq, hg]; rfl
  · rw [capacity_eq, he]; rfl
  · show (List.replicate (8 * default_capacity / sizeofT) (none : Option T)).length = _
    rw [List.length_replicate]
    rfl

/-- A run of `push_back` calls that stays within the slots of the block and
below `capacity()`. -/
theorem push_back_all_within (q : Nat) (es : List T) :
    ∀ (L : SmallSizeList T) (l : List T), Holds L l →
      l.length + es.length ≤ capacity L → l.length + es.length ≤ L.cells.length →
      ∃ L2 : SmallSizeList T,
        push_back_all q L es = .ok L2 ∧ Holds L2 (l ++ es)
        ∧ get_capacity_exponent L2 = get_capacity_exponent L
        ∧ L2.cells.length = L.cells.length := by
  induction es with
  | nil =>
    intro L l hH _ _
    refine ⟨L, rfl, ?_, rfl, rfl⟩
    rw [List.append_nil]; exact hH
  | cons e es ih =>
    intro L l hH hcap halloc
    rw [List.length_cons] at hcap halloc
    obtain ⟨L1, h1, h2, h3, h4⟩ := holds_push_back q L l e hH (by omega) (by omega)
    have hc1 : capacity L1 = capacity L := capacity_congr L L1 h3
    obtain ⟨L2, k1, k2, k3, k4⟩ := ih L1 (l ++ [e]) h2
      (by rw [hc1, List.length_append, List.length_singleton]; omega)
      (by rw [h4, List.length_append, List.length_singleton]; omega)
    refine ⟨L2, ?_, ?_, by rw [k3, h3], by rw [k4, h4]⟩
    · unfold push_back_all
      rw [List.foldlM_cons, h1]
      exact k1
    · rw [List.append_assoc] at k2
      exact k2

/-- Claim C8, where the code diverges. `push_back` without growth appends only
when the block has a slot at index `size()`.  For every list with
`size() = s < capacity()` and every value `v`: when the pointer field addresses
the live block and the block has a slot `s`, `push_back(v)` returns with
`size() = s + 1`, `operator[](s)` reading `v`, `operator[](j)` unchanged for
`j < s`, and `capacity()` and the exponent unchanged; when the block has no
slot `s`, the store `p[s] = t` is undefined behaviour.  The second case is
reached: for every element size above 8 bytes, the constructor's block of
`sizeof(T *) * 16 = 128` bytes has `128 / sizeof(T) < 16` slots, so after
`128 / sizeof(T)` calls of `push_back` on a fresh list, which all return, the
list has `size() < capacity() = 16` and the next `push_back` is undefined
behaviour. -/
theorem push_back_without_growth_overruns_constructor_block (q : Nat) :
    (∀ (L : SmallSizeList T) (v : T), size L < capacity L →
      (getPointer L.ptr = L.base → size L < L.cells.length →
        ∃ L2 : SmallSizeList T,
          push_back q L v = .ok L2
          ∧ size L2 = size L + 1
          ∧ subscript L2 (size L : Nat) = .ok v
          ∧ (∀ j : Nat, j < size L → subscript L2 (j : Nat) = subscript L (j : Nat))
          ∧ capacity L2 = capacity L
          ∧ get_capacity_exponent L2 = get_capacity_exponent L)
      ∧ (L.cells.length ≤ size L → push_back q L v = .error .undefined))
    ∧ (∀ (sizeofT p : Nat) (es : List T) (v : T), 8 < sizeofT → p < 2 ^ 48 →
        es.length = 8 * 16 / sizeofT →
        ∃ L : SmallSizeList T,
          push_back_all q (new sizeofT p) es = .ok L
          ∧ elements L = .ok es
          ∧ size L = es.length
          ∧ capacity L = 16
          ∧ size L < capacity L
          ∧ push_back q L v = .error .undefined) := by
  constructor
  · intro L v hlt
    refine ⟨?_, push_back_oob q L v hlt⟩
    intro hp hs
    obtain ⟨h1, h2, h3, h4, h5, h6⟩ := push_back_spec q L v hp hlt hs
    refine ⟨_, h1, h2, ?_, ?_, capacity_congr _ _ h3, h3⟩
    · unfold subscript load readSlot
      have hn : ¬ (((size L : Nat) : Int) < 0) := by omega
      rw [h4, h5, if_pos rfl, if_neg hn, h6, Int.toNat_ofNat, List.getElem?_set_self hs]
    · intro j hj
      unfold subscript load readSlot
      have hne : size L ≠ j := by omega
      rw [h4, h5, hp, h6, Int.toNat_ofNat, List.getElem?_set_ne hne]
  · intro sizeofT p es v h8 hp hn
    obtain ⟨hH, hcap, hlen⟩ := holds_new (T := T) sizeofT p hp
    have hlt : 8 * 16 / sizeofT < 16 := by
      rw [Nat.div_lt_iff_lt_mul (by omega)]
      omega
    obtain ⟨L, h1, h2, h3, h4⟩ := push_back_all_within q es (new sizeofT p) [] hH
      (by rw [hcap, List.length_nil, hn]; omega) (by rw [hlen, List.length_nil, hn]; omega)
    rw [List.nil_append] at h2
    have hc : capacity L = 16 := by rw [capacity_congr _ L h3, hcap]
    have hs : size L = es.length := h2.2.1
    have hlt2 : size L < capacity L := by rw [hc, hs, hn]; exact hlt
    refine ⟨L, h1, elements_of_holds L es h2, hs, hc, hlt2, ?_⟩
    exact push_back_oob q L v hlt2 (by rw [h4, hlen, hs, hn])

/-- Witness of C8: `push_back(9)` on the list `7, 8, 7` of 8-byte elements, and a
fresh list of 16-byte elements after eight calls of `push_back`. -/
theorem push_back_without_growth_overruns_constructor_block_witness :
    (size sample < capacity sample ∧ getPointer sample.ptr = sample.base
      ∧ size sample < sample.cells.length
      ∧ 8 < 16 ∧ 0x1000 < 2 ^ 48 ∧ ([0, 1, 2, 3, 4, 5, 6, 7] : List Nat).length = 8 * 16 / 16)
    ∧ (∃ L2 : SmallSizeList Nat,
        push_back 0x2000 sample 9 = .ok L2
        ∧ size L2 = size sample + 1
        ∧ subscript L2 (size sample : Nat) = .ok 9
        ∧ (∀ j : Nat, j < size sample → subscript L2 (j : Nat) = subscript sample (j : Nat))
        ∧ capacity L2 = capacity sample
        ∧ get_capacity_exponent L2 = get_capacity_exponent sample)
    ∧ ∃ L : SmallSizeList Nat,
        push_back_all 0x2000 (new 16 0x1000) [0, 1, 2, 3, 4, 5, 6, 7] = .ok L
        ∧ elements L = .ok [0, 1, 2, 3, 4, 5, 6, 7]
        ∧ size L = ([0, 1, 2, 3, 4, 5, 6, 7] : List Nat).length
        ∧ capacity L = 16
        ∧ size L < capacity L
        ∧ push_back 0x2000 L 8 = .error .undefined :=
  ⟨⟨by decide, by decide, by decide, by decide, by decide, by decide⟩,
    ((push_back_without_growth_overruns_constructor_block (T := Nat) 0x2000).1 sample 9
      (by decide)).1 (by decide) (by decide),
    (push_back_without_growth_overruns_constructor_block (T := Nat) 0x2000).2 16 0x1000
      [0, 1, 2, 3, 4, 5, 6, 7] 8 (by decide) (by decide) (by decide)⟩

end SmallSizeList
end CppDS

/-! ## Theorems: stack.h -/

namespace CppDS
namespace Stack

variable {T : Type}

theorem writeSlot_ok (a : List (Option T)) (i : Nat) (t : T) (h : i < a.length) :
    writeSlot a (i : Int) t = .ok (a.set i (some t)) := by
  unfold writeSlot
  have hc : 0 ≤ (i : Int) ∧ (i : Int).toNat < a.length := by rw [Int.toNat_ofNat]; omega
  rw [if_pos hc, Int.toNat_ofNat]

theorem writeSlot_oob (a : List (Option T)) (i : Nat) (t : T) (h : a.length ≤ i) :
    writeSlot a (i : Int) t = .error .undefined := by
  unfold writeSlot
  have hc : ¬ (0 ≤ (i : Int) ∧ (i : Int).toNat < a.length) := by rw [Int.toNat_ofNat]; omega
  rw [if_neg hc]

theorem readSlot_ok (a : List (Option T)) (i : Nat) (x : T) (h : a[i]? = some (some x)) :
    readSlot a (i : Int) = .ok x := by
  unfold readSlot
  have hc : ¬ ((i : Int) < 0) := by omega
  rw [if_neg hc, Int.toNat_ofNat, h]

/-- The case of `push` into the inline array. -/
theorem push_inline (sizeofT : Nat) (s : Stack T) (t : T)
    (h : s.index < STACK_SIZE sizeofT) (hl : s.index < s.stack_allocated_array.length) :
    push sizeofT s t
      = .ok { s with stack_allocated_array := s.stack_allocated_array.set s.index (some t),
                     index := (s.index + 1) % 2 ^ 16 } := by
  unfold push
  have hc : (s.index : Int) < ((STACK_SIZE sizeofT : Nat) : Int) := by omega
  simp only [hc, if_true, writeSlot_ok _ _ t hl, bind, Except.bind, pure, Except.pure]

/-- The case of `push` when the inline array is full and there is no heap block yet. -/
theorem push_first_heap (sizeofT : Nat) (s : Stack T) (t : T)
    (h : s.index = STACK_SIZE sizeofT) (hn : s.heap_allocated_array = none) :
    push sizeofT s t
      = .ok { s with heap_allocated_array := some ((List.replicate 64 none).set 0 (some t)),
                     _n_memb_heap := 64, index := (s.index + 1) % 2 ^ 16 } := by
  unfold push
  have hc : ¬ (s.index : Int) < ((STACK_SIZE sizeofT : Nat) : Int) := by omega
  have e : (s.index : Int) - ((STACK_SIZE sizeofT : Nat) : Int) = ((0 : Nat) : Int) := by omega
  simp only [hc, if_false, hn, e, writeSlot_ok (List.replicate 64 none) 0 t (by simp), bind,
    Except.bind, pure, Except.pure]

/-- The case of `push` into a heap block with a free slot. -/
theorem push_heap (sizeofT : Nat) (s : Stack T) (t : T) (heap : List (Option T))
    (h : STACK_SIZE sizeofT ≤ s.index) (hh : s.heap_allocated_array = some heap)
    (hfree : s.index - STACK_SIZE sizeofT < s._n_memb_heap)
    (hl : s.index - STACK_SIZE sizeofT < heap.length) :
    push sizeofT s t
      = .ok { s with heap_allocated_array :=
                       some (heap.set (s.index - STACK_SIZE sizeofT) (some t)),
                     index := (s.index + 1) % 2 ^ 16 } := by
  unfold push
  have hc : ¬ (s.index : Int) < ((STACK_SIZE sizeofT : Nat) : Int) := by omega
  have e : (s.index : Int) - ((STACK_SIZE sizeofT : Nat) : Int)
      = ((s.index - STACK_SIZE sizeofT : Nat) : Int) := by omega
  have hc2 : ((s.index - STACK_SIZE sizeofT : Nat) : Int) < (s._n_memb_heap : Int) := by omega
  simp only [hc, if_false, hh, e, hc2, if_true, writeSlot_ok heap _ t hl, bind, Except.bind,
    pure, Except.pure]

/-- The case of `push` when the heap block is recorded as full: the outcome of the write
into the reallocated block. -/
theorem push_grow (sizeofT : Nat) (s : Stack T) (t : T) (heap : List (Option T))
    (h : STACK_SIZE sizeofT ≤ s.index) (hh : s.heap_allocated_array = some heap)
    (hfull : s._n_memb_heap ≤ s.index - STACK_SIZE sizeofT) :
    push sizeofT s t
      = (match writeSlot (reallocSlots heap (s._n_memb_heap * 2))
            ((s.index - STACK_SIZE sizeofT : Nat) : Int) t with
         | .ok heap2 => .ok { s with heap_allocated_array := some heap2,
                                      _n_memb_heap := (s._n_memb_heap * 2) % 2 ^ 16,
                                      index := (s.index + 1) % 2 ^ 16 }
         | .error e => .error e) := by
  unfold push
  have hc : ¬ (s.index : Int) < ((STACK_SIZE sizeofT : Nat) : Int) := by omega
  have e : (s.index : Int) - ((STACK_SIZE sizeofT : Nat) : Int)
      = ((s.index - STACK_SIZE sizeofT : Nat) : Int) := by omega
  have hc2 : ¬ ((s.index - STACK_SIZE sizeofT : Nat) : Int) < (s._n_memb_heap : Int) := by omega
  simp only [hc, if_false, hh, e, hc2, bind, Except.bind, pure, Except.pure]
  cases writeSlot (reallocSlots heap (s._n_memb_heap * 2))
      ((s.index - STACK_SIZE sizeofT : Nat) : Int) t <;> rfl

theorem STACK_SIZE_le (sizeofT : Nat) : STACK_SIZE sizeofT ≤ 52 := by
  unfold STACK_SIZE CACHELINE_SIZE
  exact Nat.div_le_self _ _

theorem getElem?_concat_lt (xs : List T) (x : T) (i : Nat) (h : i < xs.length) :
    (xs ++ [x])[i]? = xs[i]? :=
  List.getElem?_append_left h

theorem getElem?_concat_eq (xs : List T) (x : T) : (xs ++ [x])[xs.length]? = some x := by
  rw [List.getElem?_append_right (Nat.le_refl _)]
  simp

theorem reallocSlots_length (a : List (Option T)) (n : Nat) : (reallocSlots a n).length = n := by
  unfold reallocSlots
  rw [List.length_append, List.length_take, List.length_replicate]
  omega

theorem reallocSlots_getElem? (a : List (Option T)) (n i : Nat) (hi : i < a.length)
    (hn : a.length ≤ n) : (reallocSlots a n)[i]? = a[i]? := by
  unfold reallocSlots
  rw [List.take_of_length_le hn, List.getElem?_append_left hi]

/-- One more `push` on a stack filled by pushes only, below the point where the
16-bit heap capacity wraps. -/
theorem push_step (sizeofT : Nat) (s : Stack T) (xs : List T) (x : T)
    (hS : Stores sizeofT s xs) (hG : Grown sizeofT s xs)
    (hb : xs.length < STACK_SIZE sizeofT + 32769) :
    ∃ s2 : Stack T, push sizeofT s x = .ok s2
      ∧ Stores sizeofT s2 (xs ++ [x]) ∧ Grown sizeofT s2 (xs ++ [x]) := by
  obtain ⟨hidx, hlt, hin, hhp⟩ := hS
  obtain ⟨hlen, hnone, hsome⟩ := hG
  have hN := STACK_SIZE_le sizeofT
  have hlen1 : (xs ++ [x]).length = xs.length + 1 := by simp
  have hmod : (s.index + 1) % 2 ^ 16 = xs.length + 1 := by
    rw [hidx]; apply Nat.mod_eq_of_lt; norm_num; omega
  rcases lt_trichotomy xs.length (STACK_SIZE sizeofT) with h | h | h
  · -- the inline array has a free slot
    refine ⟨_, push_inline sizeofT s x (by omega) (by omega), ⟨?_, ?_, ?_, ?_⟩, ⟨?_, ?_, ?_⟩⟩
    · rw [hlen1]; exact hmod
    · rw [hlen1]; norm_num; omega
    · intro i hi hi2
      rw [hlen1] at hi
      show (s.stack_allocated_array.set s.index (some x))[i]? = _
      by_cases e : i = xs.length
      · subst e
        rw [hidx, List.getElem?_set_self (by omega), getElem?_concat_eq]
      · rw [List.getElem?_set_ne (by omega), getElem?_concat_lt xs x i (by omega)]
        exact hin i (by omega) hi2
    · intro hc; rw [hlen1] at hc; omega
    · show (s.stack_allocated_array.set s.index (some x)).length = _
      rw [List.length_set]; exact hlen
    · intro _; exact hnone (by omega)
    · intro hc; rw [hlen1] at hc; omega
  · -- the inline array is full and there is no heap block yet
    obtain ⟨hnull, _⟩ := hnone (by omega)
    refine ⟨_, push_first_heap sizeofT s x (by omega) hnull, ⟨?_, ?_, ?_, ?_⟩, ⟨hlen, ?_, ?_⟩⟩
    · rw [hlen1]; exact hmod
    · rw [hlen1]; norm_num; omega
    · intro i hi hi2
      rw [getElem?_concat_lt xs x i (by omega)]
      exact hin i (by omega) hi2
    · intro _
      refine ⟨_, rfl, ?_⟩
      intro i h1 h2
      rw [hlen1] at h2
      have e : i = xs.length := by omega
      subst e
      rw [getElem?_concat_eq, h, Nat.sub_self, List.getElem?_set_self (by simp)]
    · intro hc; rw [hlen1] at hc; omega
    · intro _
      refine ⟨_, 0, rfl, by simp, by norm_num, ?_, Or.inl rfl⟩
      rw [hlen1]; omega
  · -- the heap block exists
    obtain ⟨heap, j, hheap, hhl, hnm, hle, hhalf⟩ := hsome h
    obtain ⟨heap', hheap', hel⟩ := hhp h
    have e' : heap' = heap := by rw [hheap] at hheap'; exact (Option.some.inj hheap').symm
    rw [e'] at hel
    have hH : 64 * 2 ^ j < 2 ^ 16 := by
      rcases hhalf with hj | hj
      · subst hj; norm_num
      · norm_num; omega
    rw [Nat.mod_eq_of_lt hH] at hnm
    have hpos : 0 < 2 ^ j := Nat.pos_pow_of_pos j (by norm_num)
    by_cases hm : xs.length - STACK_SIZE sizeofT < 64 * 2 ^ j
    · -- a free slot in the heap block
      refine ⟨_, push_heap sizeofT s x heap (by omega) hheap (by rw [hnm, hidx]; exact hm)
        (by rw [hhl, hidx]; exact hm), ⟨?_, ?_, ?_, ?_⟩, ⟨hlen, ?_, ?_⟩⟩
      · rw [hlen1]; exact hmod
      · rw [hlen1]; norm_num; omega
      · intro i hi hi2
        rw [getElem?_concat_lt xs x i (by omega)]
        exact hin i (by omega) hi2
      · intro _
        refine ⟨_, rfl, ?_⟩
        intro i h1 h2
        rw [hlen1] at h2
        by_cases e : i = xs.length
        · subst e
          rw [getElem?_concat_eq, hidx, List.getElem?_set_self (by omega)]
        · rw [getElem?_concat_lt xs x i (by omega), hidx, List.getElem?_set_ne (by omega)]
          exact hel i h1 (by omega)
      · intro hc; rw [hlen1] at hc; omega
      · intro _
        refine ⟨_, j, rfl, ?_, ?_, ?_, ?_⟩
        · rw [List.length_set]; exact hhl
        · rw [Nat.mod_eq_of_lt hH]; exact hnm
        · rw [hlen1]; omega
        · rw [hlen1]; rcases hhalf with hj | hj
          · exact Or.inl hj
          · right; omega
    · -- the heap block is full: it is reallocated at twice its size
      have hfull : xs.length - STACK_SIZE sizeofT = 64 * 2 ^ j := by omega
      have hpow : 64 * 2 ^ (j + 1) = 64 * 2 ^ j * 2 := by rw [pow_succ]; ring
      have hw : writeSlot (reallocSlots heap (s._n_memb_heap * 2))
          ((s.index - STACK_SIZE sizeofT : Nat) : Int) x
          = .ok ((reallocSlots heap (s._n_memb_heap * 2)).set (s.index - STACK_SIZE sizeofT)
              (some x)) :=
        writeSlot_ok _ _ x (by rw [reallocSlots_length, hnm, hidx, hfull]; omega)
      refine ⟨{ s with heap_allocated_array :=
                         some ((reallocSlots heap (s._n_memb_heap * 2)).set
                           (s.index - STACK_SIZE sizeofT) (some x)),
                       _n_memb_heap := (s._n_memb_heap * 2) % 2 ^ 16,
                       index := (s.index + 1) % 2 ^ 16 },
        by rw [push_grow sizeofT s x heap (by omega) hheap (by rw [hnm, hidx]; omega), hw],
        ⟨?_, ?_, ?_, ?_⟩, ⟨hlen, ?_, ?_⟩⟩
      · rw [hlen1]; exact hmod
      · rw [hlen1]; norm_num; omega
      · intro i hi hi2
        rw [getElem?_concat_lt xs x i (by omega)]
        exact hin i (by omega) hi2
      · intro _
        refine ⟨_, rfl, ?_⟩
        intro i h1 h2
        rw [hlen1] at h2
        by_cases e : i = xs.length
        · subst e
          rw [getElem?_concat_eq, hidx, List.getElem?_set_self
            (by rw [reallocSlots_length, hnm, hfull]; omega)]
        · rw [getElem?_concat_lt xs x i (by omega), hidx, List.getElem?_set_ne (by omega),
            reallocSlots_getElem? heap _ _ (by rw [hhl]; omega) (by rw [hhl, hnm]; omega)]
          exact hel i h1 (by omega)
      · intro hc; rw [hlen1] at hc; omega
      · intro _
        refine ⟨_, j + 1, rfl, ?_, ?_, ?_, ?_⟩
        · rw [List.length_set, reallocSlots_length, hnm, hpow]
        · show (s._n_memb_heap * 2) % 2 ^ 16 = _
          rw [hnm, hpow]
        · rw [hlen1, hpow]; omega
        · right; rw [hlen1, hpow]; omega

theorem stores_new (sizeofT : Nat) : Stores sizeofT (new sizeofT : Stack T) [] :=
  ⟨rfl, by norm_num, fun i hi _ => absurd hi (by simp), fun h => absurd h (by simp)⟩

theorem grown_new (sizeofT : Nat) : Grown sizeofT (new sizeofT : Stack T) [] :=
  ⟨by simp [new], fun _ => ⟨rfl, rfl⟩, fun h => absurd h (by simp)⟩

/-- A run of pushes that stays below the point where the 16-bit heap capacity
wraps succeeds and stores every element. -/
theorem push_all_spec (sizeofT : Nat) (xs : List T) :
    ∀ (s : Stack T) (ys : List T), Stores sizeofT s ys → Grown sizeofT s ys →
      ys.length + xs.length ≤ STACK_SIZE sizeofT + 32769 →
      ∃ s2 : Stack T, push_all sizeofT s xs = .ok s2
        ∧ Stores sizeofT s2 (ys ++ xs) ∧ Grown sizeofT s2 (ys ++ xs) := by
  induction xs with
  | nil =>
    intro s ys hS hG _
    refine ⟨s, rfl, ?_, ?_⟩ <;> rw [List.append_nil] <;> assumption
  | cons x xs ih =>
    intro s ys hS hG hb
    rw [List.length_cons] at hb
    obtain ⟨s1, h1, hS1, hG1⟩ := push_step sizeofT s ys x hS hG (by omega)
    obtain ⟨s2, h2, hS2, hG2⟩ := ih s1 (ys ++ [x]) hS1 hG1
      (by rw [List.length_append, List.length_singleton]; omega)
    rw [List.append_assoc, List.singleton_append] at hS2 hG2
    refine ⟨s2, ?_, hS2, hG2⟩
    unfold push_all
    rw [List.foldlM_cons, h1]
    exact h2

/-- The `push` that follows `STACK_SIZE(T) + 32769` pushes: `_n_memb_heap` has
wrapped from 32768 to 0, the heap block is reallocated to `0 * 2` slots and the
write lands outside it. -/
theorem push_after_wrap (sizeofT : Nat) (s : Stack T) (xs : List T) (x : T)
    (hS : Stores sizeofT s xs) (hG : Grown sizeofT s xs)
    (hb : xs.length = STACK_SIZE sizeofT + 32769) :
    push sizeofT s x = .error .undefined := by
  obtain ⟨hidx, _, _, _⟩ := hS
  obtain ⟨_, _, hsome⟩ := hG
  obtain ⟨heap, j, hheap, hhl, hnm, hle, hhalf⟩ := hsome (by omega)
  have hj : j = 10 := by
    have hlo : ¬ j ≤ 9 := by
      intro hj9
      have : (2 : Nat) ^ j ≤ 2 ^ 9 := Nat.pow_le_pow_right (by norm_num) hj9
      omega
    have hhi : ¬ 11 ≤ j := by
      intro hj11
      have : (2 : Nat) ^ 11 ≤ 2 ^ j := Nat.pow_le_pow_right (by norm_num) hj11
      rcases hhalf with h0 | h0 <;> omega
    omega
  subst hj
  have hz : s._n_memb_heap = 0 := by rw [hnm]; norm_num
  rw [push_grow sizeofT s x heap (by omega) hheap (by rw [hz]; omega),
    writeSlot_oob _ _ x (by rw [reallocSlots_length, hz]; omega)]

theorem pop_spec (sizeofT : Nat) (s : Stack T) (xs : List T) (x : T)
    (hS : Stores sizeofT s (xs ++ [x])) :
    pop sizeofT s = .ok (x, { s with index := xs.length })
      ∧ Stores sizeofT ({ s with index := xs.length } : Stack T) xs := by
  obtain ⟨hidx, hlt, hin, hhp⟩ := hS
  have hlen1 : (xs ++ [x]).length = xs.length + 1 := by simp
  rw [hlen1] at hidx hlt hin hhp
  have hmod : (s.index + 2 ^ 16 - 1) % 2 ^ 16 = xs.length := by
    omega
  have e1 : (s.index : Int) - 1 = (xs.length : Int) := by omega
  constructor
  · unfold pop top
    by_cases h : xs.length < STACK_SIZE sizeofT
    · have hc : (s.index : Int) ≤ ((STACK_SIZE sizeofT : Nat) : Int) := by omega
      have hr := hin xs.length (by omega) h
      rw [getElem?_concat_eq] at hr
      simp only [hc, if_true, e1, readSlot_ok _ _ x hr, hmod, bind, Except.bind, pure,
        Except.pure]
    · have hc : ¬ (s.index : Int) ≤ ((STACK_SIZE sizeofT : Nat) : Int) := by omega
      obtain ⟨heap, hheap, hel⟩ := hhp (by omega)
      have hr := hel xs.length (by omega) (by omega)
      rw [getElem?_concat_eq] at hr
      have e2 : (s.index : Int) - ((STACK_SIZE sizeofT : Nat) : Int) - 1
          = ((xs.length - STACK_SIZE sizeofT : Nat) : Int) := by omega
      simp only [hc, if_false, hheap, e2, readSlot_ok _ _ x hr, hmod, bind, Except.bind, pure,
        Except.pure]
  · refine ⟨rfl, by omega, ?_, ?_⟩
    · intro i hi hi2
      rw [← getElem?_concat_lt xs x i hi]
      exact hin i (by omega) hi2
    · intro hc
      obtain ⟨heap, hheap, hel⟩ := hhp (by omega)
      refine ⟨heap, hheap, ?_⟩
      intro i h1 h2
      rw [← getElem?_concat_lt xs x i h2]
      exact hel i h1 (by omega)

theorem pop_n_spec (sizeofT : Nat) (xs : List T) :
    ∀ s : Stack T, Stores sizeofT s xs →
      pop_n sizeofT xs.length s = .ok (xs.reverse, { s with index := 0 }) := by
  induction xs using List.reverseRecOn with
  | nil =>
    intro s hS
    have h0 : s.index = 0 := hS.1
    show Except.ok ([], s) = Except.ok ([], { s with index := 0 })
    rw [← h0]
  | append_singleton xs x ih =>
    intro s hS
    obtain ⟨h1, h2⟩ := pop_spec sizeofT s xs x hS
    have h3 := ih _ h2
    rw [List.length_append, List.length_singleton, List.reverse_append, List.reverse_singleton,
      List.singleton_append]
    unfold pop_n
    simp only [h1, h3, bind, Except.bind, pure, Except.pure]

/-- The LIFO law where it holds: for at most `STACK_SIZE(T) + 32769` elements,
pushing `xs` onto an empty stack and popping `|xs|` times returns `xs` reversed
and leaves `size() = 0`. -/
theorem push_all_pop_n (sizeofT : Nat) (xs : List T)
    (h : xs.length ≤ STACK_SIZE sizeofT + 32769) :
    ∃ s s2 : Stack T, push_all sizeofT (new sizeofT) xs = .ok s
      ∧ size s = xs.length
      ∧ pop_n sizeofT xs.length s = .ok (xs.reverse, s2)
      ∧ size s2 = 0 := by
  obtain ⟨s, h1, hS, _⟩ := push_all_spec sizeofT xs (new sizeofT) [] (stores_new sizeofT)
    (grown_new sizeofT) (by simpa using h)
  rw [List.nil_append] at hS
  refine ⟨s, _, h1, ?_, pop_n_spec sizeofT xs s hS, rfl⟩
  unfold size
  rw [hS.1]

/-- Claim C4, where the code diverges. The LIFO law fails inside the range the 16-bit
size counter allows: for every sequence `xs` with
`STACK_SIZE(T) + 32769 < |xs| ≤ 65535`, pushing the elements of `xs` in order
onto an empty stack does not return; the push that follows the wrap of
`_n_memb_heap` from 32768 to 0 reallocates the heap block to zero slots and
writes outside it. -/
theorem lifo_fails_after_heap_counter_wraps (sizeofT : Nat) (xs : List T)
    (hlo : STACK_SIZE sizeofT + 32769 < xs.length) (_hhi : xs.length ≤ 65535) :
    push_all sizeofT (new sizeofT) xs = .error .undefined := by
  have hsplit : xs = xs.take (STACK_SIZE sizeofT + 32769)
      ++ xs[STACK_SIZE sizeofT + 32769] :: xs.drop (STACK_SIZE sizeofT + 32769 + 1) := by
    rw [← List.drop_eq_getElem_cons hlo, List.take_append_drop]
  have hl : (xs.take (STACK_SIZE sizeofT + 32769)).length = STACK_SIZE sizeofT + 32769 := by
    rw [List.length_take]; omega
  obtain ⟨s1, h1, hS1, hG1⟩ := push_all_spec sizeofT (xs.take (STACK_SIZE sizeofT + 32769))
    (new sizeofT) [] (stores_new sizeofT) (grown_new sizeofT) (by rw [hl]; simp)
  rw [List.nil_append] at hS1 hG1
  have h2 := push_after_wrap sizeofT s1 _ xs[STACK_SIZE sizeofT + 32769] hS1 hG1 hl
  unfold push_all at h1 ⊢
  rw [hsplit, List.foldlM_append, h1]
  show List.foldlM (push sizeofT) s1 _ = _
  rw [List.foldlM_cons, h2]
  rfl

/-- Witness of C4: 32776 pushes of an 8-byte element (`STACK_SIZE = 6`). -/
theorem lifo_fails_after_heap_counter_wraps_witness :
    (STACK_SIZE 8 + 32769 < (List.replicate 32776 (0 : Nat)).length
      ∧ (List.replicate 32776 (0 : Nat)).length ≤ 65535)
    ∧ push_all 8 (new 8) (List.replicate 32776 (0 : Nat)) = .error .undefined :=
  ⟨⟨by rw [List.length_replicate]; decide, by rw [List.length_replicate]; decide⟩,
    lifo_fails_after_heap_counter_wraps 8 (List.replicate 32776 (0 : Nat))
      (by rw [List.length_replicate]; decide) (by rw [List.length_replicate]; decide)⟩

end Stack
end CppDS

/-! ## Theorems: small_list.h, `reserve` and the metadata invariant -/

namespace CppDS
namespace SmallSizeList

open PointerWithStorage

variable {T : Type}

theorem pack_meta (e sz : Nat) (he : e ≤ 7) (hs : sz < 8192) :
    ((e <<< 13) ||| sz) % 2 ^ 16 = e * 8192 + sz := by
  have h : (2 : Nat) ^ 13 * e + sz = 2 ^ 13 * e ||| sz := Nat.mul_add_lt_is_or (by omega) e
  rw [Nat.shiftLeft_eq, Nat.mul_comm e, ← h]
  omega

theorem clz_pow (k : Nat) (hk : k ≤ 11) : __builtin_clz (2 ^ k) = 31 - k := by
  interval_cases k <;> decide

theorem pow_and_pred (k : Nat) (hk : k ≤ 11) : (2 ^ k &&& (2 ^ k - 1) : Nat) = 0 := by
  interval_cases k <;> decide

theorem reserve_noop (q : Nat) (L : SmallSizeList T) (n : Int)
    (h : n ≤ (capacity L : Nat)) : reserve q L n = .ok L := by
  unfold reserve
  rw [if_pos h]

/-- The growing path of `reserve(2 ^ k)`: all four asserts pass and the call
ends in the `realloc` on the list with the new metadata. -/
theorem reserve_eq (q : Nat) (L : SmallSizeList T) (k : Nat) (hk4 : 4 ≤ k) (hk : k ≤ 11)
    (hcap : capacity L < 2 ^ k) :
    reserve q L ((2 ^ k : Nat) : Int)
      = realloc ({ L with ptr := setStorage Types uint16_t L.ptr ((k - 4) * 8192 + size L) })
          (getPointer (setStorage Types uint16_t L.ptr ((k - 4) * 8192 + size L))) (2 ^ k) q := by
  have hpow : (2 : Nat) ^ k ≤ 2048 := by
    calc (2 : Nat) ^ k ≤ 2 ^ 11 := Nat.pow_le_pow_right (by norm_num) hk
      _ = 2048 := by norm_num
  have hsz := size_lt L
  have hexp : ((4 * 8 - 1 + 2 ^ 64 - __builtin_clz (2 ^ k) - 4) % 2 ^ 64) % 2 ^ 16 = k - 4 := by
    rw [clz_pow k hk]; omega
  have hst : (((k - 4) <<< 13) ||| size L) % 2 ^ 16 = (k - 4) * 8192 + size L :=
    pack_meta (k - 4) (size L) (by omega) hsz
  have hc2 : (16 : Nat) * 2 ^ (k - 4) = 2 ^ k := by
    have : k = (k - 4) + 4 := by omega
    conv_rhs => rw [this, pow_add]
    ring
  unfold reserve
  have h0 : ¬ (((2 ^ k : Nat) : Int) ≤ ((capacity L : Nat) : Int)) := by omega
  have h1 : (((2 ^ k : Nat) : Int) ≤ 2048) := by omega
  have h2 : (((2 ^ k : Nat) : Int) ≥ ((capacity L : Nat) : Int)) := by omega
  have hsize : (getStorage Types uint16_t L.ptr &&& ((1 <<< 13) - 1)) % 2 ^ 16 = size L := rfl
  have hcapv : (default_capacity <<< (k - 4)) % 2 ^ 16 = 2 ^ k := by
    unfold default_capacity
    rw [Nat.shiftLeft_eq, hc2]
    exact Nat.mod_eq_of_lt (by omega)
  rw [if_neg h0]
  simp only [assert, h1, h2, Int.toNat_ofNat, pow_and_pred k hk, hexp, hsize, hst, hcapv,
    decide_True, if_true, bind, Except.bind]
  have h7 : k - 4 ≤ 7 := by omega
  simp only [h7, decide_True, if_true]

/-- What `reserve(2 ^ k)` does when it has to grow: the exponent becomes
`k - 4`, the count is kept, the block is reallocated and moves to `q`, and the
pointer field is left as it was. -/
theorem reserve_grow (q : Nat) (L : SmallSizeList T) (k : Nat) (hk4 : 4 ≤ k) (hk : k ≤ 11)
    (hcap : capacity L < 2 ^ k) (hp : getPointer L.ptr = L.base) :
    ∃ L2 : SmallSizeList T,
      reserve q L ((2 ^ k : Nat) : Int) = .ok L2
      ∧ size L2 = size L
      ∧ get_capacity_exponent L2 = k - 4
      ∧ capacity L2 = 2 ^ k
      ∧ getPointer L2.ptr = L.base
      ∧ L2.base = q
      ∧ L2.cells = reallocSlots L.cells (2 ^ k) := by
  have hpow : (2 : Nat) ^ k ≤ 2048 := by
    calc (2 : Nat) ^ k ≤ 2 ^ 11 := Nat.pow_le_pow_right (by norm_num) hk
      _ = 2048 := by norm_num
  have hsz := size_lt L
  have hexp : ((4 * 8 - 1 + 2 ^ 64 - __builtin_clz (2 ^ k) - 4) % 2 ^ 64) % 2 ^ 16 = k - 4 := by
    rw [clz_pow k hk]; omega
  have hst : (((k - 4) <<< 13) ||| size L) % 2 ^ 16 = (k - 4) * 8192 + size L :=
    pack_meta (k - 4) (size L) (by omega) hsz
  have hg : getStorage Types uint16_t
      (setStorage Types uint16_t L.ptr ((k - 4) * 8192 + size L)) = (k - 4) * 8192 + size L :=
    getStorage_setStorage _ _ (by omega)
  have hpp : getPointer (setStorage Types uint16_t L.ptr ((k - 4) * 8192 + size L))
      = L.base := by rw [getPointer_setStorage, hp]
  have he2 : get_capacity_exponent
      ({ L with ptr := setStorage Types uint16_t L.ptr ((k - 4) * 8192 + size L),
                base := q, cells := reallocSlots L.cells (2 ^ k) } : SmallSizeList T) = k - 4 := by
    rw [exponent_eq]
    show getStorage Types uint16_t _ / 8192 = _
    rw [hg]; omega
  have hc2 : (16 : Nat) * 2 ^ (k - 4) = 2 ^ k := by
    have : k = (k - 4) + 4 := by omega
    conv_rhs => rw [this, pow_add]
    ring
  refine ⟨{ L with ptr := setStorage Types uint16_t L.ptr ((k - 4) * 8192 + size L),
                   base := q, cells := reallocSlots L.cells (2 ^ k) }, ?_, ?_, he2, ?_, hpp, rfl,
    rfl⟩
  · unfold reserve
    have h0 : ¬ (((2 ^ k : Nat) : Int) ≤ ((capacity L : Nat) : Int)) := by omega
    have h1 : (((2 ^ k : Nat) : Int) ≤ 2048) := by omega
    have h2 : (((2 ^ k : Nat) : Int) ≥ ((capacity L : Nat) : Int)) := by omega
    have hsize : (getStorage Types uint16_t L.ptr &&& ((1 <<< 13) - 1)) % 2 ^ 16 = size L := rfl
    have hcapv : (default_capacity <<< (k - 4)) % 2 ^ 16 = 2 ^ k := by
      unfold default_capacity
      rw [Nat.shiftLeft_eq, hc2]
      exact Nat.mod_eq_of_lt (by omega)
    rw [if_neg h0]
    simp only [assert, h1, h2, Int.toNat_ofNat, pow_and_pred k hk, hexp, hsize, hst, hcapv,
      decide_True, if_true, bind, Except.bind]
    have h7 : k - 4 ≤ 7 := by omega
    simp only [h7, decide_True, if_true]
    unfold realloc
    rw [if_pos hpp]
  · rw [size_eq ({ L with ptr := setStorage Types uint16_t L.ptr ((k - 4) * 8192 + size L),
                          base := q, cells := reallocSlots L.cells (2 ^ k) } : SmallSizeList T)]
    show getStorage Types uint16_t
      (setStorage Types uint16_t L.ptr ((k - 4) * 8192 + size L)) % 8192 = _
    rw [hg]; omega
  · rw [capacity_eq, he2, hc2]

/-- When `realloc` answers with the old address, `reserve(2 ^ k)` keeps the
elements and raises the capacity to `2 ^ k`. -/
theorem reserve_in_place (L : SmallSizeList T) (l : List T) (k : Nat) (hH : Holds L l)
    (hsz : l.length ≤ capacity L) (hk4 : 4 ≤ k) (hk : k ≤ 11) (hcap : capacity L < 2 ^ k) :
    ∃ L2 : SmallSizeList T,
      reserve L.base L ((2 ^ k : Nat) : Int) = .ok L2
      ∧ Holds L2 l ∧ capacity L2 = 2 ^ k ∧ size L2 = size L := by
  obtain ⟨hp, hs, hlen, hc⟩ := hH
  obtain ⟨L2, h1, h2, _, h4, h5, h6, h7⟩ := reserve_grow L.base L k hk4 hk hcap hp
  refine ⟨L2, h1, ⟨by rw [h5, h6], by rw [h2, hs], ?_, ?_⟩, h4, h2⟩
  · rw [h7, Stack.reallocSlots_length]; omega
  · rw [h7]
    unfold reallocSlots
    rw [List.take_append_of_le_length (by rw [List.length_take]; omega), List.take_take,
      Nat.min_eq_left (by omega), hc]

/-- Claim C11, where the code diverges. When `realloc` moves the block,
`reserve(n)` loses the elements: for every list with logical contents `l`,
every power of two `n = 2 ^ k` with `16 ≤ n ≤ 2048` above the old capacity, and
every answer `q` of `realloc` other than the old address, `reserve(n)` returns
with `capacity() = n` and `size()` unchanged, but the pointer field still holds
the old, released address and `operator[]` is undefined behaviour at every
index. -/
theorem reserve_loses_moved_block (q : Nat) (L : SmallSizeList T) (l : List T) (k : Nat)
    (hH : Holds L l) (hk4 : 4 ≤ k) (hk : k ≤ 11) (hcap : capacity L < 2 ^ k)
    (hq : q ≠ L.base) :
    ∃ L2 : SmallSizeList T,
      reserve q L ((2 ^ k : Nat) : Int) = .ok L2
      ∧ capacity L2 = 2 ^ k ∧ size L2 = size L
      ∧ getPointer L2.ptr = L.base ∧ L2.base = q
      ∧ ∀ i : Int, subscript L2 i = .error .undefined := by
  obtain ⟨L2, h1, h2, _, h4, h5, h6, _⟩ := reserve_grow q L k hk4 hk hcap hH.1
  refine ⟨L2, h1, h4, h2, h5, h6, ?_⟩
  intro i
  unfold subscript load
  rw [if_neg (by rw [h5, h6]; exact fun e => hq e.symm)]

/-- Witness of C11: `reserve(32)` on the list `7, 8, 7`, the block moving from
`0x1000` to `0x2000`. -/
theorem reserve_loses_moved_block_witness :
    (Holds sample [7, 8, 7] ∧ 4 ≤ 5 ∧ 5 ≤ 11 ∧ capacity sample < 2 ^ 5 ∧ 0x2000 ≠ sample.base)
    ∧ ∃ L2 : SmallSizeList Nat,
      reserve 0x2000 sample ((2 ^ 5 : Nat) : Int) = .ok L2
      ∧ capacity L2 = 2 ^ 5 ∧ size L2 = size sample
      ∧ getPointer L2.ptr = sample.base ∧ L2.base = 0x2000
      ∧ ∀ i : Int, subscript L2 i = .error .undefined :=
  ⟨⟨holds_sample, by decide, by decide, by decide, by decide⟩,
    reserve_loses_moved_block 0x2000 sample [7, 8, 7] 5 holds_sample (by decide) (by decide)
      (by decide) (by decide)⟩

theorem metaInv_iff (L : SmallSizeList T) : MetaInv L ↔ size L ≤ capacity L :=
  ⟨fun h => h.1, fun h => ⟨h, get_capacity_exponent L, exponent_le L, capacity_eq L⟩⟩

theorem meta_of_ptr_eq (L L1 : SmallSizeList T) (h : L1.ptr = L.ptr) :
    size L1 = size L ∧ get_capacity_exponent L1 = get_capacity_exponent L
      ∧ capacity L1 = capacity L := by
  have he : get_capacity_exponent L1 = get_capacity_exponent L := by
    rw [exponent_eq, exponent_eq, h]
  exact ⟨by rw [size_eq, size_eq, h], he, capacity_congr L L1 he⟩

theorem store_ptr (L L1 : SmallSizeList T) (p : Nat) (i : Int) (t : T)
    (h : store L p i t = .ok L1) : L1.ptr = L.ptr := by
  unfold store at h
  split at h
  · cases hw : writeSlot L.cells i t with
    | ok c => rw [hw] at h; cases h; rfl
    | error e => rw [hw] at h; cases h
  · cases h

theorem memmove_ptr (L L1 : SmallSizeList T) (p : Nat) (d s n : Int)
    (h : memmove L p d s n = .ok L1) : L1.ptr = L.ptr := by
  unfold memmove at h
  split at h
  · cases hw : memmoveSlots L.cells d s n with
    | ok c => rw [hw] at h; cases h; rfl
    | error e => rw [hw] at h; cases h
  · cases h

theorem metaInv_decrement (L L1 : SmallSizeList T) (hI : MetaInv L) (hp : L1.ptr = L.ptr)
    (hpos : 0 < size L) : MetaInv (decrement_size L1) := by
  obtain ⟨m1, m2, m3⟩ := meta_of_ptr_eq L L1 hp
  obtain ⟨d1, d2, _, _, _⟩ := decrement_size_spec L1 (by omega)
  rw [metaInv_iff] at hI ⊢
  rw [capacity_congr L1 _ d2, m3]
  omega

/-- The `remove` loop either leaves the list as it is or ends in one
`decrement_size` on a list with the same metadata, at a moment where `size()` is
positive. -/
theorem remove_loop_meta [DecidableEq T] [Zero T] (L : SmallSizeList T) (t : T) (s : Int)
    (p : Nat) :
    ∀ (fuel : Nat) (i : Int) (L2 : SmallSizeList T), fuel ≤ size L →
      remove.loop t s p L fuel i = .ok L2 →
      L2 = L ∨ (0 < size L ∧ ∃ L1 : SmallSizeList T, L1.ptr = L.ptr ∧ L2 = decrement_size L1) := by
  intro fuel
  induction fuel with
  | zero =>
    intro i L2 _ h
    left
    cases h
    rfl
  | succ fuel ih =>
    intro i L2 hf h
    unfold remove.loop at h
    cases hl : load L p i with
    | error e => rw [hl] at h; cases h
    | ok x =>
      rw [hl] at h
      simp only [bind, Except.bind] at h
      by_cases hx : t = x
      · right
        refine ⟨by omega, ?_⟩
        simp only [hx, if_true, pure, Except.pure] at h
        by_cases hi : i ≠ s - 1
        · simp only [hi, if_true, ne_eq, not_false_eq_true] at h
          cases hm : memmove L p i (i + 1) (s - i - 1) with
          | error e => rw [hm] at h; cases h
          | ok L1 =>
            rw [hm] at h
            cases h
            exact ⟨L1, memmove_ptr L L1 _ _ _ _ hm, rfl⟩
        · simp only [hi, if_false] at h
          cases hm : memset L p i with
          | error e => rw [hm] at h; cases h
          | ok L1 =>
            rw [hm] at h
            cases h
            exact ⟨L1, store_ptr L L1 _ _ _ hm, rfl⟩
      · simp only [hx, if_false] at h
        exact ih (i + 1) L2 (by omega) h

/-- Claim C18. The metadata invariant, `size() ≤ capacity()` and
`capacity() = 16 * 2 ^ k` for some `k` in `[0, 7]`, holds for a freshly
constructed list (`size() = 0`, `capacity() = 16`) and is preserved by every
public operation that completes when called within its precondition:
`push_back`, `reserve(n)` with `n = 2 ^ k` a power of two in `[16, 2048]`,
`remove`, and `removeAtIndex(i)` with `0 ≤ i < size()`. -/
theorem metadata_invariant [DecidableEq T] [Zero T] :
    (∀ sizeofT p : Nat, MetaInv (new sizeofT p : SmallSizeList T)
        ∧ size (new sizeofT p : SmallSizeList T) = 0
        ∧ capacity (new sizeofT p : SmallSizeList T) = 16)
    ∧ (∀ (q : Nat) (L L2 : SmallSizeList T) (v : T),
        MetaInv L → push_back q L v = .ok L2 → MetaInv L2)
    ∧ (∀ (q : Nat) (L L2 : SmallSizeList T) (k : Nat), 4 ≤ k → k ≤ 11 →
        MetaInv L → reserve q L ((2 ^ k : Nat) : Int) = .ok L2 → MetaInv L2)
    ∧ (∀ (L L2 : SmallSizeList T) (v : T), MetaInv L → remove L v = .ok L2 → MetaInv L2)
    ∧ (∀ (L L2 : SmallSizeList T) (i : Int), 0 ≤ i → i < (size L : Nat) →
        MetaInv L → removeAtIndex L i = .ok L2 → MetaInv L2) := by
  refine ⟨?_, ?_, ?_, ?_, ?_⟩
  · intro sizeofT p
    have hg : getStorage Types uint16_t (new sizeofT p : SmallSizeList T).ptr = 0 :=
      getStorage_new p
    have he : get_capacity_exponent (new sizeofT p : SmallSizeList T) = 0 := by
      rw [exponent_eq, hg]
    have hs : size (new sizeofT p : SmallSizeList T) = 0 := by rw [size_eq, hg]
    have hc : capacity (new sizeofT p : SmallSizeList T) = 16 := by rw [capacity_eq, he]; rfl
    exact ⟨(metaInv_iff _).2 (by rw [hs, hc]; omega), hs, hc⟩
  · intro q L L2 v hI h
    by_cases hlt : size L < capacity L
    · unfold push_back at h
      simp only [hlt, if_true, bind, Except.bind, pure, Except.pure] at h
      cases hst : store L (getPointer L.ptr) (size L : Nat) v with
      | error e => rw [hst] at h; cases h
      | ok L1 =>
        rw [hst] at h
        cases h
        obtain ⟨m1, m2, m3⟩ := meta_of_ptr_eq L L1 (store_ptr L L1 _ _ _ hst)
        have hcl := capacity_le L
        obtain ⟨i1, i2, _, _, _⟩ := increment_size_spec L1 (by omega)
        rw [metaInv_iff]
        rw [capacity_congr L1 _ i2, m3]
        omega
    · rw [push_back_full q L v hlt] at h
      cases h
  · intro q L L2 k hk4 hk hI h
    by_cases hcap : capacity L < 2 ^ k
    · by_cases hp : getPointer L.ptr = L.base
      · obtain ⟨L3, h1, h2, _, h4, _, _, _⟩ := reserve_grow q L k hk4 hk hcap hp
        rw [h1] at h
        cases h
        rw [metaInv_iff] at hI ⊢
        omega
      · rw [reserve_eq q L k hk4 hk hcap] at h
        unfold realloc at h
        rw [if_neg (by rw [getPointer_setStorage]; exact hp)] at h
        cases h
    · rw [reserve_noop q L _ (by omega)] at h
      cases h
      exact hI
  · intro L L2 v hI h
    unfold remove at h
    rcases remove_loop_meta L v _ _ (size L) 0 L2 (Nat.le_refl _) h with e | ⟨hpos, L1, hp, e⟩
    · rw [e]; exact hI
    · rw [e]; exact metaInv_decrement L L1 hI hp hpos
  · intro L L2 i hi0 hi hI h
    unfold removeAtIndex at h
    simp only [assert, hi, decide_True, if_true, bind, Except.bind, pure, Except.pure] at h
    have hpos : 0 < size L := by omega
    by_cases hl : i ≠ (size L : Nat) - 1
    · simp only [hl, if_true, ne_eq, not_false_eq_true] at h
      cases hm : memmove L (getPointer L.ptr) i (i + 1) ((size L : Nat) - i - 1) with
      | error e => rw [hm] at h; cases h
      | ok L1 =>
        rw [hm] at h
        cases h
        exact metaInv_decrement L L1 hI (memmove_ptr L L1 _ _ _ _ hm) hpos
    · simp only [hl, if_false] at h
      cases hm : memset L (getPointer L.ptr) i with
      | error e => rw [hm] at h; cases h
      | ok L1 =>
        rw [hm] at h
        cases h
        exact metaInv_decrement L L1 hI (store_ptr L L1 _ _ _ hm) hpos

/-- Witness of C18: the four operations on the list `7, 8, 7`. -/
theorem metadata_invariant_witness :
    MetaInv sample
    ∧ push_back 0x2000 sample 9
        = .ok { ptr := 0x0004000000001000, base := 0x1000,
                cells := [some 7, some 8, some 7, some 9] ++ List.replicate 12 none }
    ∧ MetaInv ({ ptr := 0x0004000000001000, base := 0x1000,
                 cells := [some 7, some 8, some 7, some 9] ++ List.replicate 12 none }
                : SmallSizeList Nat)
    ∧ reserve 0x1000 sample ((2 ^ 5 : Nat) : Int)
        = .ok { ptr := 0x2003000000001000, base := 0x1000,
                cells := [some 7, some 8, some 7] ++ List.replicate 29 none }
    ∧ MetaInv ({ ptr := 0x2003000000001000, base := 0x1000,
                 cells := [some 7, some 8, some 7] ++ List.replicate 29 none }
                : SmallSizeList Nat)
    ∧ remove sample 7
        = .ok { ptr := 0x0002000000001000, base := 0x1000,
                cells := [some 8, some 7, some 7] ++ List.replicate 13 none }
    ∧ MetaInv ({ ptr := 0x0002000000001000, base := 0x1000,
                 cells := [some 8, some 7, some 7] ++ List.replicate 13 none }
                : SmallSizeList Nat)
    ∧ removeAtIndex sample 2
        = .ok { ptr := 0x0002000000001000, base := 0x1000,
                cells := [some 7, some 8, some 0] ++ List.replicate 13 none }
    ∧ MetaInv ({ ptr := 0x0002000000001000, base := 0x1000,
                 cells := [some 7, some 8, some 0] ++ List.replicate 13 none }
                : SmallSizeList Nat) :=
  have hI : MetaInv sample := ⟨by decide, 0, by decide, by decide⟩
  ⟨hI, by decide,
    (metadata_invariant (T := Nat)).2.1 0x2000 sample _ 9 hI (by decide),
    by decide,
    (metadata_invariant (T := Nat)).2.2.1 0x1000 sample _ 5 (by decide) (by decide) hI
      (by decide),
    by decide,
    (metadata_invariant (T := Nat)).2.2.2.1 sample _ 7 hI (by decide),
    by decide,
    (metadata_invariant (T := Nat)).2.2.2.2 sample _ 2 (by decide) (by decide) hI (by decide)⟩

/-- The scan of `remove(x)` on a list whose only occurrence of `x` is its last
element: the last slot is zero-filled and the count decremented. -/
theorem remove_loop_last [DecidableEq T] [Zero T] (L : SmallSizeList T) (l : List T) (x : T)
    (hH : Holds L (l ++ [x])) (hx : x ∉ l) :
    ∀ (fuel i : Nat), i + fuel = l.length + 1 → i ≤ l.length →
      remove.loop x (((l ++ [x]).length : Nat) : Int) (getPointer L.ptr) L fuel (i : Int)
        = .ok (decrement_size { L with cells := L.cells.set l.length (some 0) }) := by
  have hlen : (l ++ [x]).length = l.length + 1 := by simp
  intro fuel
  induction fuel with
  | zero => intro i h1 h2; omega
  | succ fuel ih =>
    intro i h1 h2
    unfold remove.loop
    rw [load_of_holds L (l ++ [x]) hH i (by omega)]
    by_cases hi : i = l.length
    · subst hi
      have hlt : l.length < (l ++ [x]).length := by omega
      have e : (l ++ [x])[l.length] = x := by simp
      have hlast : ¬ ((l.length : Int) ≠ (((l ++ [x]).length : Nat) : Int) - 1) := by
        rw [hlen]; push_cast; omega
      have hst : memset L (getPointer L.ptr) (l.length : Int)
          = .ok { L with cells := L.cells.set l.length (some 0) } := by
        unfold memset
        exact store_ok L _ l.length 0 hH.1 (by have := hH.2.2.1; omega)
      simp only [e, if_true, hlast, if_false, hst, bind, Except.bind, pure, Except.pure]
    · have hil : i < l.length := by omega
      have hlt : i < (l ++ [x]).length := by omega
      have e : (l ++ [x])[i] = l[i] := List.getElem_append_left hil
      have hne : ¬ x = l[i] := fun h => hx (h ▸ List.getElem_mem hil)
      simp only [e, hne, if_false, bind, Except.bind]
      exact_mod_cast ih (i + 1) (by omega) (by omega)

/-- Claim C19. Defensive clearing.  For every list with `size() = s > 0`, with
logical contents `l ++ [x]`: when `remove(x)` finds its first match at the last
occupied index `s - 1` (`x` does not occur in `l`), and when
`removeAtIndex(s - 1)` is called, the call returns, the slot at index `s - 1` is
overwritten with the zero value (`operator[](s - 1)` afterwards reads it), the
slots `[0, s - 1)` are unchanged and `size()` becomes `s - 1`. -/
theorem defensive_clearing [DecidableEq T] [Zero T] (L : SmallSizeList T) (l : List T) (x : T)
    (hH : Holds L (l ++ [x])) :
    (x ∉ l → ∃ L2 : SmallSizeList T,
        remove L x = .ok L2
        ∧ L2.cells = L.cells.set (size L - 1) (some 0)
        ∧ subscript L2 ((size L - 1 : Nat) : Int) = .ok 0
        ∧ (∀ j : Nat, j < size L - 1 → L2.cells[j]? = L.cells[j]?)
        ∧ size L2 = size L - 1)
    ∧ ∃ L2 : SmallSizeList T,
        removeAtIndex L ((size L - 1 : Nat) : Int) = .ok L2
        ∧ L2.cells = L.cells.set (size L - 1) (some 0)
        ∧ subscript L2 ((size L - 1 : Nat) : Int) = .ok 0
        ∧ (∀ j : Nat, j < size L - 1 → L2.cells[j]? = L.cells[j]?)
        ∧ size L2 = size L - 1 := by
  have hlen : (l ++ [x]).length = l.length + 1 := by simp
  have hs : size L = l.length + 1 := by rw [hH.2.1, hlen]
  have hs1 : size L - 1 = l.length := by omega
  have hcl : l.length < L.cells.length := by have := hH.2.2.1; omega
  have hsz1 : size ({ L with cells := L.cells.set l.length (some 0) } : SmallSizeList T)
      = size L := rfl
  obtain ⟨d1, _, d3, d4, d5⟩ :=
    decrement_size_spec ({ L with cells := L.cells.set l.length (some 0) } : SmallSizeList T)
      (by rw [hsz1]; omega)
  have hsub : subscript (decrement_size ({ L with cells := L.cells.set l.length (some 0) }
      : SmallSizeList T)) ((l.length : Nat) : Int) = .ok 0 := by
    unfold subscript load readSlot
    have hn : ¬ ((l.length : Int) < 0) := by omega
    rw [d3, d4, if_pos hH.1, if_neg hn, d5, Int.toNat_ofNat]
    show (match (L.cells.set l.length (some 0))[l.length]? with
      | some (some x) => Except.ok x
      | _ => Except.error Fault.undefined) = _
    rw [List.getElem?_set_self hcl]
  have hfr : ∀ j : Nat, j < l.length →
      (decrement_size ({ L with cells := L.cells.set l.length (some 0) }
        : SmallSizeList T)).cells[j]? = L.cells[j]? := by
    intro j hj
    rw [d5]
    show (L.cells.set l.length (some 0))[j]? = _
    rw [List.getElem?_set_ne (by omega)]
  constructor
  · intro hx
    refine ⟨decrement_size { L with cells := L.cells.set l.length (some 0) }, ?_, ?_, ?_, ?_, ?_⟩
    · have := remove_loop_last L l x hH hx (l.length + 1) 0 (by omega) (by omega)
      have hsz : size L = (l ++ [x]).length := hH.2.1
      unfold remove
      simp only [hsz]
      rw [hlen] at this ⊢
      exact_mod_cast this
    · rw [hs1, d5]
    · rw [hs1]; exact hsub
    · rw [hs1]; exact hfr
    · rw [hsz1] at d1; omega
  · obtain ⟨L2, r1, r2, r3, _, _, _, r7⟩ := removeAtIndex_spec L (l ++ [x]) l.length hH (by omega)
    have hc2 : L2.cells = L.cells.set l.length (some 0) := r7 (by omega)
    refine ⟨L2, by rw [hs1]; exact r1, by rw [hs1]; exact hc2, ?_, ?_, by omega⟩
    · rw [hs1]
      unfold subscript load readSlot
      have hn : ¬ ((l.length : Int) < 0) := by omega
      rw [if_pos r2.1, if_neg hn, hc2, Int.toNat_ofNat, List.getElem?_set_self hcl]
    · rw [hs1]; intro j hj; rw [hc2, List.getElem?_set_ne (by omega)]

/-- Witness of C19: `remove(9)` and `removeAtIndex(2)` on the list `7, 8, 9`. -/
theorem defensive_clearing_witness :
    (Holds sampleDistinct ([7, 8] ++ [9]) ∧ 9 ∉ ([7, 8] : List Nat))
    ∧ (∃ L2 : SmallSizeList Nat,
        remove sampleDistinct 9 = .ok L2
        ∧ L2.cells = sampleDistinct.cells.set (size sampleDistinct - 1) (some 0)
        ∧ subscript L2 ((size sampleDistinct - 1 : Nat) : Int) = .ok 0
        ∧ (∀ j : Nat, j < size sampleDistinct - 1 → L2.cells[j]? = sampleDistinct.cells[j]?)
        ∧ size L2 = size sampleDistinct - 1)
    ∧ ∃ L2 : SmallSizeList Nat,
        removeAtIndex sampleDistinct ((size sampleDistinct - 1 : Nat) : Int) = .ok L2
        ∧ L2.cells = sampleDistinct.cells.set (size sampleDistinct - 1) (some 0)
        ∧ subscript L2 ((size sampleDistinct - 1 : Nat) : Int) = .ok 0
        ∧ (∀ j : Nat, j < size sampleDistinct - 1 → L2.cells[j]? = sampleDistinct.cells[j]?)
        ∧ size L2 = size sampleDistinct - 1 :=
  have hH : Holds sampleDistinct ([7, 8] ++ [9]) := ⟨by decide, by decide, by decide, by decide⟩
  ⟨⟨hH, by decide⟩, (defensive_clearing sampleDistinct [7, 8] 9 hH).1 (by decide),
    (defensive_clearing sampleDistinct [7, 8] 9 hH).2⟩

end SmallSizeList
end CppDS

/-! ## Theorems: stack.h, `top`, `size` and the growth policy -/

namespace CppDS
namespace Stack

variable {T : Type}

theorem top_spec (sizeofT : Nat) (s : Stack T) (xs : List T) (x : T)
    (hS : Stores sizeofT s (xs ++ [x])) : top sizeofT s = .ok x := by
  obtain ⟨hidx, hlt, hin, hhp⟩ := hS
  have hlen1 : (xs ++ [x]).length = xs.length + 1 := by simp
  rw [hlen1] at hidx hlt hin hhp
  have e1 : (s.index : Int) - 1 = (xs.length : Int) := by omega
  unfold top
  by_cases h : xs.length < STACK_SIZE sizeofT
  · have hc : (s.index : Int) ≤ ((STACK_SIZE sizeofT : Nat) : Int) := by omega
    have hr := hin xs.length (by omega) h
    rw [getElem?_concat_eq] at hr
    simp only [hc, if_true, e1, readSlot_ok _ _ x hr]
  · have hc : ¬ (s.index : Int) ≤ ((STACK_SIZE sizeofT : Nat) : Int) := by omega
    obtain ⟨heap, hheap, hel⟩ := hhp (by omega)
    have hr := hel xs.length (by omega) (by omega)
    rw [getElem?_concat_eq] at hr
    have e2 : (s.index : Int) - ((STACK_SIZE sizeofT : Nat) : Int) - 1
        = ((xs.length - STACK_SIZE sizeofT : Nat) : Int) := by omega
    simp only [hc, if_false, hheap, e2, readSlot_ok _ _ x hr]

/-- Claim C12. The relation of `top` and `pop`.  For every stack state with
`size() > 0`, holding the elements `xs ++ [x]` with `x` the most recently pushed
element that has not been popped: `top()` returns `x` (it is a function of the
state and changes no field), and `pop()` returns the same value and changes the
state only by decreasing `size()` by one; the inline array, the heap block and
the heap capacity are unchanged. -/
theorem top_pop_relation (sizeofT : Nat) (s : Stack T) (xs : List T) (x : T)
    (hS : Stores sizeofT s (xs ++ [x])) :
    top sizeofT s = .ok x
      ∧ ∃ s2 : Stack T, pop sizeofT s = .ok (x, s2)
          ∧ size s2 = size s - 1
          ∧ s2.stack_allocated_array = s.stack_allocated_array
          ∧ s2.heap_allocated_array = s.heap_allocated_array
          ∧ s2._n_memb_heap = s._n_memb_heap
          ∧ Stores sizeofT s2 xs := by
  obtain ⟨h1, h2⟩ := pop_spec sizeofT s xs x hS
  refine ⟨top_spec sizeofT s xs x hS, _, h1, ?_, rfl, rfl, rfl, h2⟩
  have hidx : s.index = (xs ++ [x]).length := hS.1
  unfold size
  rw [hidx, List.length_append, List.length_singleton]
  push_cast
  omega

/-- Witness of C12: three pushes of 8-byte elements, then `top` and `pop`. -/
theorem top_pop_relation_witness :
    Stores 8 sampleStack ([4, 5] ++ [6])
    ∧ push_all 8 (new 8 : Stack Nat) [4, 5, 6] = .ok sampleStack
    ∧ top 8 sampleStack = .ok 6
    ∧ ∃ s2 : Stack Nat, pop 8 sampleStack = .ok (6, s2)
        ∧ size s2 = size sampleStack - 1
        ∧ s2.stack_allocated_array = sampleStack.stack_allocated_array
        ∧ s2.heap_allocated_array = sampleStack.heap_allocated_array
        ∧ s2._n_memb_heap = sampleStack._n_memb_heap
        ∧ Stores 8 s2 [4, 5] :=
  have hS : Stores 8 sampleStack ([4, 5] ++ [6]) :=
    ⟨by decide, by decide,
      fun i hi _ => by
        have hi3 : i < 3 := hi
        interval_cases i <;> rfl,
      fun h => absurd h (by decide)⟩
  ⟨hS, by decide, top_pop_relation 8 sampleStack [4, 5] 6 hS⟩

/-- Every run of more than `STACK_SIZE(T) + 32769` pushes onto an empty stack
ends in undefined behaviour. -/
theorem push_all_overflow (sizeofT : Nat) (xs : List T)
    (h : STACK_SIZE sizeofT + 32769 < xs.length) :
    push_all sizeofT (new sizeofT) xs = .error .undefined := by
  have hsplit : xs = xs.take (STACK_SIZE sizeofT + 32769)
      ++ xs[STACK_SIZE sizeofT + 32769] :: xs.drop (STACK_SIZE sizeofT + 32769 + 1) := by
    rw [← List.drop_eq_getElem_cons h, List.take_append_drop]
  have hl : (xs.take (STACK_SIZE sizeofT + 32769)).length = STACK_SIZE sizeofT + 32769 := by
    rw [List.length_take]; omega
  obtain ⟨s1, h1, hS1, hG1⟩ := push_all_spec sizeofT (xs.take (STACK_SIZE sizeofT + 32769))
    (new sizeofT) [] (stores_new sizeofT) (grown_new sizeofT) (by rw [hl]; simp)
  rw [List.nil_append] at hS1 hG1
  have h2 := push_after_wrap sizeofT s1 _ xs[STACK_SIZE sizeofT + 32769] hS1 hG1 hl
  unfold push_all at h1 ⊢
  rw [hsplit, List.foldlM_append, h1]
  show List.foldlM (push sizeofT) s1 _ = _
  rw [List.foldlM_cons, h2]
  rfl

/-- A run of `m` pops on a stack that holds at least `m` elements returns and
leaves the elements below. -/
theorem pop_n_prefix (sizeofT : Nat) (m : Nat) :
    ∀ (xs : List T) (s : Stack T), Stores sizeofT s xs → m ≤ xs.length →
      ∃ (r : List T) (s2 : Stack T), pop_n sizeofT m s = .ok (r, s2)
        ∧ r = (xs.drop (xs.length - m)).reverse
        ∧ Stores sizeofT s2 (xs.take (xs.length - m)) := by
  induction m with
  | zero =>
    intro xs s hS _
    refine ⟨[], s, rfl, by simp, ?_⟩
    rw [Nat.sub_zero, List.take_length]
    exact hS
  | succ m ih =>
    intro xs s hS hm
    rcases List.eq_nil_or_concat xs with hnil | ⟨ys, x, hxs⟩
    · rw [hnil] at hm; simp at hm
    · subst hxs
      rw [List.concat_eq_append] at hS hm ⊢
      have hlen : (ys ++ [x]).length = ys.length + 1 := by simp
      rw [hlen] at hm ⊢
      obtain ⟨h1, h2⟩ := pop_spec sizeofT s ys x hS
      obtain ⟨r, s2, k1, k2, k3⟩ := ih ys _ h2 (by omega)
      have e : ys.length + 1 - (m + 1) = ys.length - m := by omega
      refine ⟨x :: r, s2, ?_, ?_, ?_⟩
      · unfold pop_n
        simp only [h1, k1, bind, Except.bind, pure, Except.pure]
      · rw [e, List.drop_append_of_le_length (by omega), List.reverse_append,
          List.reverse_singleton, List.singleton_append, k2]
      · rw [e, List.take_append_of_le_length (by omega)]
        exact k3

/-- Claim C13, where the code diverges. `size()` counts the live elements only
while the 16-bit heap capacity has not wrapped: for `n = |xs| ≤ 65535` pushes on
an empty stack followed by `m ≤ n` pops, `size()` returns `n - m` when
`n ≤ STACK_SIZE(T) + 32769`; for every longer run of pushes the run ends in
undefined behaviour and no `size()` is returned. -/
theorem size_counts_until_heap_counter_wraps (sizeofT : Nat) (xs : List T) (m : Nat)
    (hm : m ≤ xs.length) (_hn : xs.length ≤ 65535) :
    (xs.length ≤ STACK_SIZE sizeofT + 32769 →
      ∃ (s s2 : Stack T) (r : List T), push_all sizeofT (new sizeofT) xs = .ok s
        ∧ size s = xs.length
        ∧ pop_n sizeofT m s = .ok (r, s2)
        ∧ size s2 = xs.length - m)
    ∧ (STACK_SIZE sizeofT + 32769 < xs.length →
      push_all sizeofT (new sizeofT) xs = .error .undefined) := by
  constructor
  · intro hle
    obtain ⟨s, h1, hS, _⟩ := push_all_spec sizeofT xs (new sizeofT) [] (stores_new sizeofT)
      (grown_new sizeofT) (by simpa using hle)
    rw [List.nil_append] at hS
    obtain ⟨r, s2, k1, _, k3⟩ := pop_n_prefix sizeofT m xs s hS hm
    refine ⟨s, s2, r, h1, ?_, k1, ?_⟩
    · unfold size; rw [hS.1]
    · unfold size
      rw [k3.1, List.length_take]
      omega
  · exact push_all_overflow sizeofT xs

/-- Witness of C13: ten pushes and ten pops of an 8-byte element, and a run of
32776 pushes. -/
theorem size_counts_until_heap_counter_wraps_witness :
    (10 ≤ (List.replicate 10 (0 : Nat)).length ∧ (List.replicate 10 (0 : Nat)).length ≤ 65535
      ∧ (List.replicate 10 (0 : Nat)).length ≤ STACK_SIZE 8 + 32769
      ∧ 10 ≤ (List.replicate 32776 (0 : Nat)).length
      ∧ (List.replicate 32776 (0 : Nat)).length ≤ 65535
      ∧ STACK_SIZE 8 + 32769 < (List.replicate 32776 (0 : Nat)).length)
    ∧ (∃ (s s2 : Stack Nat) (r : List Nat),
        push_all 8 (new 8) (List.replicate 10 (0 : Nat)) = .ok s
        ∧ size s = (List.replicate 10 (0 : Nat)).length
        ∧ pop_n 8 10 s = .ok (r, s2)
        ∧ size s2 = (List.replicate 10 (0 : Nat)).length - 10)
    ∧ push_all 8 (new 8) (List.replicate 32776 (0 : Nat)) = .error .undefined :=
  ⟨⟨by decide, by decide, by decide, by rw [List.length_replicate]; decide,
      by rw [List.length_replicate]; decide, by rw [List.length_replicate]; decide⟩,
    (size_counts_until_heap_counter_wraps 8 (List.replicate 10 (0 : Nat)) 10 (by decide)
      (by decide)).1 (by decide),
    (size_counts_until_heap_counter_wraps 8 (List.replicate 32776 (0 : Nat)) 10
      (by rw [List.length_replicate]; decide) (by rw [List.length_replicate]; decide)).2
      (by rw [List.length_replicate]; decide)⟩

/-- The heap capacity recorded after a run of pushes that exactly fills a heap
block of `64 * 2 ^ j` slots. -/
theorem grown_full (sizeofT : Nat) (s : Stack T) (xs : List T) (j : Nat)
    (hG : Grown sizeofT s xs) (h : xs.length = STACK_SIZE sizeofT + 64 * 2 ^ j) :
    s._n_memb_heap = (64 * 2 ^ j) % 2 ^ 16 := by
  have hpos : 0 < 2 ^ j := Nat.pos_pow_of_pos j (by norm_num)
  obtain ⟨_, _, hsome⟩ := hG
  obtain ⟨heap, j2, _, _, hnm, hle, hhalf⟩ := hsome (by omega)
  have e : j2 = j := by
    have h1 : j ≤ j2 := by
      by_contra hc
      have : (2 : Nat) ^ (j2 + 1) ≤ 2 ^ j := Nat.pow_le_pow_right (by norm_num) (by omega)
      rw [pow_succ] at this
      omega
    have h2 : j2 ≤ j := by
      rcases hhalf with h0 | h0
      · omega
      · by_contra hc
        have : (2 : Nat) ^ (j + 1) ≤ 2 ^ j2 := Nat.pow_le_pow_right (by norm_num) (by omega)
        rw [pow_succ] at this
        omega
    omega
  rw [hnm, e]

/-- The heap capacity recorded after one more push than fills a heap block of
`64 * 2 ^ j` slots. -/
theorem grown_next (sizeofT : Nat) (s : Stack T) (xs : List T) (j : Nat)
    (hG : Grown sizeofT s xs) (h : xs.length = STACK_SIZE sizeofT + 64 * 2 ^ j + 1) :
    s._n_memb_heap = (64 * 2 ^ (j + 1)) % 2 ^ 16 := by
  have hpos : 0 < 2 ^ j := Nat.pos_pow_of_pos j (by norm_num)
  obtain ⟨_, _, hsome⟩ := hG
  obtain ⟨heap, j2, _, _, hnm, hle, hhalf⟩ := hsome (by omega)
  have e : j2 = j + 1 := by
    have h1 : j + 1 ≤ j2 := by
      by_contra hc
      have : (2 : Nat) ^ j2 ≤ 2 ^ j := Nat.pow_le_pow_right (by norm_num) (by omega)
      omega
    have h2 : j2 ≤ j + 1 := by
      rcases hhalf with h0 | h0
      · omega
      · by_contra hc
        have : (2 : Nat) ^ (j + 2) ≤ 2 ^ j2 := Nat.pow_le_pow_right (by norm_num) (by omega)
        rw [pow_succ, pow_succ] at this
        omega
    omega
  rw [hnm, e]

/-- Claim C16, where the code diverges. The heap capacity of a stack filled by
pushes doubles only while it fits 16 bits.  After `STACK_SIZE(T) + 64 * 2 ^ j`
pushes (`j ≤ 9`) the heap region is full with `_n_memb_heap = 64 * 2 ^ j`; the
next push returns and keeps the inline capacity; for `j ≤ 8` it sets
`_n_memb_heap` to exactly twice its previous value, but for `j = 9` it sets it
from 32768 to 0. -/
theorem heap_capacity_doubles_until_it_wraps (sizeofT : Nat) (j : Nat) (hj : j ≤ 9)
    (xs : List T) (x : T) (h : xs.length = STACK_SIZE sizeofT + 64 * 2 ^ j) :
    ∃ s s2 : Stack T, push_all sizeofT (new sizeofT) xs = .ok s
      ∧ s._n_memb_heap = 64 * 2 ^ j
      ∧ size s - (STACK_SIZE sizeofT : Nat) = (s._n_memb_heap : Nat)
      ∧ push sizeofT s x = .ok s2
      ∧ s2.stack_allocated_array.length = STACK_SIZE sizeofT
      ∧ (j ≤ 8 → s2._n_memb_heap = 2 * s._n_memb_heap)
      ∧ (j = 9 → s._n_memb_heap = 32768 ∧ s2._n_memb_heap = 0) := by
  have hp9 : (2 : Nat) ^ j ≤ 2 ^ 9 := Nat.pow_le_pow_right (by norm_num) hj
  have hp9v : (2 : Nat) ^ 9 = 512 := by norm_num
  obtain ⟨s, h1, hS, hG⟩ := push_all_spec sizeofT xs (new sizeofT) [] (stores_new sizeofT)
    (grown_new sizeofT) (by simp only [List.length_nil]; omega)
  rw [List.nil_append] at hS hG
  obtain ⟨s2, k1, hS2, hG2⟩ := push_step sizeofT s xs x hS hG (by omega)
  have hn1 : s._n_memb_heap = 64 * 2 ^ j := by
    rw [grown_full sizeofT s xs j hG h]
    exact Nat.mod_eq_of_lt (by omega)
  have hn2 : s2._n_memb_heap = (64 * 2 ^ (j + 1)) % 2 ^ 16 :=
    grown_next sizeofT s2 (xs ++ [x]) j hG2 (by simp [h])
  refine ⟨s, s2, h1, hn1, ?_, k1, hG2.1, ?_, ?_⟩
  · unfold size
    rw [hS.1, hn1, h]
    push_cast
    omega
  · intro hj8
    have hp8 : (2 : Nat) ^ j ≤ 2 ^ 8 := Nat.pow_le_pow_right (by norm_num) hj8
    rw [hn2, hn1, pow_succ]
    omega
  · intro hj9
    subst hj9
    rw [hn2, hn1]
    constructor <;> norm_num

/-- Witness of C16: the push that follows `6 + 32768` pushes of an 8-byte
element. -/
theorem heap_capacity_doubles_until_it_wraps_witness :
    (9 ≤ 9 ∧ (List.replicate 32774 (0 : Nat)).length = STACK_SIZE 8 + 64 * 2 ^ 9)
    ∧ ∃ s s2 : Stack Nat, push_all 8 (new 8) (List.replicate 32774 (0 : Nat)) = .ok s
      ∧ s._n_memb_heap = 64 * 2 ^ 9
      ∧ size s - (STACK_SIZE 8 : Nat) = (s._n_memb_heap : Nat)
      ∧ push 8 s 0 = .ok s2
      ∧ s2.stack_allocated_array.length = STACK_SIZE 8
      ∧ (9 ≤ 8 → s2._n_memb_heap = 2 * s._n_memb_heap)
      ∧ (9 = 9 → s._n_memb_heap = 32768 ∧ s2._n_memb_heap = 0) :=
  ⟨⟨by decide, by rw [List.length_replicate]; decide⟩,
    heap_capacity_doubles_until_it_wraps 8 9 (by decide) (List.replicate 32774 (0 : Nat)) 0
      (by rw [List.length_replicate]; decide)⟩

/-- Claim C17. The arithmetic of the inline capacity.  `STACK_SIZE` for an
element of `s` bytes is `(64 - 2 * 2 - 8) / s` rounded down; it is 6 for
`s = 8`; and for every `s` with `1 ≤ s ≤ 52` it is at least 1 and
`STACK_SIZE * s + 2 * sizeof(uint16_t) + sizeof(pointer) ≤ 64`: the bytes of the
inline array plus the bytes of the bookkeeping members do not exceed one
64-byte cache line. -/
theorem stack_size_arithmetic (s : Nat) (h1 : 1 ≤ s) (h52 : s ≤ 52) :
    STACK_SIZE s = (64 - 2 * 2 - 8) / s
      ∧ STACK_SIZE 8 = 6
      ∧ 1 ≤ STACK_SIZE s
      ∧ STACK_SIZE s * s + 2 * 2 + 8 ≤ CACHELINE_SIZE := by
  have hdef : STACK_SIZE s = 52 / s := rfl
  refine ⟨rfl, by decide, ?_, ?_⟩
  · rw [hdef, Nat.le_div_iff_mul_le (by omega)]
    omega
  · have := Nat.div_mul_le_self 52 s
    rw [hdef]
    unfold CACHELINE_SIZE
    omega

/-- Witness of C17: an element of 8 bytes. -/
theorem stack_size_arithmetic_witness :
    (1 ≤ 8 ∧ 8 ≤ 52)
    ∧ STACK_SIZE 8 = (64 - 2 * 2 - 8) / 8
      ∧ STACK_SIZE 8 = 6
      ∧ 1 ≤ STACK_SIZE 8
      ∧ STACK_SIZE 8 * 8 + 2 * 2 + 8 ≤ CACHELINE_SIZE :=
  ⟨⟨by decide, by decide⟩, stack_size_arithmetic 8 (by decide) (by decide)⟩

end Stack
end CppDS

/-! ## Theorems: stack_ptrt.h -/

namespace CppDS

theorem length_storeBytes (mem : List (Option Byte)) (off count v : Nat) :
    (storeBytes mem off count v).length = mem.length := by
  induction count generalizing mem off v with
  | zero => rfl
  | succ c ih =>
    unfold storeBytes
    rw [ih, List.length_set]

theorem loadBytes_lt (mem : List (Option Byte)) (count : Nat) :
    ∀ (off v : Nat), loadBytes mem off count = some v → v < 256 ^ count := by
  induction count with
  | zero =>
    intro off v h
    unfold loadBytes at h
    cases h
    norm_num
  | succ c ih =>
    intro off v h
    unfold loadBytes at h
    cases hb : mem[off]? with
    | none => rw [hb] at h; cases h
    | some ob =>
      cases ob with
      | none => rw [hb] at h; cases h
      | some b =>
        rw [hb] at h
        cases hr : loadBytes mem (off + 1) c with
        | none => rw [hr] at h; cases h
        | some r =>
          rw [hr] at h
          simp only [Option.map_some'] at h
          cases h
          have := ih (off + 1) r hr
          have hb := b.isLt
          rw [pow_succ]
          omega

theorem loadBytes_split (mem : List (Option Byte)) (a b : Nat) :
    ∀ (off v : Nat), loadBytes mem off (a + b) = some v →
      ∃ x y : Nat, loadBytes mem off a = some x ∧ loadBytes mem (off + a) b = some y
        ∧ v = x + 256 ^ a * y := by
  induction a with
  | zero =>
    intro off v h
    rw [Nat.zero_add] at h
    exact ⟨0, v, rfl, h, by simp⟩
  | succ a ih =>
    intro off v h
    have e : a + 1 + b = (a + b) + 1 := by omega
    rw [e] at h
    unfold loadBytes at h
    cases hb : mem[off]? with
    | none => rw [hb] at h; cases h
    | some ob =>
      cases ob with
      | none => rw [hb] at h; cases h
      | some byte =>
        rw [hb] at h
        cases hr : loadBytes mem (off + 1) (a + b) with
        | none => rw [hr] at h; cases h
        | some r =>
          rw [hr] at h
          simp only [Option.map_some'] at h
          cases h
          obtain ⟨x, y, hx, hy, hv⟩ := ih (off + 1) r hr
          refine ⟨byte.val + 256 * x, y, ?_, ?_, ?_⟩
          · unfold loadBytes
            rw [hb, hx]
            rfl
          · have e2 : off + (a + 1) = off + 1 + a := by omega
            rw [e2]; exact hy
          · rw [hv, pow_succ]; ring

/-- The two ways of `top` to rebuild a pointer from the bytes of a slot: when
the 8-byte load is defined, so are the 4-byte and the 2-byte load, and both
ways give the same 48-bit value. -/
theorem loadBytes_wide_split (mem : List (Option Byte)) (off raw : Nat)
    (h : loadBytes mem off 8 = some raw) :
    ∃ lower upper : Nat, loadBytes mem off 4 = some lower
      ∧ loadBytes mem (off + 4) 2 = some upper
      ∧ 0x0000ffffffffffff &&& raw = 0x0000ffffffffffff &&& (((upper <<< 32) % 2 ^ 64) ||| lower)
      ∧ 0x0000ffffffffffff &&& raw = lower + 2 ^ 32 * upper := by
  obtain ⟨lo6, hi2, h6, _, hraw⟩ := loadBytes_split mem 6 2 off raw h
  obtain ⟨lower, upper, h4, h2, hlo⟩ := loadBytes_split mem 4 2 off lo6 h6
  have hl : lower < 256 ^ 4 := loadBytes_lt mem 4 off lower h4
  have hu : upper < 256 ^ 2 := loadBytes_lt mem 2 (off + 4) upper h2
  have e4 : (256 : Nat) ^ 4 = 2 ^ 32 := by norm_num
  have e6 : (256 : Nat) ^ 6 = 2 ^ 48 := by norm_num
  have e2 : (256 : Nat) ^ 2 = 65536 := by norm_num
  have e32 : (2 : Nat) ^ 32 = 4294967296 := by norm_num
  have e48 : (2 : Nat) ^ 48 = 281474976710656 := by norm_num
  have hmask : ∀ x : Nat, 0x0000ffffffffffff &&& x = x % 2 ^ 48 := by
    intro x
    have e : (0x0000ffffffffffff : Nat) = 2 ^ 48 - 1 := by decide
    rw [e, Nat.and_comm, Nat.and_pow_two_sub_one_eq_mod]
  have hor : ((upper <<< 32) % 2 ^ 64) ||| lower = lower + 2 ^ 32 * upper := by
    have hsh : (upper <<< 32) % 2 ^ 64 = 2 ^ 32 * upper := by
      rw [Nat.shiftLeft_eq, Nat.mul_comm]
      apply Nat.mod_eq_of_lt
      rw [e32]; norm_num; omega
    rw [hsh, ← Nat.mul_add_lt_is_or (by rw [← e4]; exact hl) upper]
    omega
  have hval : raw % 2 ^ 48 = lower + 2 ^ 32 * upper := by
    rw [hraw, hlo, e6, e4, e32, e48]
    rw [e4, e32] at hl
    rw [e2] at hu
    omega
  refine ⟨lower, upper, h4, h2, ?_, ?_⟩
  · rw [hmask, hmask, hor, hval]
    symm
    apply Nat.mod_eq_of_lt
    rw [e32, e48]
    rw [e4, e32] at hl
    rw [e2] at hu
    omega
  · rw [hmask, hval]

theorem loadBytes_some (mem : List (Option Byte)) (count : Nat) :
    ∀ off : Nat, (∀ j : Nat, j < count → ∃ b : Byte, mem[off + j]? = some (some b)) →
      ∃ v : Nat, loadBytes mem off count = some v := by
  induction count with
  | zero => intro off _; exact ⟨0, rfl⟩
  | succ c ih =>
    intro off h
    obtain ⟨b, hb⟩ := h 0 (by omega)
    rw [Nat.add_zero] at hb
    obtain ⟨r, hr⟩ := ih (off + 1) (fun j hj => by
      obtain ⟨b2, hb2⟩ := h (j + 1) (by omega)
      exact ⟨b2, by rw [← hb2]; congr 1; omega⟩)
    refine ⟨b.val + 256 * r, ?_⟩
    unfold loadBytes
    rw [hb, hr]
    rfl

theorem load_of_loadBytes (width : Nat) (mem : List (Option Byte)) (off v : Nat)
    (h : loadBytes mem off width = some v) : load width mem (off : Int) = .ok v := by
  unfold load
  have hn : ¬ ((off : Int) < 0) := by omega
  rw [if_neg hn, Int.toNat_ofNat, h]

theorem load_wide_split (mem : List (Option Byte)) (off : Int) (raw : Nat)
    (h : load 8 mem off = .ok raw) :
    ∃ lower upper : Nat, load 4 mem off = .ok lower ∧ load 2 mem (off + 4) = .ok upper
      ∧ 0x0000ffffffffffff &&& raw
          = 0x0000ffffffffffff &&& (((upper <<< 32) % 2 ^ 64) ||| lower) := by
  unfold load at h
  by_cases hn : off < 0
  · rw [if_pos hn] at h; cases h
  · rw [if_neg hn] at h
    cases hl : loadBytes mem off.toNat 8 with
    | none => rw [hl] at h; cases h
    | some r =>
      rw [hl] at h
      cases h
      obtain ⟨lower, upper, h4, h2, hm, _⟩ := loadBytes_wide_split mem off.toNat raw hl
      have e : off = ((off.toNat : Nat) : Int) := by omega
      refine ⟨lower, upper, ?_, ?_, hm⟩
      · rw [e]; exact load_of_loadBytes 4 mem _ _ h4
      · have e2 : off + 4 = ((off.toNat + 4 : Nat) : Int) := by omega
        rw [e2]; exact load_of_loadBytes 2 mem _ _ h2

namespace Experimental48BPStack

/-- Claim C15. The two read strategies of `top` are equivalent.  For every byte
buffer and every element slot (6-byte stride) whose 8 bytes lie inside the
buffer and were written, the value of one 8-byte little-endian load at the
slot's offset masked with `0x0000ffffffffffff` equals the value obtained under
`EXPSTACK_PREVENT_PAGE_RELOAD` from a 4-byte load at the offset and a 2-byte
load at offset + 4 combined as `(upper << 32) | lower` and then masked; so
whenever `top()` returns a pointer in the default configuration it returns the
same pointer in the other one. -/
theorem read_strategies_agree :
    (∀ (mem : List (Option Byte)) (slot : Nat),
      (∀ j : Nat, j < 8 → ∃ b : Byte, mem[6 * slot + j]? = some (some b)) →
      ∃ raw lower upper : Nat,
        load 8 mem ((6 * slot : Nat) : Int) = .ok raw
        ∧ load 4 mem ((6 * slot : Nat) : Int) = .ok lower
        ∧ load 2 mem (((6 * slot : Nat) : Int) + 4) = .ok upper
        ∧ 0x0000ffffffffffff &&& raw
            = 0x0000ffffffffffff &&& (((upper <<< 32) % 2 ^ 64) ||| lower))
    ∧ (∀ (s : Experimental48BPStack) (v : Nat), top false s = .ok v → top true s = .ok v) := by
  constructor
  · intro mem slot h
    obtain ⟨raw, hraw⟩ := loadBytes_some mem 8 (6 * slot) h
    have h8 := load_of_loadBytes 8 mem _ _ hraw
    obtain ⟨lower, upper, h4, h2, hm⟩ := load_wide_split mem _ raw h8
    exact ⟨raw, lower, upper, h8, h4, h2, hm⟩
  · intro s v h
    unfold top at h ⊢
    simp only [Bool.false_eq_true, if_false, if_true, bind, Except.bind, pure, Except.pure] at h ⊢
    by_cases hc : s.index ≤ ((EXP48BP_STACK_SIZE sizeofT : Nat) : Int)
    · simp only [hc, if_true] at h ⊢
      cases hl : load 8 s.stack_allocated_array
          (((EXP48BP_PTR_SIZE sizeofT : Nat) : Int) * (s.index - 1)) with
      | error e => rw [hl] at h; cases h
      | ok raw =>
        rw [hl] at h
        obtain ⟨lower, upper, h4, h2, hm⟩ := load_wide_split _ _ raw hl
        simp only [h4, h2]
        cases h
        rw [hm]
    · simp only [hc, if_false] at h ⊢
      cases hh : s.heap_allocated_array with
      | none => rw [hh] at h; cases h
      | some heap =>
        rw [hh] at h
        simp only at h ⊢
        cases hl : load 8 heap (((EXP48BP_PTR_SIZE sizeofT : Nat) : Int)
            * (s.index - 1 - ((EXP48BP_STACK_SIZE sizeofT : Nat) : Int))) with
        | error e => rw [hl] at h; cases h
        | ok raw =>
          rw [hl] at h
          obtain ⟨lower, upper, h4, h2, hm⟩ := load_wide_split _ _ raw hl
          simp only [h4, h2]
          cases h
          rw [hm]

/-- Witness of C15: slot 1 of a 16-byte buffer holding an 8-byte store, and the
stack after one push. -/
theorem read_strategies_agree_witness :
    (∀ j : Nat, j < 8 → ∃ b : Byte,
        (storeBytes (List.replicate 16 none) 6 8 0xffff123456789abc)[6 * 1 + j]? = some (some b))
    ∧ (∃ raw lower upper : Nat,
        load 8 (storeBytes (List.replicate 16 none) 6 8 0xffff123456789abc)
            ((6 * 1 : Nat) : Int) = .ok raw
        ∧ load 4 (storeBytes (List.replicate 16 none) 6 8 0xffff123456789abc)
            ((6 * 1 : Nat) : Int) = .ok lower
        ∧ load 2 (storeBytes (List.replicate 16 none) 6 8 0xffff123456789abc)
            (((6 * 1 : Nat) : Int) + 4) = .ok upper
        ∧ 0x0000ffffffffffff &&& raw
            = 0x0000ffffffffffff &&& (((upper <<< 32) % 2 ^ 64) ||| lower))
    ∧ push new 0x7ffdeadbeef0 = .ok samplePacked
    ∧ top false samplePacked = .ok 0x7ffdeadbeef0
    ∧ top true samplePacked = .ok 0x7ffdeadbeef0 :=
  have hb : ∀ j : Nat, j < 8 → ∃ b : Byte,
      (storeBytes (List.replicate 16 none) 6 8 0xffff123456789abc)[6 * 1 + j]?
        = some (some b) := fun j hj => by
    interval_cases j <;> exact ⟨_, rfl⟩
  ⟨hb, read_strategies_agree.1 _ 1 hb, by decide, by decide,
    read_strategies_agree.2 samplePacked 0x7ffdeadbeef0 (by decide)⟩

theorem stack_size_eq : ((EXP48BP_STACK_SIZE sizeofT : Nat) : Int) = 8 := by decide

theorem ptr_size_eq : ((EXP48BP_PTR_SIZE sizeofT : Nat) : Int) = 6 := by decide

theorem ptr_size_nat : EXP48BP_PTR_SIZE sizeofT = 6 := by decide

theorem store64_ok (mem : List (Option Byte)) (off v : Nat) (h : off + 8 ≤ mem.length) :
    store64 mem (off : Int) v = .ok (storeBytes mem off 8 (v % 2 ^ 64)) := by
  unfold store64
  have hc : 0 ≤ (off : Int) ∧ (off : Int).toNat + 8 ≤ mem.length := by
    rw [Int.toNat_ofNat]; omega
  rw [if_pos hc, Int.toNat_ofNat]

theorem store64_oob (mem : List (Option Byte)) (off v : Nat) (h : mem.length < off + 8) :
    store64 mem (off : Int) v = .error .undefined := by
  unfold store64
  have hc : ¬ (0 ≤ (off : Int) ∧ (off : Int).toNat + 8 ≤ mem.length) := by
    rw [Int.toNat_ofNat]; omega
  rw [if_neg hc]

theorem int16_t_small (k : Nat) (h : k ≤ 32767) : int16_t (k : Int) = (k : Int) := by
  unfold int16_t
  omega

/-- The target of `push` while the inline array has a free slot. -/
theorem memptr_inline (s : Experimental48BPStack) (k : Nat) (hi : s.index = (k : Int))
    (h : k < 8) : push_memptr s = (s, .inline, ((6 * k : Nat) : Int)) := by
  have hc : s.index < ((EXP48BP_STACK_SIZE sizeofT : Nat) : Int) := by
    rw [stack_size_eq]; omega
  have e : ((EXP48BP_PTR_SIZE sizeofT : Nat) : Int) * s.index = ((6 * k : Nat) : Int) := by
    rw [ptr_size_eq, hi]; push_cast; rfl
  unfold push_memptr
  simp only []
  rw [if_pos hc, e]

/-- The target of `push` when the inline array is full and there is no heap
block yet. -/
theorem memptr_first (s : Experimental48BPStack) (k : Nat) (hi : s.index = (k : Int))
    (h : 8 ≤ k) (hn : s.heap_allocated_array = none) :
    push_memptr s
      = ({ s with heap_allocated_array := some (List.replicate 512 none), _n_memb_heap := 64 },
          .heap, 0) := by
  have hc : ¬ s.index < ((EXP48BP_STACK_SIZE sizeofT : Nat) : Int) := by
    rw [stack_size_eq]; omega
  unfold push_memptr
  simp only []
  rw [if_neg hc]
  simp only [hn]
  rfl

/-- The target of `push` in a heap block recorded as having a free slot. -/
theorem memptr_heap (s : Experimental48BPStack) (k : Nat) (heap : List (Option Byte))
    (hi : s.index = (k : Int)) (h : 8 ≤ k) (hh : s.heap_allocated_array = some heap)
    (hfree : k - 8 < s._n_memb_heap) :
    push_memptr s = (s, .heap, ((6 * (k - 8) : Nat) : Int)) := by
  have hc : ¬ s.index < ((EXP48BP_STACK_SIZE sizeofT : Nat) : Int) := by
    rw [stack_size_eq]; omega
  have hc2 : s.index - ((EXP48BP_STACK_SIZE sizeofT : Nat) : Int) < (s._n_memb_heap : Int) := by
    rw [stack_size_eq]; omega
  have e : ((EXP48BP_PTR_SIZE sizeofT : Nat) : Int)
      * (s.index - ((EXP48BP_STACK_SIZE sizeofT : Nat) : Int)) = ((6 * (k - 8) : Nat) : Int) := by
    rw [ptr_size_eq, stack_size_eq, hi]; omega
  unfold push_memptr
  simp only []
  rw [if_neg hc]
  simp only [hh]
  rw [if_pos hc2, e]

/-- The target of `push` in a heap block recorded as full: the block is
reallocated to `_n_memb_heap * 2 * 6` bytes. -/
theorem memptr_grow (s : Experimental48BPStack) (k : Nat) (heap : List (Option Byte))
    (hi : s.index = (k : Int)) (h : 8 ≤ k) (hh : s.heap_allocated_array = some heap)
    (hfull : s._n_memb_heap ≤ k - 8) :
    push_memptr s
      = ({ s with heap_allocated_array := some (reallocSlots heap (s._n_memb_heap * 2 * 6)),
                  _n_memb_heap := (s._n_memb_heap * 2) % 2 ^ 16 },
          .heap, ((6 * (k - 8) : Nat) : Int)) := by
  have hc : ¬ s.index < ((EXP48BP_STACK_SIZE sizeofT : Nat) : Int) := by
    rw [stack_size_eq]; omega
  have hc2 : ¬ s.index - ((EXP48BP_STACK_SIZE sizeofT : Nat) : Int)
      < (s._n_memb_heap : Int) := by
    rw [stack_size_eq]; omega
  have e : ((EXP48BP_PTR_SIZE sizeofT : Nat) : Int)
      * (s.index - ((EXP48BP_STACK_SIZE sizeofT : Nat) : Int)) = ((6 * (k - 8) : Nat) : Int) := by
    rw [ptr_size_eq, stack_size_eq, hi]; omega
  unfold push_memptr
  simp only []
  rw [if_neg hc]
  simp only [hh]
  rw [if_neg hc2, e, ptr_size_nat]

theorem filled_new : Filled new 0 :=
  ⟨rfl, by decide, fun _ => ⟨rfl, rfl⟩, fun h => absurd h (by decide),
    fun h => absurd h (by decide)⟩

/-- One more `push` on a stack filled by fewer than 135 pushes: every 8-byte
store up to there lies inside its region. -/
theorem push_filled (s : Experimental48BPStack) (k t : Nat) (hF : Filled s k) (hk : k < 135) :
    ∃ s2 : Experimental48BPStack, push s t = .ok s2 ∧ Filled s2 (k + 1) := by
  obtain ⟨hi, hlen, h8, h72, h135⟩ := hF
  have hidx : int16_t (s.index + 1) = ((k + 1 : Nat) : Int) := by
    rw [hi]
    have := int16_t_small (k + 1) (by omega)
    exact_mod_cast this
  by_cases c1 : k < 8
  · obtain ⟨hn, hz⟩ := h8 (by omega)
    refine ⟨{ s with
              stack_allocated_array := storeBytes s.stack_allocated_array (6 * k) 8 (t % 2 ^ 64)
              index := ((k + 1 : Nat) : Int) }, ?_, rfl, ?_, ?_, ?_, ?_⟩
    · unfold push
      rw [memptr_inline s k hi c1]
      simp only [store64_ok s.stack_allocated_array (6 * k) t (by omega), hidx, bind,
        Except.bind, pure, Except.pure]
    · show (storeBytes _ _ _ _).length = 52
      rw [length_storeBytes, hlen]
    · intro _; exact ⟨hn, hz⟩
    · intro hc; omega
    · intro hc; omega
  · by_cases c2 : k = 8
    · obtain ⟨hn, hz⟩ := h8 (by omega)
      refine ⟨{ s with
                heap_allocated_array :=
                  some (storeBytes (List.replicate 512 none) 0 8 (t % 2 ^ 64))
                _n_memb_heap := 64
                index := ((k + 1 : Nat) : Int) }, ?_, rfl, hlen, ?_, ?_, ?_⟩
      · unfold push
        rw [memptr_first s k hi (by omega) hn]
        have hst := store64_ok (List.replicate 512 none) 0 t
          (by rw [List.length_replicate]; omega)
        simp only [Nat.cast_zero] at hst
        simp only [hst, hidx, bind, Except.bind, pure, Except.pure]
      · intro hc; omega
      · intro _ _
        exact ⟨_, rfl, by rw [length_storeBytes, List.length_replicate], rfl⟩
      · intro hc; omega
    · by_cases c3 : k < 72
      · obtain ⟨heap, hh, hl, hm⟩ := h72 (by omega) (by omega)
        refine ⟨{ s with
                  heap_allocated_array := some (storeBytes heap (6 * (k - 8)) 8 (t % 2 ^ 64))
                  index := ((k + 1 : Nat) : Int) }, ?_, rfl, hlen, ?_, ?_, ?_⟩
        · unfold push
          rw [memptr_heap s k heap hi (by omega) hh (by omega)]
          simp only [hh, store64_ok heap (6 * (k - 8)) t (by omega), hidx, bind, Except.bind,
            pure, Except.pure]
        · intro hc; omega
        · intro _ _
          exact ⟨_, rfl, by rw [length_storeBytes, hl], hm⟩
        · intro hc; omega
      · by_cases c4 : k = 72
        · obtain ⟨heap, hh, hl, hm⟩ := h72 (by omega) (by omega)
          refine ⟨{ s with
                    heap_allocated_array :=
                      some (storeBytes (reallocSlots heap (s._n_memb_heap * 2 * 6))
                        (6 * (k - 8)) 8 (t % 2 ^ 64))
                    _n_memb_heap := (s._n_memb_heap * 2) % 2 ^ 16
                    index := ((k + 1 : Nat) : Int) }, ?_, rfl, hlen, ?_, ?_, ?_⟩
          · unfold push
            rw [memptr_grow s k heap hi (by omega) hh (by omega)]
            simp only [store64_ok (reallocSlots heap (s._n_memb_heap * 2 * 6)) (6 * (k - 8)) t
              (by rw [Stack.reallocSlots_length]; omega), hidx, bind, Except.bind, pure,
              Except.pure]
          · intro hc; omega
          · intro hc hc2; omega
          · intro _
            refine ⟨_, rfl, ?_, ?_⟩
            · rw [length_storeBytes, Stack.reallocSlots_length, hm]
            · show (s._n_memb_heap * 2) % 2 ^ 16 = 128
              rw [hm]
              decide
        · obtain ⟨heap, hh, hl, hm⟩ := h135 (by omega)
          refine ⟨{ s with
                    heap_allocated_array := some (storeBytes heap (6 * (k - 8)) 8 (t % 2 ^ 64))
                    index := ((k + 1 : Nat) : Int) }, ?_, rfl, hlen, ?_, ?_, ?_⟩
          · unfold push
            rw [memptr_heap s k heap hi (by omega) hh (by omega)]
            simp only [hh, store64_ok heap (6 * (k - 8)) t (by omega), hidx, bind, Except.bind,
              pure, Except.pure]
          · intro hc; omega
          · intro hc hc2; omega
          · intro _
            exact ⟨_, rfl, by rw [length_storeBytes, hl], hm⟩

/-- A run of at most 135 pushes onto an empty stack returns. -/
theorem push_all_filled (ps : List Nat) :
    ∀ (s : Experimental48BPStack) (k : Nat), Filled s k → k + ps.length ≤ 135 →
      ∃ s2 : Experimental48BPStack, push_all s ps = .ok s2 ∧ Filled s2 (k + ps.length) := by
  induction ps with
  | nil => intro s k hF _; exact ⟨s, rfl, hF⟩
  | cons p ps ih =>
    intro s k hF hk
    rw [List.length_cons] at hk
    obtain ⟨s1, h1, hF1⟩ := push_filled s k p hF (by omega)
    obtain ⟨s2, h2, hF2⟩ := ih s1 (k + 1) hF1 (by omega)
    refine ⟨s2, ?_, ?_⟩
    · unfold push_all
      rw [List.foldlM_cons, h1]
      exact h2
    · rw [List.length_cons]
      have e : k + (ps.length + 1) = k + 1 + ps.length := by omega
      rw [e]; exact hF2

/-- The 136th `push`: its target is the last slot of the 768-byte heap block,
bytes 762 to 769, and the store is undefined behaviour. -/
theorem push_at_last_slot (s : Experimental48BPStack) (t : Nat) (hF : Filled s 135) :
    push_memptr s = (s, .heap, 762) ∧ push s t = .error .undefined := by
  obtain ⟨hi, _, _, _, h135⟩ := hF
  obtain ⟨heap, hh, hl, hm⟩ := h135 (by omega)
  have hmp := memptr_heap s 135 heap hi (by omega) hh (by omega)
  refine ⟨hmp, ?_⟩
  unfold push
  rw [hmp]
  simp only [hh, store64_oob heap (6 * (135 - 8)) t (by omega), bind, Except.bind]

/-- Claim C20, where the code diverges. The 8-byte store of `push` overruns
the heap block at the last slot after a doubling.  After any 135 pushes onto an
empty stack (all of them returned, 135 live elements) the heap block has
`6 * _n_memb_heap = 768` bytes, and the next `push` targets heap slot 127 at
byte offset `6 * 127 = 762`: its 8-byte store ends at byte 770, outside the
block, and the call is undefined behaviour. -/
theorem store_overruns_last_heap_slot (ps : List Nat) (h : ps.length = 135) :
    ∃ (s : Experimental48BPStack) (heap : List (Option Byte)),
      push_all new ps = .ok s
      ∧ size s = 135
      ∧ push_memptr s = (s, .heap, 762)
      ∧ s.heap_allocated_array = some heap
      ∧ s._n_memb_heap = 128
      ∧ heap.length = 6 * s._n_memb_heap
      ∧ ¬ (762 + 8 ≤ heap.length)
      ∧ ∀ t : Nat, push s t = .error .undefined := by
  obtain ⟨s, h1, hF⟩ := push_all_filled ps new 0 filled_new (by omega)
  rw [Nat.zero_add, h] at hF
  obtain ⟨heap, hh, hl, hm⟩ := hF.2.2.2.2 (by omega)
  refine ⟨s, heap, h1, hF.1, (push_at_last_slot s 0 hF).1, hh, hm, by rw [hl, hm], by omega, ?_⟩
  intro t
  exact (push_at_last_slot s t hF).2

/-- Witness of C20: 135 pushes of the pointer value `0x7ffdeadbeef0`. -/
theorem store_overruns_last_heap_slot_witness :
    (List.replicate 135 0x7ffdeadbeef0).length = 135
    ∧ ∃ (s : Experimental48BPStack) (heap : List (Option Byte)),
      push_all new (List.replicate 135 0x7ffdeadbeef0) = .ok s
      ∧ size s = 135
      ∧ push_memptr s = (s, .heap, 762)
      ∧ s.heap_allocated_array = some heap
      ∧ s._n_memb_heap = 128
      ∧ heap.length = 6 * s._n_memb_heap
      ∧ ¬ (762 + 8 ≤ heap.length)
      ∧ ∀ t : Nat, push s t = .error .undefined :=
  ⟨by rw [List.length_replicate],
    store_overruns_last_heap_slot (List.replicate 135 0x7ffdeadbeef0)
      (by rw [List.length_replicate])⟩

end Experimental48BPStack

end CppDS

/-! ## Theorems: stack_ptrt.h, the stack contract -/

namespace CppDS

theorem getElem?_storeBytes_out (count : Nat) :
    ∀ (mem : List (Option Byte)) (off v i : Nat), i < off ∨ off + count ≤ i →
      (storeBytes mem off count v)[i]? = mem[i]? := by
  induction count with
  | zero => intro mem off v i _; rfl
  | succ c ih =>
    intro mem off v i h
    unfold storeBytes
    rw [ih _ _ _ _ (by omega), List.getElem?_set_ne (by omega)]

theorem getElem?_storeBytes_written (count : Nat) :
    ∀ (mem : List (Option Byte)) (off v i : Nat) (b : Byte), mem[i]? = some (some b) →
      ∃ b2 : Byte, (storeBytes mem off count v)[i]? = some (some b2) := by
  induction count with
  | zero => intro mem off v i b h; exact ⟨b, h⟩
  | succ c ih =>
    intro mem off v i b h
    unfold storeBytes
    by_cases e : off = i
    · subst e
      have hlt : off < mem.length := by
        rcases Nat.lt_or_ge off mem.length with h1 | h1
        · exact h1
        · rw [List.getElem?_eq_none h1] at h; cases h
      exact ih _ _ _ _ _ (List.getElem?_set_self hlt)
    · exact ih _ _ _ _ b (by rw [List.getElem?_set_ne e]; exact h)

theorem loadBytes_storeBytes (count : Nat) :
    ∀ (mem : List (Option Byte)) (off v : Nat), off + count ≤ mem.length →
      loadBytes (storeBytes mem off count v) off count = some (v % 256 ^ count) := by
  induction count with
  | zero => intro mem off v _; simp [loadBytes, Nat.mod_one]
  | succ c ih =>
    intro mem off v h
    unfold loadBytes
    have h0 : (storeBytes mem off (c + 1) v)[off]? = some (some (Fin.ofNat (v % 256))) := by
      unfold storeBytes
      rw [getElem?_storeBytes_out c _ _ _ _ (by omega), List.getElem?_set_self (by omega)]
    rw [h0]
    have h1 : loadBytes (storeBytes mem off (c + 1) v) (off + 1) c
        = some (v / 256 % 256 ^ c) := by
      unfold storeBytes
      exact ih _ _ _ (by rw [List.length_set]; omega)
    rw [h1]
    simp only [Option.map_some']
    congr 1
    have e : ((Fin.ofNat (v % 256) : Fin 256) : Nat) = v % 256 := by
      show v % 256 % 256 = v % 256
      omega
    rw [e, pow_succ, Nat.mul_comm (256 ^ c) 256, Nat.mod_mul]

theorem loadBytes_congr (count : Nat) :
    ∀ (m1 m2 : List (Option Byte)) (off : Nat),
      (∀ j : Nat, j < count → m1[off + j]? = m2[off + j]?) →
      loadBytes m1 off count = loadBytes m2 off count := by
  induction count with
  | zero => intro m1 m2 off _; rfl
  | succ c ih =>
    intro m1 m2 off h
    unfold loadBytes
    have h0 := h 0 (by omega)
    rw [Nat.add_zero] at h0
    rw [h0, ih m1 m2 (off + 1) (fun j hj => by
      have := h (j + 1) (by omega)
      have e : off + 1 + j = off + (j + 1) := by omega
      rw [e]; exact this)]

theorem loadBytes_written (count : Nat) :
    ∀ (mem : List (Option Byte)) (off v : Nat), loadBytes mem off count = some v →
      ∀ j : Nat, j < count → ∃ b : Byte, mem[off + j]? = some (some b) := by
  induction count with
  | zero => intro mem off v _ j hj; omega
  | succ c ih =>
    intro mem off v h j hj
    unfold loadBytes at h
    cases hb : mem[off]? with
    | none => rw [hb] at h; cases h
    | some ob =>
      cases ob with
      | none => rw [hb] at h; cases h
      | some b =>
        rw [hb] at h
        cases hr : loadBytes mem (off + 1) c with
        | none => rw [hr] at h; cases h
        | some r =>
          cases j with
          | zero => exact ⟨b, hb⟩
          | succ j =>
            obtain ⟨b2, hb2⟩ := ih mem (off + 1) r hr j (by omega)
            have e : off + (j + 1) = off + 1 + j := by omega
            exact ⟨b2, by rw [e]; exact hb2⟩

theorem loadBytes_mono (base heap : List (Option Byte))
    (hE : ∀ (i : Nat) (b : Byte), heap[i]? = some (some b) → base[i]? = some (some b))
    (off count v : Nat) (h : loadBytes heap off count = some v) :
    loadBytes base off count = some v := by
  rw [← h]
  apply loadBytes_congr
  intro j hj
  obtain ⟨b, hb⟩ := loadBytes_written count heap off v h j hj
  rw [hb, hE _ b hb]

theorem loadBytes_join (mem : List (Option Byte)) (a b : Nat) :
    ∀ (off x y : Nat), loadBytes mem off a = some x → loadBytes mem (off + a) b = some y →
      loadBytes mem off (a + b) = some (x + 256 ^ a * y) := by
  induction a with
  | zero =>
    intro off x y hx hy
    unfold loadBytes at hx
    cases hx
    simpa using hy
  | succ a ih =>
    intro off x y hx hy
    have e : a + 1 + b = (a + b) + 1 := by omega
    rw [e]
    unfold loadBytes at hx ⊢
    cases hb : mem[off]? with
    | none => rw [hb] at hx; cases hx
    | some ob =>
      cases ob with
      | none => rw [hb] at hx; cases hx
      | some byte =>
        rw [hb] at hx
        cases hr : loadBytes mem (off + 1) a with
        | none => rw [hr] at hx; cases hx
        | some r =>
          rw [hr] at hx
          simp only [Option.map_some'] at hx
          cases hx
          have e2 : off + (a + 1) = off + 1 + a := by omega
          rw [e2] at hy
          rw [ih (off + 1) r y hr hy]
          simp only [Option.map_some']
          congr 1
          rw [pow_succ]; ring

namespace Experimental48BPStack

theorem slotHolds_store_same (mem : List (Option Byte)) (off t : Nat)
    (h : off + 8 ≤ mem.length) : SlotHolds (storeBytes mem off 8 (t % 2 ^ 64)) off t := by
  have h8 := loadBytes_storeBytes 8 mem off (t % 2 ^ 64) h
  obtain ⟨x, y, hx, hy, hv⟩ := loadBytes_split _ 6 2 off _ h8
  have hxl := loadBytes_lt _ 6 off x hx
  refine ⟨?_, y, hy⟩
  rw [hx]
  congr 1
  have e6 : (256 : Nat) ^ 6 = 2 ^ 48 := by norm_num
  have e8 : (256 : Nat) ^ 8 = 2 ^ 64 := by norm_num
  have e48 : (2 : Nat) ^ 48 = 281474976710656 := by norm_num
  have e64 : (2 : Nat) ^ 64 = 18446744073709551616 := by norm_num
  rw [e8, e6] at hv
  rw [e6] at hxl
  rw [e48] at hv hxl ⊢
  rw [e64] at hv
  omega

theorem slotHolds_store_above (mem : List (Option Byte)) (off off2 v w : Nat)
    (hS : SlotHolds mem off v) (h : off + 6 ≤ off2) :
    SlotHolds (storeBytes mem off2 8 w) off v := by
  obtain ⟨h6, y, h2⟩ := hS
  constructor
  · rw [← h6]
    apply loadBytes_congr
    intro j hj
    exact getElem?_storeBytes_out 8 mem off2 w (off + j) (by omega)
  · apply loadBytes_some
    intro j hj
    obtain ⟨b, hb⟩ := loadBytes_written 2 mem (off + 6) y h2 j hj
    exact getElem?_storeBytes_written 8 mem off2 w _ b hb

theorem slotHolds_mono (base heap : List (Option Byte))
    (hE : ∀ (i : Nat) (b : Byte), heap[i]? = some (some b) → base[i]? = some (some b))
    (off v : Nat) (hS : SlotHolds heap off v) : SlotHolds base off v := by
  obtain ⟨h6, y, h2⟩ := hS
  exact ⟨loadBytes_mono base heap hE _ _ _ h6, y, loadBytes_mono base heap hE _ _ _ h2⟩

/-- The 8-byte load of a slot, masked as in `top`, gives the 48 bits stored. -/
theorem slotHolds_load (mem : List (Option Byte)) (off v : Nat) (hS : SlotHolds mem off v) :
    ∃ raw : Nat, load 8 mem (off : Int) = .ok raw ∧ 0x0000ffffffffffff &&& raw = v % 2 ^ 48 := by
  obtain ⟨h6, y, h2⟩ := hS
  have h8 := loadBytes_join mem 6 2 off _ y h6 h2
  refine ⟨_, load_of_loadBytes 8 mem off _ h8, ?_⟩
  have e : (0x0000ffffffffffff : Nat) = 2 ^ 48 - 1 := by decide
  have e6 : (256 : Nat) ^ 6 = 2 ^ 48 := by norm_num
  rw [e, Nat.and_comm, Nat.and_pow_two_sub_one_eq_mod, e6, Nat.add_mul_mod_self_left,
    Nat.mod_mod]

/-- The load of `top` under `EXPSTACK_PREVENT_PAGE_RELOAD` returns what the
default 8-byte load returns. -/
theorem top_reload_of_top (s : Experimental48BPStack) (v : Nat) (h : top false s = .ok v) :
    top true s = .ok v := by
  unfold top at h ⊢
  simp only [Bool.false_eq_true, if_false, if_true, bind, Except.bind, pure, Except.pure] at h ⊢
  by_cases hc : s.index ≤ ((EXP48BP_STACK_SIZE sizeofT : Nat) : Int)
  · simp only [hc, if_true] at h ⊢
    cases hl : load 8 s.stack_allocated_array
        (((EXP48BP_PTR_SIZE sizeofT : Nat) : Int) * (s.index - 1)) with
    | error e => rw [hl] at h; cases h
    | ok raw =>
      rw [hl] at h
      obtain ⟨lower, upper, h4, h2, hm⟩ := load_wide_split _ _ raw hl
      simp only [h4, h2]
      cases h
      rw [hm]
  · simp only [hc, if_false] at h ⊢
    cases hh : s.heap_allocated_array with
    | none => rw [hh] at h; cases h
    | some heap =>
      rw [hh] at h
      simp only at h ⊢
      cases hl : load 8 heap (((EXP48BP_PTR_SIZE sizeofT : Nat) : Int)
          * (s.index - 1 - ((EXP48BP_STACK_SIZE sizeofT : Nat) : Int))) with
      | error e => rw [hl] at h; cases h
      | ok raw =>
        rw [hl] at h
        obtain ⟨lower, upper, h4, h2, hm⟩ := load_wide_split _ _ raw hl
        simp only [h4, h2]
        cases h
        rw [hm]

/-- The value of `top` in a stack with `k + 1` elements whose top slot holds
`v`, in both configurations. -/
theorem top_of_slot (b : Bool) (s : Experimental48BPStack) (k v : Nat)
    (hi : s.index = ((k + 1 : Nat) : Int))
    (h1 : k < 8 → SlotHolds s.stack_allocated_array (6 * k) v)
    (h2 : 8 ≤ k → ∃ heap : List (Option Byte), s.heap_allocated_array = some heap
      ∧ SlotHolds heap (6 * (k - 8)) v) :
    top b s = .ok (v % 2 ^ 48) := by
  have hf : top false s = .ok (v % 2 ^ 48) := by
    unfold top
    simp only [Bool.false_eq_true, if_false, bind, Except.bind, pure, Except.pure]
    rw [stack_size_eq, ptr_size_eq, hi]
    by_cases c : k < 8
    · have hc : ((k + 1 : Nat) : Int) ≤ 8 := by omega
      obtain ⟨raw, hl, hm⟩ := slotHolds_load _ _ _ (h1 c)
      have e : (6 : Int) * (((k + 1 : Nat) : Int) - 1) = ((6 * k : Nat) : Int) := by
        push_cast; ring
      rw [if_pos hc, e, hl]
      simp only [hm]
    · have hc : ¬ ((k + 1 : Nat) : Int) ≤ 8 := by omega
      obtain ⟨heap, hh, hS⟩ := h2 (by omega)
      obtain ⟨raw, hl, hm⟩ := slotHolds_load _ _ _ hS
      have e : (6 : Int) * (((k + 1 : Nat) : Int) - 1 - 8) = ((6 * (k - 8) : Nat) : Int) := by
        omega
      rw [if_neg hc, hh]
      simp only [e, hl, hm]
  cases b with
  | false => exact hf
  | true => exact top_reload_of_top s _ hf

theorem shape_new : Shape new 0 :=
  ⟨rfl, by decide, by decide, Or.inl ⟨rfl, rfl, by decide⟩⟩

/-- One `push` on a stack with fewer than 135 elements: the call returns, the
8-byte store lies inside its region, and the memory changes only by that store
(after the allocation step, which keeps every written byte). -/
theorem push_shape (s : Experimental48BPStack) (k t : Nat) (hS : Shape s k) (hk : k < 135) :
    ∃ s2 : Experimental48BPStack, push s t = .ok s2 ∧ Shape s2 (k + 1)
      ∧ (k < 8 →
          s2.stack_allocated_array = storeBytes s.stack_allocated_array (6 * k) 8 (t % 2 ^ 64)
          ∧ 6 * k + 8 ≤ s.stack_allocated_array.length
          ∧ s2.heap_allocated_array = s.heap_allocated_array)
      ∧ (8 ≤ k →
          s2.stack_allocated_array = s.stack_allocated_array
          ∧ ∃ base : List (Option Byte), 6 * (k - 8) + 8 ≤ base.length
            ∧ s2.heap_allocated_array = some (storeBytes base (6 * (k - 8)) 8 (t % 2 ^ 64))
            ∧ ∀ heap : List (Option Byte), s.heap_allocated_array = some heap →
                ∀ (i : Nat) (b : Byte), heap[i]? = some (some b) → base[i]? = some (some b)) := by
  obtain ⟨hi, _, hlen, hheap⟩ := hS
  have hidx : int16_t (s.index + 1) = ((k + 1 : Nat) : Int) := by
    rw [hi]
    have := int16_t_small (k + 1) (by omega)
    exact_mod_cast this
  by_cases c1 : k < 8
  · refine ⟨{ s with
              stack_allocated_array := storeBytes s.stack_allocated_array (6 * k) 8 (t % 2 ^ 64)
              index := ((k + 1 : Nat) : Int) }, ?_, ⟨rfl, by omega, ?_, ?_⟩, ?_, ?_⟩
    · unfold push
      rw [memptr_inline s k hi c1]
      simp only [store64_ok s.stack_allocated_array (6 * k) t (by omega), hidx, bind,
        Except.bind, pure, Except.pure]
    · show (storeBytes _ _ _ _).length = 52
      rw [length_storeBytes, hlen]
    · rcases hheap with ⟨hn, hz, _⟩ | ⟨heap, hh, hc⟩
      · exact Or.inl ⟨hn, hz, by omega⟩
      · refine Or.inr ⟨heap, hh, ?_⟩
        rcases hc with ⟨hl, hm, _⟩ | hc
        · exact Or.inl ⟨hl, hm, by omega⟩
        · exact Or.inr hc
    · intro _; exact ⟨rfl, by omega, rfl⟩
    · intro hc; omega
  · rcases hheap with ⟨hn, hz, h8⟩ | ⟨heap, hh, hc⟩
    · refine ⟨{ s with
                heap_allocated_array :=
                  some (storeBytes (List.replicate 512 none) 0 8 (t % 2 ^ 64))
                _n_memb_heap := 64
                index := ((k + 1 : Nat) : Int) }, ?_, ⟨rfl, by omega, hlen, ?_⟩, ?_, ?_⟩
      · unfold push
        rw [memptr_first s k hi (by omega) hn]
        have hst := store64_ok (List.replicate 512 none) 0 t
          (by rw [List.length_replicate]; omega)
        simp only [Nat.cast_zero] at hst
        simp only [hst, hidx, bind, Except.bind, pure, Except.pure]
      · exact Or.inr ⟨_, rfl, Or.inl
          ⟨by rw [length_storeBytes, List.length_replicate], rfl, by omega⟩⟩
      · intro hc; omega
      · intro _
        have e : 6 * (k - 8) = 0 := by omega
        refine ⟨rfl, List.replicate 512 none, ?_, ?_, ?_⟩
        · rw [List.length_replicate]; omega
        · rw [e]
        · intro heap hh; rw [hn] at hh; cases hh
    · have hpres : ∀ base : List (Option Byte), base = heap →
          ∀ heap2 : List (Option Byte), s.heap_allocated_array = some heap2 →
            ∀ (i : Nat) (b : Byte), heap2[i]? = some (some b) → base[i]? = some (some b) := by
        intro base hb heap2 hh2 i b hib
        rw [hh] at hh2
        cases hh2
        rw [hb]; exact hib
      by_cases c4 : heap.length = 512 ∧ s._n_memb_heap = 64 ∧ k = 72
      · obtain ⟨hl, hm, hk72⟩ := c4
        refine ⟨{ s with
                  heap_allocated_array :=
                    some (storeBytes (reallocSlots heap (s._n_memb_heap * 2 * 6))
                      (6 * (k - 8)) 8 (t % 2 ^ 64))
                  _n_memb_heap := (s._n_memb_heap * 2) % 2 ^ 16
                  index := ((k + 1 : Nat) : Int) }, ?_, ⟨rfl, by omega, hlen, ?_⟩, ?_, ?_⟩
        · unfold push
          rw [memptr_grow s k heap hi (by omega) hh (by omega)]
          simp only [store64_ok (reallocSlots heap (s._n_memb_heap * 2 * 6)) (6 * (k - 8)) t
            (by rw [Stack.reallocSlots_length]; omega), hidx, bind, Except.bind, pure,
            Except.pure]
        · refine Or.inr ⟨_, rfl, Or.inr ⟨?_, ?_⟩⟩
          · rw [length_storeBytes, Stack.reallocSlots_length, hm]
          · show (s._n_memb_heap * 2) % 2 ^ 16 = 128
            rw [hm]
            decide
        · intro hc; omega
        · intro _
          refine ⟨rfl, reallocSlots heap (s._n_memb_heap * 2 * 6), ?_, rfl, ?_⟩
          · rw [Stack.reallocSlots_length]; omega
          · intro heap2 hh2 i b hib
            rw [hh] at hh2
            cases hh2
            have hlt : i < heap.length := by
              rcases Nat.lt_or_ge i heap.length with h1 | h1
              · exact h1
              · rw [List.getElem?_eq_none h1] at hib; cases hib
            rw [Stack.reallocSlots_getElem? heap _ i hlt (by omega)]
            exact hib
      · have hroom : k - 8 < s._n_memb_heap ∧ 6 * (k - 8) + 8 ≤ heap.length := by
          rcases hc with ⟨hl, hm, h72⟩ | ⟨hl, hm⟩
          · have : k ≠ 72 := fun e => c4 ⟨hl, hm, e⟩
            omega
          · omega
        refine ⟨{ s with
                  heap_allocated_array := some (storeBytes heap (6 * (k - 8)) 8 (t % 2 ^ 64))
                  index := ((k + 1 : Nat) : Int) }, ?_, ⟨rfl, by omega, hlen, ?_⟩, ?_, ?_⟩
        · unfold push
          rw [memptr_heap s k heap hi (by omega) hh hroom.1]
          simp only [hh, store64_ok heap (6 * (k - 8)) t hroom.2, hidx, bind, Except.bind,
            pure, Except.pure]
        · refine Or.inr ⟨_, rfl, ?_⟩
          rcases hc with ⟨hl, hm, h72⟩ | ⟨hl, hm⟩
          · have : k ≠ 72 := fun e => c4 ⟨hl, hm, e⟩
            exact Or.inl ⟨by rw [length_storeBytes, hl], hm, by omega⟩
          · exact Or.inr ⟨by rw [length_storeBytes, hl], hm⟩
        · intro hc; omega
        · intro _
          exact ⟨rfl, heap, hroom.2, rfl, hpres heap rfl⟩

/-- The `push` on a stack with 135 elements is undefined behaviour. -/
theorem push_shape_full (s : Experimental48BPStack) (t : Nat) (hS : Shape s 135) :
    push s t = .error .undefined := by
  obtain ⟨hi, _, _, hheap⟩ := hS
  rcases hheap with ⟨_, _, h8⟩ | ⟨heap, hh, hc⟩
  · omega
  · rcases hc with ⟨_, _, h72⟩ | ⟨hl, hm⟩
    · omega
    · unfold push
      rw [memptr_heap s 135 heap hi (by omega) hh (by omega)]
      simp only [hh, store64_oob heap (6 * (135 - 8)) t (by omega), bind, Except.bind]

theorem packed_new : Packed new [] :=
  ⟨shape_new, fun i hi => absurd hi (by simp)⟩

/-- One `push` on a stack holding `ps`, with fewer than 135 elements: the call
returns and the stack holds `ps` followed by the pushed pointer. -/
theorem push_packed (s : Experimental48BPStack) (ps : List Nat) (t : Nat) (hP : Packed s ps)
    (hk : ps.length < 135) :
    ∃ s2 : Experimental48BPStack, push s t = .ok s2 ∧ Packed s2 (ps ++ [t]) := by
  obtain ⟨hS, hslots⟩ := hP
  obtain ⟨s2, hp, hS2, hin, hhp⟩ := push_shape s ps.length t hS hk
  have hlen : (ps ++ [t]).length = ps.length + 1 := by simp
  refine ⟨s2, hp, by rw [hlen]; exact hS2, ?_⟩
  intro i hi
  rw [hlen] at hi
  by_cases c : i < ps.length
  · have hg : (ps ++ [t]).getD i 0 = ps.getD i 0 := List.getD_append ps [t] 0 i c
    rw [hg]
    obtain ⟨ha, hb⟩ := hslots i c
    constructor
    · intro h8
      by_cases c8 : ps.length < 8
      · rw [(hin c8).1]
        exact slotHolds_store_above _ _ _ _ _ (ha h8) (by omega)
      · rw [(hhp (by omega)).1]
        exact ha h8
    · intro h8
      obtain ⟨_, base, _, hs2, hE⟩ := hhp (by omega)
      obtain ⟨heap, hh, hsl⟩ := hb h8
      refine ⟨_, hs2, ?_⟩
      exact slotHolds_store_above _ _ _ _ _ (slotHolds_mono base heap (hE heap hh) _ _ hsl)
        (by omega)
  · have e : i = ps.length := by omega
    have hg : (ps ++ [t]).getD i 0 = t := by
      rw [e, List.getD_append_right ps [t] 0 ps.length (le_refl _)]
      simp
    rw [hg, e]
    constructor
    · intro h8
      obtain ⟨hs2, hb, _⟩ := hin h8
      rw [hs2]
      exact slotHolds_store_same _ _ _ hb
    · intro h8
      obtain ⟨_, base, hb, hs2, _⟩ := hhp h8
      exact ⟨_, hs2, slotHolds_store_same _ _ _ hb⟩

/-- The calls `top` and `pop` on a stack holding `ps` followed by `p`, in both
configurations: both return the low 48 bits of `p`, and `pop` leaves a stack
holding `ps`. -/
theorem pop_packed (b : Bool) (s : Experimental48BPStack) (ps : List Nat) (p : Nat)
    (hP : Packed s (ps ++ [p])) :
    top b s = .ok (p % 2 ^ 48)
      ∧ ∃ s2 : Experimental48BPStack, pop b s = .ok (p % 2 ^ 48, s2) ∧ Packed s2 ps := by
  obtain ⟨hS, hslots⟩ := hP
  have hlen : (ps ++ [p]).length = ps.length + 1 := by simp
  rw [hlen] at hS hslots
  obtain ⟨hi, hk, hl, hheap⟩ := hS
  have hg : (ps ++ [p]).getD ps.length 0 = p := by
    rw [List.getD_append_right ps [p] 0 ps.length (le_refl _)]
    simp
  obtain ⟨ha, hb⟩ := hslots ps.length (by omega)
  rw [hg] at ha hb
  have htop := top_of_slot b s ps.length p hi ha hb
  have hidx : int16_t (s.index - 1) = (ps.length : Int) := by
    have e : ((ps.length + 1 : Nat) : Int) - 1 = (ps.length : Int) := by omega
    rw [hi, e]
    exact int16_t_small ps.length (by omega)
  refine ⟨htop, { s with index := (ps.length : Int) }, ?_, ⟨rfl, by omega, hl, ?_⟩, ?_⟩
  · unfold pop
    rw [htop]
    simp only [bind, Except.bind, pure, Except.pure, hidx]
  · rcases hheap with ⟨hn, hz, _⟩ | ⟨heap, hh, hc⟩
    · exact Or.inl ⟨hn, hz, by omega⟩
    · refine Or.inr ⟨heap, hh, ?_⟩
      rcases hc with ⟨hl2, hm, _⟩ | hc
      · exact Or.inl ⟨hl2, hm, by omega⟩
      · exact Or.inr hc
  · intro i hi2
    have hg2 : (ps ++ [p]).getD i 0 = ps.getD i 0 := List.getD_append ps [p] 0 i hi2
    have := hslots i (by omega)
    rw [hg2] at this
    exact this

/-- A run of pushes that leaves at most 135 elements returns, and the stack
holds all pointers pushed. -/
theorem push_all_packed (ps : List Nat) :
    ∀ (s : Experimental48BPStack) (qs : List Nat), Packed s qs →
      qs.length + ps.length ≤ 135 →
      ∃ s2 : Experimental48BPStack, push_all s ps = .ok s2 ∧ Packed s2 (qs ++ ps) := by
  induction ps with
  | nil => intro s qs hP _; exact ⟨s, rfl, by rw [List.append_nil]; exact hP⟩
  | cons p ps ih =>
    intro s qs hP hk
    rw [List.length_cons] at hk
    obtain ⟨s1, h1, hP1⟩ := push_packed s qs p hP (by omega)
    obtain ⟨s2, h2, hP2⟩ := ih s1 (qs ++ [p]) hP1 (by
      rw [List.length_append, List.length_singleton]; omega)
    refine ⟨s2, ?_, ?_⟩
    · unfold push_all
      rw [List.foldlM_cons, h1]
      exact h2
    · rw [List.append_assoc] at hP2
      exact hP2

/-- Popping every element of a stack holding `ps` returns the low 48 bits of
the pointers, last pushed first, and leaves an empty stack. -/
theorem pop_n_packed (b : Bool) (ps : List Nat) :
    ∀ s : Experimental48BPStack, Packed s ps →
      ∃ s2 : Experimental48BPStack,
        pop_n b ps.length s = .ok ((ps.map (fun p => p % 2 ^ 48)).reverse, s2)
          ∧ Packed s2 [] := by
  induction ps using List.reverseRecOn with
  | nil => intro s hP; exact ⟨s, rfl, hP⟩
  | append_singleton l a ih =>
    intro s hP
    obtain ⟨_, s1, h1, hP1⟩ := pop_packed b s l a hP
    obtain ⟨s2, h2, hP2⟩ := ih s1 hP1
    refine ⟨s2, ?_, hP2⟩
    have hlen : (l ++ [a]).length = l.length + 1 := by simp
    rw [hlen]
    unfold pop_n
    rw [h1]
    simp only [bind, Except.bind, h2, pure, Except.pure]
    simp

/-- Every reachable state holds some sequence of at most 135 pointers. -/
theorem reachable_packed (b : Bool) (s : Experimental48BPStack) (hR : Reachable b s) :
    ∃ ps : List Nat, Packed s ps := by
  induction hR with
  | new => exact ⟨[], packed_new⟩
  | push s s2 t _ hp ih =>
    obtain ⟨ps, hP⟩ := ih
    by_cases c : ps.length < 135
    · obtain ⟨s3, hp3, hP3⟩ := push_packed s ps t hP c
      rw [hp] at hp3
      cases hp3
      exact ⟨_, hP3⟩
    · have h135 : ps.length = 135 := by have := hP.1.2.1; omega
      have := push_shape_full s t (by rw [← h135]; exact hP.1)
      rw [hp] at this
      cases this
  | pop s s2 t _ hpos hp ih =>
    obtain ⟨ps, hP⟩ := ih
    rcases List.eq_nil_or_concat ps with e | ⟨qs, p, e⟩
    · subst e
      have := hP.1.1
      unfold size at hpos
      rw [this] at hpos
      simp at hpos
    · rw [List.concat_eq_append] at e
      subst e
      obtain ⟨_, s3, hp3, hP3⟩ := pop_packed b s qs p hP
      rw [hp] at hp3
      cases hp3
      exact ⟨_, hP3⟩

/-- A run of 136 or more pushes onto an empty stack: the 136th `push` stores
outside the heap block. -/
theorem push_all_overrun (ps : List Nat) (hlo : 136 ≤ ps.length) :
    push_all new ps = .error .undefined := by
  have hsplit : ps = ps.take 135 ++ ps[135] :: ps.drop (135 + 1) := by
    rw [← List.drop_eq_getElem_cons (by omega), List.take_append_drop]
  have hl : (ps.take 135).length = 135 := by rw [List.length_take]; omega
  obtain ⟨s, h1, hF⟩ := push_all_filled (ps.take 135) new 0 filled_new (by omega)
  rw [Nat.zero_add, hl] at hF
  have h2 := (push_at_last_slot s ps[135] hF).2
  unfold push_all at h1 ⊢
  rw [hsplit, List.foldlM_append, h1]
  show List.foldlM push s _ = _
  rw [List.foldlM_cons, h2]
  rfl

/-- Claim C14, where the code diverges. The stack contract on packed 6-byte
elements holds only up to 135 elements.  For every sequence `ps` of at most
32767 pointer values below `2 ^ 48`, in both configurations of `top`: when
`|ps| ≤ 135`, pushing `ps` in order onto an empty stack and popping `|ps|` times
returns `ps` in reverse order, every pointer reproduced exactly; when
`136 ≤ |ps|`, the run of pushes is undefined behaviour at the 136th `push`, which
stores 8 bytes at offset 762 of the 768-byte heap block.  For an arbitrary
pointer value `p` and every reachable stack with fewer than 135 elements,
`top()` immediately after `push(p)` returns `p mod 2 ^ 48`. -/
theorem packed_lifo_until_last_heap_slot (b : Bool) (ps : List Nat)
    (_hhi : ps.length ≤ 32767) (hp : ∀ p ∈ ps, p < 2 ^ 48) :
    (ps.length ≤ 135 →
      ∃ s s2 : Experimental48BPStack, push_all new ps = .ok s
        ∧ size s = (ps.length : Int)
        ∧ pop_n b ps.length s = .ok (ps.reverse, s2)
        ∧ size s2 = 0)
    ∧ (136 ≤ ps.length → push_all new ps = .error .undefined)
    ∧ (∀ (s : Experimental48BPStack) (p : Nat), Reachable b s → size s < 135 →
        ∃ s2 : Experimental48BPStack, push s p = .ok s2 ∧ top b s2 = .ok (p % 2 ^ 48)) := by
  refine ⟨?_, push_all_overrun ps, ?_⟩
  · intro hle
    obtain ⟨s, h1, hP⟩ := push_all_packed ps new [] packed_new (by simpa using hle)
    rw [List.nil_append] at hP
    obtain ⟨s2, h2, hP2⟩ := pop_n_packed b ps s hP
    have hm : ps.map (fun p => p % 2 ^ 48) = ps := by
      rw [List.map_congr_left (fun p hmem => Nat.mod_eq_of_lt (hp p hmem))]
      exact List.map_id ps
    rw [hm] at h2
    exact ⟨s, s2, h1, hP.1.1, h2, hP2.1.1⟩
  · intro s p hR hlt
    obtain ⟨qs, hP⟩ := reachable_packed b s hR
    have hi := hP.1.1
    unfold size at hlt
    obtain ⟨s2, h1, hP2⟩ := push_packed s qs p hP (by omega)
    exact ⟨s2, h1, (pop_packed b s2 qs p hP2).1⟩

/-- Witness of C14: three pointers pushed and popped, a run of 136 pushes of the
pointer value `0x7ffdeadbeef0`, and `top` after the first `push`. -/
theorem packed_lifo_until_last_heap_slot_witness :
    (([0x7ffdeadbeef0, 0x1000, 0xffffffffffff] : List Nat).length ≤ 32767
      ∧ (∀ p ∈ ([0x7ffdeadbeef0, 0x1000, 0xffffffffffff] : List Nat), p < 2 ^ 48)
      ∧ ([0x7ffdeadbeef0, 0x1000, 0xffffffffffff] : List Nat).length ≤ 135
      ∧ (List.replicate 136 0x7ffdeadbeef0).length ≤ 32767
      ∧ (∀ p ∈ List.replicate 136 0x7ffdeadbeef0, p < 2 ^ 48)
      ∧ 136 ≤ (List.replicate 136 0x7ffdeadbeef0).length
      ∧ Reachable false new ∧ size new < 135)
    ∧ (∃ s s2 : Experimental48BPStack,
        push_all new [0x7ffdeadbeef0, 0x1000, 0xffffffffffff] = .ok s
        ∧ size s = (([0x7ffdeadbeef0, 0x1000, 0xffffffffffff] : List Nat).length : Int)
        ∧ pop_n false ([0x7ffdeadbeef0, 0x1000, 0xffffffffffff] : List Nat).length s
            = .ok (([0x7ffdeadbeef0, 0x1000, 0xffffffffffff] : List Nat).reverse, s2)
        ∧ size s2 = 0)
    ∧ push_all new (List.replicate 136 0x7ffdeadbeef0) = .error .undefined
    ∧ ∃ s2 : Experimental48BPStack, push new 0xffff7ffdeadbeef0 = .ok s2
        ∧ top false s2 = .ok (0xffff7ffdeadbeef0 % 2 ^ 48) :=
  have h3 : ∀ p ∈ ([0x7ffdeadbeef0, 0x1000, 0xffffffffffff] : List Nat), p < 2 ^ 48 := by
    decide
  have hp : ∀ p ∈ List.replicate 136 0x7ffdeadbeef0, p < 2 ^ 48 := fun p hp => by
    rw [List.eq_of_mem_replicate hp]; decide
  have hl : (List.replicate 136 0x7ffdeadbeef0).length ≤ 32767 := by
    rw [List.length_replicate]; decide
  ⟨⟨by decide, h3, by decide, hl, hp, by rw [List.length_replicate], Reachable.new, by decide⟩,
    (packed_lifo_until_last_heap_slot false [0x7ffdeadbeef0, 0x1000, 0xffffffffffff]
      (by decide) h3).1 (by decide),
    (packed_lifo_until_last_heap_slot false (List.replicate 136 0x7ffdeadbeef0) hl hp).2.1
      (by rw [List.length_replicate]),
    (packed_lifo_until_last_heap_slot false [0x7ffdeadbeef0, 0x1000, 0xffffffffffff]
      (by decide) h3).2.2 new 0xffff7ffdeadbeef0 Reachable.new (by decide)⟩

end Experimental48BPStack

end CppDS
